import Mathlib

/-!
# Diff store actions (`app/assets/javascripts/diffs/store/actions.js`)

A shallow embedding of the Vuex actions of the merge-request diff store.
An action receives the store (`state`, `commit`, `dispatch`, getters) and
runs to completion on the single cooperative JavaScript thread; its
observable behaviour is the ordered log of what it committed, dispatched,
emitted and requested, together with the state it leaves behind.

Conventions of the embedding:

* JavaScript strings are `String`; a string is truthy when it is not `""`.
* `null`/`undefined` object references are `Option`.
* an uncaught `TypeError` inside a promise callback is the `error` branch
  of `Except`, carrying the store as it was when the exception was thrown.
-/

namespace Diffs

/-! ## Data model -/

/-- The `viewer` object of a diff file. -/
structure Viewer where
  name : String
  automaticallyCollapsed : Bool
  manuallyCollapsed : Bool
  deriving DecidableEq, Repr

/-- One line of a diff file, as far as the actions read or write it. -/
structure Line where
  old_line : Nat
  new_line : Nat
  line_code : String
  deriving DecidableEq, Repr

/-- A diff file, as far as the actions read it. -/
structure DiffFile where
  file_hash : String
  file_path : String
  renderIt : Bool
  viewer : Option Viewer
  deriving DecidableEq, Repr

/-- A discussion of the notes module, as far as the actions read it. -/
structure Discussion where
  id : String
  expanded : Bool
  diff_file : Option DiffFile
  deriving DecidableEq, Repr

/-- Actions reached through `dispatch`. -/
inductive Action where
  | collapseDiscussion (discussionId : String)
  | expandDiscussion (discussionId : String)
  | setCurrentDiffFileIdFromNote (noteId : String)
  | fetchDiffFilesMeta
  | changeCurrentCommit (commitId : String)
  deriving DecidableEq, Repr

/-- The getters `toggleFileDiscussions` reads. Their implementation lives in
the store getters, outside the actions file, so they are taken as given. -/
structure Getters where
  getDiffFileDiscussions : DiffFile → List Discussion
  diffHasAllExpandedDiscussions : DiffFile → Bool
  diffHasAllCollapsedDiscussions : DiffFile → Bool

/-! ## toggleFileDiscussions -/

/-- The body of the `forEach` callback of `toggleFileDiscussions`: what is
dispatched for one discussion. -/
def toggleOne (shouldCloseAll shouldExpandAll : Bool) (discussion : Discussion) :
    List Action :=
  if shouldCloseAll then
    [Action.collapseDiscussion discussion.id]
  else if shouldExpandAll || (!shouldCloseAll && !shouldExpandAll && !discussion.expanded) then
    [Action.expandDiscussion discussion.id]
  else
    []

/-- The action `toggleFileDiscussions`: the root actions it dispatches, in order. -/
def toggleFileDiscussions (getters : Getters) (diff : DiffFile) : List Action :=
  let discussions := getters.getDiffFileDiscussions diff
  let shouldCloseAll := getters.diffHasAllExpandedDiscussions diff
  let shouldExpandAll := getters.diffHasAllCollapsedDiscussions diff
  discussions.flatMap (toggleOne shouldCloseAll shouldExpandAll)

/-- A sample of getters over a fixed list of discussions, used to instantiate
statements about `toggleFileDiscussions` at concrete inputs. -/
def sampleGetters (ds : List Discussion) : Getters where
  getDiffFileDiscussions := fun _ => ds
  diffHasAllExpandedDiscussions := fun _ => ds.all (fun d => d.expanded)
  diffHasAllCollapsedDiscussions := fun _ => ds.all (fun d => !d.expanded)

/-- A sample diff file. -/
def sampleFile (file_hash : String) : DiffFile :=
  { file_hash := file_hash, file_path := file_hash, renderIt := false, viewer := none }

/-! ## Store: state, mutations, effects -/

/-- The commit being browsed (`state.commit`). -/
structure Commit where
  id : String
  prev_commit_id : Option String
  next_commit_id : Option String
  deriving DecidableEq, Repr

/-- The fields of the diffs module state that the actions read. -/
structure State where
  diffFiles : List DiffFile
  currentDiffFileId : String
  retrievingBatches : Bool
  isBatchLoading : Bool
  isLoading : Bool
  showWhitespace : Bool
  commit : Option Commit
  endpoint : String
  endpointMetadata : String
  endpointBatch : String
  endpointCoverage : String
  projectPath : String
  dismissEndpoint : String
  showSuggestPopover : Bool
  deriving DecidableEq, Repr

/-- The trigger tag of a collapse mutation: the constants
`DIFF_FILE_MANUAL_COLLAPSE` and `DIFF_FILE_AUTOMATIC_COLLAPSE`. -/
inductive CollapseTrigger where
  | DIFF_FILE_MANUAL_COLLAPSE
  | DIFF_FILE_AUTOMATIC_COLLAPSE
  deriving DecidableEq, Repr

/-- Mutations committed by the modelled actions, with their payloads. -/
inductive Mutation where
  | SET_BASE_CONFIG (options : State)
  | SET_BATCH_LOADING (isBatchLoading : Bool)
  | SET_RETRIEVING_BATCHES (retrievingBatches : Bool)
  | SET_DIFF_DATA_BATCH (diff_files : List DiffFile)
  | SET_DIFF_FILES (diffFiles : List DiffFile)
  | VIEW_DIFF_FILE (fileId : String)
  | RENDER_FILE (file : DiffFile)
  | SET_CURRENT_VIEW_DIFF_FILE_LINES (filePath : String) (lines : List Line)
  | ADD_CURRENT_VIEW_DIFF_FILE_LINES (filePath : String) (line : Line)
  | TOGGLE_DIFF_FILE_RENDERING_MORE (filePath : String)
  | SET_FILE_COLLAPSED (filePath : String) (collapsed : Bool) (trigger : CollapseTrigger)
  | SET_HIGHLIGHTED_ROW (lineCode : String)
  deriving DecidableEq, Repr

/-- What an action does to the outside, in the order it does it. -/
inductive Effect where
  | commit (mutation : Mutation)
  | dispatch (action : Action)
  | emit (event : String)
  | axiosGet (page : Nat)
  | importCodeNavigation
  | handleLocationHash
  | scrollToElement (elementId : String)
  deriving DecidableEq, Repr

/-- Sets `renderIt` on the first file of the list that is the given file
(the object the mutation receives is an element of `state.diffFiles`). -/
def markRendered (file : DiffFile) : List DiffFile → List DiffFile
  | [] => []
  | f :: fs =>
    if f = file then { f with renderIt := true } :: fs else f :: markRendered file fs

/-- Sets the collapse state of the first file of the list with the given
path: collapsed by the given trigger, or expanded. A file has one collapse
state at a time: collapsed automatically, collapsed manually, or expanded. -/
def setFileCollapsed (filePath : String) (collapsed : Bool) (trigger : CollapseTrigger) :
    List DiffFile → List DiffFile
  | [] => []
  | f :: fs =>
    if f.file_path = filePath then
      { f with viewer := f.viewer.map fun v =>
          { v with
            automaticallyCollapsed :=
              collapsed && decide (trigger = .DIFF_FILE_AUTOMATIC_COLLAPSE)
            manuallyCollapsed :=
              collapsed && decide (trigger = .DIFF_FILE_MANUAL_COLLAPSE) } } :: fs
    else
      f :: setFileCollapsed filePath collapsed trigger fs

/-- Modelled from the spec: the mutations, whose source (`mutations.js`) is
not among the sources of this development. `SET_DIFF_DATA_BATCH` appends the arrived files to the file
collection, `VIEW_DIFF_FILE` makes a file the active one,
`SET_RETRIEVING_BATCHES` and `SET_BATCH_LOADING` set the retrieval flags,
`SET_DIFF_FILES` replaces the file collection, `RENDER_FILE` marks the file as
rendered (`renderIt = true`), `SET_FILE_COLLAPSED` sets the collapse state of
the file with the given path, and `SET_BASE_CONFIG` stores the configuration
fields that `setBaseConfig` passes on. The other mutations do not touch the
fields modelled in `State`. -/
def applyMutation (state : State) : Mutation → State
  | .SET_BASE_CONFIG options =>
    { state with
      endpoint := options.endpoint
      endpointMetadata := options.endpointMetadata
      endpointBatch := options.endpointBatch
      endpointCoverage := options.endpointCoverage
      projectPath := options.projectPath
      dismissEndpoint := options.dismissEndpoint
      showSuggestPopover := options.showSuggestPopover }
  | .SET_BATCH_LOADING b => { state with isBatchLoading := b }
  | .SET_RETRIEVING_BATCHES b => { state with retrievingBatches := b }
  | .SET_DIFF_DATA_BATCH diff_files => { state with diffFiles := state.diffFiles ++ diff_files }
  | .SET_DIFF_FILES diffFiles => { state with diffFiles := diffFiles }
  | .VIEW_DIFF_FILE fileId => { state with currentDiffFileId := fileId }
  | .RENDER_FILE file => { state with diffFiles := markRendered file state.diffFiles }
  | .SET_CURRENT_VIEW_DIFF_FILE_LINES _ _ => state
  | .ADD_CURRENT_VIEW_DIFF_FILE_LINES _ _ => state
  | .TOGGLE_DIFF_FILE_RENDERING_MORE _ => state
  | .SET_FILE_COLLAPSED filePath collapsed trigger =>
    { state with diffFiles := setFileCollapsed filePath collapsed trigger state.diffFiles }
  | .SET_HIGHLIGHTED_ROW _ => state

/-- The store an action runs against: the current state and the log of the
effects performed so far. -/
structure Store where
  state : State
  log : List Effect
  deriving DecidableEq, Repr

/-- `commit(type, payload)`: logs the mutation and applies it to the state. -/
def Store.commit (st : Store) (m : Mutation) : Store :=
  { state := applyMutation st.state m, log := st.log ++ [Effect.commit m] }

/-- Logs an effect that leaves the state alone. -/
def Store.perform (st : Store) (e : Effect) : Store :=
  { st with log := st.log ++ [e] }

/-- JavaScript truthiness of a string. -/
def truthy (s : String) : Bool := s != ""

/-- JavaScript truthiness of a page number that may be `null`. -/
def truthyPage : Option Nat → Bool
  | some (_ + 1) => true
  | _ => false

/-! ## fetchDiffFilesBatch -/

/-- A note of the notes module. -/
structure Note where
  discussion_id : String
  deriving DecidableEq, Repr

/-- The root getters `setCurrentDiffFileIdFromNote` reads. -/
structure RootGetters where
  notesById : String → Option Note
  getDiscussion : String → Option Discussion

/-- The `pagination` object of a batch response. -/
structure Pagination where
  next_page : Option Nat
  deriving DecidableEq, Repr

/-- The body of a response of the batch endpoint. -/
structure BatchResponse where
  pagination : Pagination
  diff_files : List DiffFile
  deriving DecidableEq, Repr

/-- How a promise chain stands when the script of responses is used up. -/
inductive Outcome where
  | resolved
  | pending
  deriving DecidableEq, Repr

/-- `id.indexOf('#note') === 0` for the location hash `id`. -/
def isNoteLink (id : String) : Bool := "#note".data.isPrefixOf id.data

/-- `id.split('_').pop()` for the location hash `id`. -/
def noteIdOf (id : String) : String :=
  String.mk ((id.data.splitOn '_').getLastD [])

/-- The action `setCurrentDiffFileIdFromNote`. Reading `diff_file` of a
discussion that `getDiscussion` does not find throws. -/
def setCurrentDiffFileIdFromNote (rootGetters : RootGetters) (st : Store) (noteId : String) :
    Except Store Store :=
  match rootGetters.notesById noteId with
  | none => .ok st
  | some note =>
    match rootGetters.getDiscussion note.discussion_id with
    | none => .error st
    | some discussion =>
      match discussion.diff_file with
      | none => .ok st
      | some diff_file =>
        let fileHash := diff_file.file_hash
        if truthy fileHash && st.state.diffFiles.any (fun f => f.file_hash == fileHash) then
          .ok (st.commit (.VIEW_DIFF_FILE fileHash))
        else
          .ok st

/-- Lines 92-94 of `getBatch`: without a note link and without an active
file, the first file of the arrived page becomes the active one. Reading
`file_hash` of `diff_files[0]` throws when the page has no file. -/
def selectFirstOfPage (id : String) (st : Store) (diff_files : List DiffFile) :
    Except Store Store :=
  if !isNoteLink id && !truthy st.state.currentDiffFileId then
    match diff_files.head? with
    | none => .error st
    | some file => .ok (st.commit (.VIEW_DIFF_FILE file.file_hash))
  else
    .ok st

/-- Lines 96-98 of `getBatch`: with a note link, the owning file of the note
is looked up after every page. -/
def selectFromNote (id : String) (rootGetters : RootGetters) (st : Store) :
    Except Store Store :=
  if isNoteLink id then
    setCurrentDiffFileIdFromNote rootGetters
      (st.perform (.dispatch (.setCurrentDiffFileIdFromNote (noteIdOf id)))) (noteIdOf id)
  else
    .ok st

/-- Lines 100-126 of `getBatch`: what the last page triggers. -/
def finishBatches (id : String) (st : Store) : Except Store Store :=
  let st1 := st.commit (.SET_RETRIEVING_BATCHES false)
  let fallback : Except Store Store :=
    if truthy st1.state.currentDiffFileId
        && !st1.state.diffFiles.any (fun f => f.file_hash == st1.state.currentDiffFileId)
        && !isNoteLink id then
      match st1.state.diffFiles.head? with
      | none => .error st1
      | some file => .ok (st1.commit (.VIEW_DIFF_FILE file.file_hash))
    else
      .ok st1
  fallback.map fun st2 =>
    if st2.state.diffFiles.length != 0 then st2.perform .importCodeNavigation else st2

/-- The first `then` callback of `getBatch` (lines 88-129): applies one page
and returns `pagination.next_page`. -/
def getBatchThen (id : String) (rootGetters : RootGetters) (st : Store) (r : BatchResponse) :
    Except Store (Store × Option Nat) :=
  let st1 := (st.commit (.SET_DIFF_DATA_BATCH r.diff_files)).commit (.SET_BATCH_LOADING false)
  match selectFirstOfPage id st1 r.diff_files with
  | .error thrown => .error thrown
  | .ok st2 =>
    match selectFromNote id rootGetters st2 with
    | .error thrown => .error thrown
    | .ok st3 =>
      if !truthyPage r.pagination.next_page then
        match finishBatches id st3 with
        | .error thrown => .error thrown
        | .ok st4 => .ok (st4, r.pagination.next_page)
      else
        .ok (st3, r.pagination.next_page)

/-- The recursive `getBatch` of `fetchDiffFilesBatch`, run against the
responses the server gives to the successive requests (`none` is a request
that fails). A request that gets no response leaves the chain pending. -/
def getBatch (id : String) (rootGetters : RootGetters) :
    List (Option BatchResponse) → Nat → Store → Store × Outcome
  | [], page, st => (st.perform (.axiosGet page), .pending)
  | none :: _, page, st =>
    ((st.perform (.axiosGet page)).commit (.SET_RETRIEVING_BATCHES false), .resolved)
  | some r :: rest, page, st =>
    match getBatchThen id rootGetters (st.perform (.axiosGet page)) r with
    | .error st1 => (st1.commit (.SET_RETRIEVING_BATCHES false), .resolved)
    | .ok (st1, nextPage) =>
      match nextPage with
      | some (n + 1) => getBatch id rootGetters rest (n + 1) st1
      | _ => (st1, .resolved)

/-- The action `fetchDiffFilesBatch`, for the location hash `id`. -/
def fetchDiffFilesBatch (id : String) (rootGetters : RootGetters)
    (responses : List (Option BatchResponse)) (st : Store) : Store × Outcome :=
  let st1 := (st.commit (.SET_BATCH_LOADING true)).commit (.SET_RETRIEVING_BATCHES true)
  let st2 := st1.perform (.emit "EVT_PERF_MARK_DIFF_FILES_START")
  match getBatch id rootGetters responses 1 st2 with
  | (st3, .resolved) => (st3.perform .handleLocationHash, .resolved)
  | (st3, .pending) => (st3, .pending)

/-! ## Reading a log back -/

/-- The effect of one log entry on the state: only commits change it. -/
def applyEffect (state : State) : Effect → State
  | .commit m => applyMutation state m
  | _ => state

/-- The states the store goes through while a log is performed, the
starting state first. -/
def stateTrace (state : State) : List Effect → List State
  | [] => [state]
  | e :: es => state :: stateTrace (applyEffect state e) es

/-- The payload of a `SET_RETRIEVING_BATCHES` commit. -/
def retrievingCommit : Effect → Option Bool
  | .commit (.SET_RETRIEVING_BATCHES b) => some b
  | _ => none

/-- The page of a batch request. -/
def requestedPage : Effect → Option Nat
  | .axiosGet page => some page
  | _ => none

/-- The number of places where a sequence of flag values goes from `true`
to `false`. -/
def drops : List Bool → Nat
  | a :: b :: rest => (if a && !b then 1 else 0) + drops (b :: rest)
  | _ => 0

/-- A state with nothing loaded: no files, no active file, no commit. -/
def emptyState : State :=
  { diffFiles := [], currentDiffFileId := "", retrievingBatches := false
    isBatchLoading := false, isLoading := false, showWhitespace := true, commit := none
    endpoint := "", endpointMetadata := "", endpointBatch := "", endpointCoverage := ""
    projectPath := "", dismissEndpoint := "", showSuggestPopover := false }

/-- Root getters of a notes module without notes. -/
def noNotes : RootGetters :=
  { notesById := fun _ => none, getDiscussion := fun _ => none }

/-- The store `st1` is `st` after some further effects, whose
`SET_RETRIEVING_BATCHES` payloads are `bs`, and its state is what those
effects make of the state of `st`. -/
def Extends (st st1 : Store) (bs : List Bool) : Prop :=
  ∃ ext, st1.log = st.log ++ ext ∧ ext.filterMap retrievingCommit = bs
    ∧ st1.state = ext.foldl applyEffect st.state

/-- The store a step leaves behind, whether it returned or threw. -/
def storeOf : Except Store Store → Store
  | .ok st => st
  | .error st => st

/-- A load of two pages in which the request for the second page fails. -/
def failingSecondPage : List (Option BatchResponse) :=
  [some { pagination := { next_page := some 2 }, diff_files := [sampleFile "a1"] }, none]

/-- Two discussions of one file, the first expanded and the second collapsed. -/
def mixedDiscussions : List Discussion :=
  [{ id := "d1", expanded := true, diff_file := none },
   { id := "d2", expanded := false, diff_file := none }]

/-- A sequence of pages that one load walks through to its end: every page
but the last names a next page, the last does not. -/
def isCompleteLoad : List BatchResponse → Bool
  | [] => false
  | [p] => !truthyPage p.pagination.next_page
  | p :: q :: rest => truthyPage p.pagination.next_page && isCompleteLoad (q :: rest)

/-- Whether a file with the given hash is in the collection
(`diffFiles.some(f => f.file_hash === fileHash)`). -/
def hasFile (diffFiles : List DiffFile) (fileHash : String) : Bool :=
  diffFiles.any (fun f => f.file_hash == fileHash)

/-- The other nineteen files of the first sample page. -/
def firstPageTail : List DiffFile :=
  ["f02", "f03", "f04", "f05", "f06", "f07", "f08", "f09", "f10", "f11",
   "f12", "f13", "f14", "f15", "f16", "f17", "f18", "f19", "f20"].map sampleFile

/-- A first page of twenty files that names page 2 as the next one. -/
def firstPage : BatchResponse :=
  { pagination := { next_page := some 2 }, diff_files := sampleFile "f01" :: firstPageTail }

/-- A last page of five files. -/
def lastPage : BatchResponse :=
  { pagination := { next_page := none }
    diff_files := ["g01", "g02", "g03", "g04", "g05"].map sampleFile }

/-- A first page without files that names page 2 as the next one, followed by
a last page with one file. -/
def emptyFirstPage : List (Option BatchResponse) :=
  [some { pagination := { next_page := some 2 }, diff_files := [] },
   some { pagination := { next_page := none }, diff_files := [sampleFile "a1"] }]

/-- The payload of a `VIEW_DIFF_FILE` commit. -/
def viewCommit : Effect → Option String
  | .commit (.VIEW_DIFF_FILE fileId) => some fileId
  | _ => none

/-- Every `VIEW_DIFF_FILE` commit of the log selects the file `fileHash`. -/
def OnlyViews (fileHash : String) (st : Store) : Prop :=
  ∀ x ∈ st.log.filterMap viewCommit, x = fileHash

/-- The notes module of the scenario: note 42 belongs to a discussion on the
file with hash `abc123`. -/
def notesOfScenario : RootGetters :=
  { notesById := fun noteId =>
      if noteId = "42" then some { discussion_id := "disc1" } else none
    getDiscussion := fun discussionId =>
      if discussionId = "disc1" then
        some { id := "disc1", expanded := true, diff_file := some (sampleFile "abc123") }
      else none }

/-- A last page that holds the file with hash `abc123` in second place. -/
def pageOfScenario : BatchResponse :=
  { pagination := { next_page := none }
    diff_files := [sampleFile "g01", sampleFile "abc123", sampleFile "g03"] }

/-! ## changeCurrentCommit -/

/-- The scan behind `endpoint.replace(new RegExp(id, 'g'), commitId)`, for a
commit id that is a hexadecimal digest: such a pattern has no regular
expression metacharacter and matches exactly its own text, and such a
replacement has no `$` pattern. The subject is read from left to right; where
the pattern matches, the replacement is written and the scan goes on behind
the match (`skip` counts the characters of a match still to pass over), and
elsewhere the character is copied. An empty pattern matches before every
character and at the end. -/
def replaceScan (pattern replacement : List Char) : Nat → List Char → List Char
  | 0, [] => if pattern.isEmpty then replacement else []
  | _ + 1, [] => []
  | skip + 1, _ :: cs => replaceScan pattern replacement skip cs
  | 0, c :: cs =>
    if pattern.isPrefixOf (c :: cs) then
      match pattern.length with
      | 0 => replacement ++ c :: replaceScan pattern replacement 0 cs
      | k + 1 => replacement ++ replaceScan pattern replacement k cs
    else
      c :: replaceScan pattern replacement 0 cs

/-- `subject.replace(new RegExp(pattern, 'g'), replacement)` on strings. -/
def jsReplaceAll (pattern replacement subject : String) : String :=
  String.mk (replaceScan pattern.data replacement.data 0 subject.data)

/-- The words of the specification for the rewriting of an endpoint: every
occurrence of `old` is replaced by `new`. A text without occurrence of `old`
stays as it is; otherwise the text is cut at its leftmost occurrence, the part
before it stays, the occurrence becomes `new`, and every occurrence in the
rest is replaced in the same way. -/
inductive ReplacedAll (old new : List Char) : List Char → List Char → Prop where
  | done (s : List Char) : ¬ old <:+: s → ReplacedAll old new s s
  | step (a rest t : List Char) : ¬ old <:+: (a ++ old.dropLast) →
      ReplacedAll old new rest t → ReplacedAll old new (a ++ old ++ rest) (a ++ new ++ t)

/-- A commit id: a non-empty text of hexadecimal digits. For such a text the
regular expression built from it matches the text itself and nothing else. -/
def isCommitId (s : String) : Bool :=
  s != "" && s.data.all (fun ch => "0123456789abcdefABCDEF".data.contains ch)

/-- The two rejections of `changeCurrentCommit`: the error for a missing
`commitId` argument and the error for a state without `commit`. -/
inductive ChangeCommitError where
  | commitIdRequired
  | commitRequired
  deriving DecidableEq, Repr

/-- JavaScript truthiness of an argument that is a string or missing. -/
def truthyArg : Option String → Bool
  | some s => truthy s
  | none => false

/-- The action `changeCurrentCommit`: the store it leaves, and whether the
promise it returns is a rejection of its own (`error`) or the promise of the
dispatched `fetchDiffFilesMeta` (`ok`). -/
def changeCurrentCommit (st : Store) (commitId : Option String) :
    Store × Except ChangeCommitError Unit :=
  if !truthyArg commitId then
    (st, .error .commitIdRequired)
  else
    match st.state.commit with
    | none => (st, .error .commitRequired)
    | some commit =>
      let newId := commitId.getD ""
      let st1 := st.commit (.SET_DIFF_FILES [])
      let st2 := st1.commit (.SET_BASE_CONFIG
        { st1.state with
          endpoint := jsReplaceAll commit.id newId st1.state.endpoint
          endpointBatch := jsReplaceAll commit.id newId st1.state.endpointBatch
          endpointMetadata := jsReplaceAll commit.id newId st1.state.endpointMetadata })
      (st2.perform (.dispatch .fetchDiffFilesMeta), .ok ())

/-- The state of the scenario: commit `deadbeef` is being browsed. -/
def stateOfScenario : State :=
  { emptyState with
    diffFiles := [sampleFile "f01"]
    commit := some { id := "deadbeef", prev_commit_id := none, next_commit_id := some "feedface" }
    endpoint := "/group/project/-/commit/deadbeef/diff"
    endpointBatch := "/group/project/-/commit/deadbeef/diffs_batch.json"
    endpointMetadata := "/group/project/-/commit/deadbeef/diffs_metadata.json"
    endpointCoverage := "/group/project/-/coverage.json"
    projectPath := "group/project" }

/-! ## setExpandedDiffLines -/

/-- The rendering constants of `diffs/constants.js`, whose values are not
among the sources of this development: they are parameters of the embedding. -/
structure Constants where
  MAX_RENDERING_DIFF_LINES : Nat
  MAX_RENDERING_BULK_ROWS : Nat
  MIN_RENDERING_MS : Nat
  START_RENDERING_INDEX : Nat
  deriving DecidableEq, Repr

/-- Where the `while` loop of `idleCb` stands: the index reached, what the
loop committed, and whether the loop was left (`false` when the fuel of the
embedding ran out while the loop was still going round). -/
structure LoopResult where
  index : Nat
  log : List Effect
  exited : Bool
  deriving DecidableEq, Repr

/-- The `while` loop of `idleCb`. `timeRemaining k` is what the `k`-th call
of `t.timeRemaining()` returns in this idle slice; the loop calls it once for
every test of its condition. -/
def idleLoop (c : Constants) (filePath : String) (expandedDiffLines : List Line)
    (timeRemaining : Nat → Nat) (startIndex : Nat) :
    Nat → Nat → Nat → List Effect → LoopResult
  | 0, _, index, log => { index := index, log := log, exited := false }
  | fuel + 1, k, index, log =>
    if c.MIN_RENDERING_MS ≤ timeRemaining k
        ∧ index ≠ expandedDiffLines.length
        ∧ index - startIndex ≠ c.MAX_RENDERING_BULK_ROWS then
      match expandedDiffLines[index]? with
      | some line =>
        idleLoop c filePath expandedDiffLines timeRemaining startIndex fuel (k + 1) (index + 1)
          (log ++ [Effect.commit (.ADD_CURRENT_VIEW_DIFF_FILE_LINES filePath line)])
      | none =>
        idleLoop c filePath expandedDiffLines timeRemaining startIndex fuel (k + 1) index log
    else
      { index := index, log := log, exited := true }

/-- The idle callbacks of `setExpandedDiffLines`, one after the other:
`idleCb` runs its loop from the index reached so far, and either asks for
another idle slice (`idleCallback(idleCb)`) or toggles the rendering-more flag
back. `provider n` is the deadline object of the `n`-th slice granted. The
result lists what each slice committed and tells whether rendering got to its
end within the slices counted by the first argument. -/
def runIdle (c : Constants) (filePath : String) (expandedDiffLines : List Line)
    (provider : Nat → Nat → Nat) (loopFuel : Nat) :
    Nat → Nat → Nat → List (List Effect) × Bool
  | 0, _, _ => ([], false)
  | slices + 1, sliceNo, index =>
    let r := idleLoop c filePath expandedDiffLines (provider sliceNo) index loopFuel 0 index []
    if !r.exited then
      ([r.log], false)
    else if r.index ≠ expandedDiffLines.length then
      ((r.log :: (runIdle c filePath expandedDiffLines provider loopFuel slices (sliceNo + 1)
          r.index).1),
        (runIdle c filePath expandedDiffLines provider loopFuel slices (sliceNo + 1) r.index).2)
    else
      ([r.log ++ [Effect.commit (.TOGGLE_DIFF_FILE_RENDERING_MORE filePath)]], true)

/-- What a run of `setExpandedDiffLines` commits: in the synchronous step of
the action, and in each of the idle slices after it. -/
structure RenderRun where
  sync : List Effect
  slices : List (List Effect)
  finished : Bool
  deriving DecidableEq, Repr

/-- The action `setExpandedDiffLines` from line 519 on, for the lines that
`convertExpandLines` returned. `fuel` bounds the number of idle slices looked
at and the number of rounds of the loop within one slice. -/
def setExpandedDiffLines (c : Constants) (file : DiffFile) (expandedDiffLines : List Line)
    (provider : Nat → Nat → Nat) (fuel : Nat) : RenderRun :=
  if expandedDiffLines.length > c.MAX_RENDERING_DIFF_LINES then
    let index := c.START_RENDERING_INDEX
    let idle := runIdle c file.file_path expandedDiffLines provider fuel fuel 0 index
    { sync :=
        [Effect.commit (.SET_CURRENT_VIEW_DIFF_FILE_LINES file.file_path
            (expandedDiffLines.take index)),
         Effect.commit (.TOGGLE_DIFF_FILE_RENDERING_MORE file.file_path)]
      slices := idle.1
      finished := idle.2 }
  else
    { sync := [Effect.commit (.SET_CURRENT_VIEW_DIFF_FILE_LINES file.file_path
        expandedDiffLines)]
      slices := []
      finished := true }

/-- The lines a log entry applies to the visible lines of a file. -/
def appliedLines : Effect → List Line
  | .commit (.SET_CURRENT_VIEW_DIFF_FILE_LINES _ lines) => lines
  | .commit (.ADD_CURRENT_VIEW_DIFF_FILE_LINES _ line) => [line]
  | _ => []

/-- Sample values of the rendering constants. -/
def sampleConstants : Constants :=
  { MAX_RENDERING_DIFF_LINES := 3, MAX_RENDERING_BULK_ROWS := 2
    MIN_RENDERING_MS := 2, START_RENDERING_INDEX := 1 }

/-- Seven sample lines of a file with hash `f01`. -/
def sampleLines : List Line :=
  [{ old_line := 1, new_line := 1, line_code := "f01_1_1" },
   { old_line := 2, new_line := 2, line_code := "f01_2_2" },
   { old_line := 3, new_line := 3, line_code := "f01_3_3" },
   { old_line := 4, new_line := 4, line_code := "f01_4_4" },
   { old_line := 5, new_line := 5, line_code := "f01_5_5" },
   { old_line := 6, new_line := 6, line_code := "f01_6_6" },
   { old_line := 7, new_line := 7, line_code := "f01_7_7" }]

/-- An idle-time provider whose slices report ten milliseconds at their
first reading and one millisecond less at each further reading. -/
def sampleProvider : Nat → Nat → Nat := fun _ k => 10 - k

/-! ## startRenderDiffsQueue -/

/-- The predicate of the `find` in `checkItem`: the file is not rendered yet,
has a viewer, and is not collapsed or has a viewer other than the text one.
`isCollapsed` (of `diffs/diff_file.js`) and `textMode` (the constant
`diffViewerModes.text`) are defined outside `actions.js` and are parameters. -/
def isNextFile (isCollapsed : DiffFile → Bool) (textMode : String) (file : DiffFile) : Bool :=
  !file.renderIt &&
    (match file.viewer with
     | none => false
     | some viewer => !isCollapsed file || viewer.name != textMode)

/-- What the browser runs next during a run of `startRenderDiffsQueue`: the
oldest callback waiting in the queue of `requestAnimationFrame`, or the
callback waiting in the queue of `requestIdleCallback` (in an idle period, or
at its timeout of one second). The two queues are independent of each other:
a list of ticks is one order in which the browser runs the callbacks, and a
tick whose queue is empty runs nothing. -/
inductive Tick where
  | animationFrame
  | idleCallback
  deriving DecidableEq, Repr

/-- Where a run of `startRenderDiffsQueue` stands: the store, the files whose
`RENDER_FILE` commit waits for an animation frame (the oldest request first),
whether a call of `checkItem` waits for an idle period, and whether the
promise of the action is resolved. -/
structure RenderQueue where
  store : Store
  frames : List DiffFile
  idle : Bool
  resolved : Bool
  deriving DecidableEq, Repr

/-- One call of `checkItem` (lines 265-288): it looks for the next file to
render in the state as it is now; for a file found it requests an animation
frame for the commit of `RENDER_FILE` and an idle callback for the next call
of `checkItem`; when no file is found it resolves the promise. -/
def checkItem (isCollapsed : DiffFile → Bool) (textMode : String) (q : RenderQueue) :
    RenderQueue :=
  match q.store.state.diffFiles.find? (isNextFile isCollapsed textMode) with
  | some nextFile => { q with frames := q.frames ++ [nextFile], idle := true }
  | none => { q with resolved := true }

/-- The callback the browser runs at a tick: the oldest animation-frame
callback commits `RENDER_FILE` for its file (lines 274-276), the idle callback
calls `checkItem` (lines 278-282). -/
def runTick (isCollapsed : DiffFile → Bool) (textMode : String) (q : RenderQueue) :
    Tick → RenderQueue
  | .animationFrame =>
    match q.frames with
    | [] => q
    | file :: later => { q with store := q.store.commit (.RENDER_FILE file), frames := later }
  | .idleCallback =>
    if q.idle then checkItem isCollapsed textMode { q with idle := false } else q

/-- The action `startRenderDiffsQueue`: the first call of `checkItem`, made by
the action itself, and then the callbacks in the order `schedule` in which the
browser runs them. -/
def startRenderDiffsQueue (isCollapsed : DiffFile → Bool) (textMode : String)
    (schedule : List Tick) (st : Store) : RenderQueue :=
  schedule.foldl (runTick isCollapsed textMode)
    (checkItem isCollapsed textMode { store := st, frames := [], idle := false, resolved := false })

/-- The order of callbacks in which every idle callback runs after the
animation frame that was requested together with it: `rounds` times an
animation frame and then an idle callback. -/
def frameThenIdle : Nat → List Tick
  | 0 => []
  | rounds + 1 => Tick.animationFrame :: Tick.idleCallback :: frameThenIdle rounds

/-- Modelled from the spec: `isCollapsed` of `diffs/diff_file.js`, whose
source is not among the sources of this development. A file is collapsed when
its viewer is collapsed automatically or manually, and expanded otherwise. -/
def isCollapsed (file : DiffFile) : Bool :=
  match file.viewer with
  | none => false
  | some viewer => viewer.automaticallyCollapsed || viewer.manuallyCollapsed

/-- Modelled from the spec: the name of the text variant of the viewer
(`diffViewerModes.text` of `ide/constants.js`, whose source is not among the
sources of this development). -/
def textViewerName : String := "text"

/-- The file with `renderIt` set, as `RENDER_FILE` leaves it. -/
def rendered (file : DiffFile) : DiffFile := { file with renderIt := true }

/-- A collapsed file with an image viewer, not rendered yet. -/
def collapsedImage : DiffFile :=
  { file_hash := "img1", file_path := "logo.png", renderIt := false
    viewer := some { name := "image", automaticallyCollapsed := false, manuallyCollapsed := true } }

/-- A collapsed file with the text viewer, not rendered yet. -/
def collapsedText : DiffFile :=
  { file_hash := "txt1", file_path := "big.rb", renderIt := false
    viewer := some { name := "text", automaticallyCollapsed := true, manuallyCollapsed := false } }

/-- An expanded file with the text viewer, not rendered yet. -/
def expandedText : DiffFile :=
  { file_hash := "txt2", file_path := "small.rb", renderIt := false
    viewer := some { name := "text", automaticallyCollapsed := false, manuallyCollapsed := false } }

/-- A store whose file collection is a collapsed image and a collapsed text
file, both not rendered yet. -/
def collapsedFilesStore : Store :=
  { state := { emptyState with diffFiles := [collapsedImage, collapsedText] }, log := [] }

/-- A store with five files: a collapsed image, a collapsed text file, an
expanded text file, a file without viewer and a file rendered before. -/
def fiveFilesStore : Store :=
  { state := { emptyState with
      diffFiles := [collapsedImage, collapsedText, expandedText, sampleFile "x1",
        rendered expandedText] }
    log := [] }

/-- A store whose file collection is one expanded text file, not rendered
yet. -/
def oneFileStore : Store :=
  { state := { emptyState with diffFiles := [expandedText] }, log := [] }

/-- An order of callbacks in which the first idle callback runs before the
animation frame requested together with it. -/
def idleFirst : List Tick :=
  [Tick.idleCallback, Tick.animationFrame, Tick.animationFrame, Tick.idleCallback]

/-- The file as a run of `startRenderDiffsQueue` leaves it: rendered when
it was to be rendered, and as it was otherwise. -/
def renderedIfNext (isCollapsed : DiffFile → Bool) (textMode : String) (file : DiffFile) :
    DiffFile :=
  if isNextFile isCollapsed textMode file then rendered file else file

/-- The `RENDER_FILE` commits of a list of files, in the order of the list. -/
def renderCommits (files : List DiffFile) : List Effect :=
  files.map fun file => Effect.commit (.RENDER_FILE file)

/-- What holds of a run of `startRenderDiffsQueue` on the file collection
`files`, started with the log `log`, at every moment. The collection is
walked up to some point: the files to render before this point (`seg`) are
rendered, each by the first of one or more `RENDER_FILE` commits in a row,
and the remaining files (`todo`) are as they were. The commits still waiting
for an animation frame are further commits of the file rendered last (`g`),
followed by commits of the next file to render (`nxt`). -/
def QueueInvariant (isCollapsed : DiffFile → Bool) (textMode : String)
    (files : List DiffFile) (log : List Effect) (q : RenderQueue) : Prop :=
  ∃ (seg todo : List DiffFile) (times : DiffFile → Nat) (a j : Nat) (g nxt : DiffFile),
    files = seg ++ todo ∧
    q.store.state.diffFiles = seg.map (renderedIfNext isCollapsed textMode) ++ todo ∧
    (∀ f ∈ seg.filter (isNextFile isCollapsed textMode), 1 ≤ times f) ∧
    q.store.log = log ++ renderCommits
      ((seg.filter (isNextFile isCollapsed textMode)).flatMap
        (fun f => List.replicate (times f) f)) ∧
    q.frames = List.replicate a g ++ List.replicate j nxt ∧
    (0 < a → ∃ b, seg.filter (isNextFile isCollapsed textMode) = b ++ [g]) ∧
    (0 < j → todo.find? (isNextFile isCollapsed textMode) = some nxt) ∧
    (q.resolved = true → todo.find? (isNextFile isCollapsed textMode) = none)

/-- Whether, in the run of the ticks `schedule` from the queue `q`, every
idle callback runs with no commit waiting for an animation frame: every
animation frame runs before the idle callback requested together with it. -/
def framesFirst (isCollapsed : DiffFile → Bool) (textMode : String) :
    RenderQueue → List Tick → Bool
  | _, [] => true
  | q, .animationFrame :: later =>
    framesFirst isCollapsed textMode (runTick isCollapsed textMode q .animationFrame) later
  | q, .idleCallback :: later =>
    q.frames.isEmpty &&
      framesFirst isCollapsed textMode (runTick isCollapsed textMode q .idleCallback) later

/-- What holds at every moment of a run of `startRenderDiffsQueue` in which
every animation frame runs before the idle callback requested with it: the
files to render of the part walked so far (`seg`) are rendered and committed
once each, and at most one commit waits for an animation frame, that of the
next file to render. -/
def OrderlyInvariant (isCollapsed : DiffFile → Bool) (textMode : String)
    (files : List DiffFile) (log : List Effect) (q : RenderQueue) : Prop :=
  ∃ seg todo : List DiffFile,
    files = seg ++ todo ∧
    q.store.state.diffFiles = seg.map (renderedIfNext isCollapsed textMode) ++ todo ∧
    q.store.log = log ++ renderCommits (seg.filter (isNextFile isCollapsed textMode)) ∧
    (q.frames = [] ∨
      ∃ nxt, q.frames = [nxt] ∧ todo.find? (isNextFile isCollapsed textMode) = some nxt) ∧
    (q.resolved = true → todo.find? (isNextFile isCollapsed textMode) = none)

/-- The pages requested so far, in the order of the requests. -/
def requests (st : Store) : List Nat := st.log.filterMap requestedPage

/-! ## moveToNeighboringCommit -/

/-- The action `moveToNeighboringCommit`: the actions it dispatches. A
neighbour id that is missing or empty is falsy. -/
def moveToNeighboringCommit (state : State) (direction : String) : List Action :=
  let previousCommitId := state.commit.bind fun c => c.prev_commit_id
  let nextCommitId := state.commit.bind fun c => c.next_commit_id
  let canMoveNext := !state.isLoading && truthyArg nextCommitId
  let canMovePrevious := !state.isLoading && truthyArg previousCommitId
  let commitId : Option String :=
    if direction = "next" && canMoveNext then nextCommitId
    else if direction = "previous" && canMovePrevious then previousCommitId
    else none
  match commitId with
  | some id => if truthy id then [Action.changeCurrentCommit id] else []
  | none => []

/-- A state browsing a commit with both neighbours, no load in flight. -/
def middleCommitState : State :=
  { emptyState with
    commit := some { id := "b2", prev_commit_id := some "a1", next_commit_id := some "c3" } }

/-! ## renderFileForDiscussionId -/

/-- The action `renderFileForDiscussionId`, for the discussions of the notes
module (`rootState.notes.discussions`). Reading `automaticallyCollapsed` of a
file without viewer throws. -/
def renderFileForDiscussionId (discussions : List Discussion) (st : Store)
    (discussionId : String) : Except Store Store :=
  match discussions.find? (fun d => d.id == discussionId) with
  | none => .ok st
  | some discussion =>
    match discussion.diff_file with
    | none => .ok st
    | some diff_file =>
      match st.state.diffFiles.find? (fun f => f.file_hash == diff_file.file_hash) with
      | none => .ok st
      | some file =>
        let st1 := if !file.renderIt then st.commit (.RENDER_FILE file) else st
        match file.viewer with
        | none => .error st1
        | some viewer =>
          if viewer.automaticallyCollapsed then
            .ok ((st1.perform (.emit ("loadCollapsedDiff/" ++ file.file_hash))).perform
              (.scrollToElement file.file_hash))
          else if viewer.manuallyCollapsed then
            .ok ((st1.commit (.SET_FILE_COLLAPSED file.file_path false
              .DIFF_FILE_AUTOMATIC_COLLAPSE)).perform (.emit "scrollToDiscussion"))
          else
            .ok (st1.perform (.emit "scrollToDiscussion"))

/-- The `RENDER_FILE` commit of `renderFileForDiscussionId`: made when the
file was not rendered yet. -/
def renderCommit (file : DiffFile) : List Effect :=
  if file.renderIt then [] else [Effect.commit (.RENDER_FILE file)]

/-- What an action may do to a file as far as rendering goes: the file keeps
its hash, and once it is rendered it stays rendered. -/
def StaysRendered (before after : DiffFile) : Prop :=
  before.file_hash = after.file_hash ∧ (before.renderIt = true → after.renderIt = true)

/-- The effects of the branch that `renderFileForDiscussionId` takes after the
`RENDER_FILE` commit, by the collapse state of the viewer. -/
def collapseBranch (file : DiffFile) (viewer : Viewer) : List Effect :=
  if viewer.automaticallyCollapsed then
    [Effect.emit ("loadCollapsedDiff/" ++ file.file_hash), Effect.scrollToElement file.file_hash]
  else if viewer.manuallyCollapsed then
    [Effect.commit (.SET_FILE_COLLAPSED file.file_path false .DIFF_FILE_AUTOMATIC_COLLAPSE),
     Effect.emit "scrollToDiscussion"]
  else
    [Effect.emit "scrollToDiscussion"]

/-- A discussion on the collapsed image of the samples. -/
def imageDiscussion : Discussion :=
  { id := "disc7", expanded := true, diff_file := some collapsedImage }

/-- A discussion on the file `x1` of the samples, which has no viewer. -/
def viewerlessDiscussion : Discussion :=
  { id := "disc9", expanded := true, diff_file := some (sampleFile "x1") }

/-- The store that `renderFileForDiscussionId` leaves for the discussion on
the file without viewer, when it throws: `fiveFilesStore` with the file `x1`
rendered, and the `RENDER_FILE` commit as the only entry of the log. -/
def viewerlessThrown : Store :=
  { state := { emptyState with
      diffFiles := [collapsedImage, collapsedText, expandedText, rendered (sampleFile "x1"),
        rendered expandedText] }
    log := [Effect.commit (.RENDER_FILE (sampleFile "x1"))] }

/-! ## setHighlightedRow and the line codes of setExpandedDiffLines -/

/-- The template literal of `mapLine` in `setExpandedDiffLines`: the line
code of the line of a file with the given old and new line numbers. -/
def lineCodeOf (file_hash : String) (oldLine newLine : Nat) : String :=
  file_hash ++ "_" ++ toString oldLine ++ "_" ++ toString newLine

/-- The `mapLine` callback that `setExpandedDiffLines` hands to
`convertExpandLines`. -/
def mapLine (file : DiffFile) (line : Line) (oldLine newLine : Nat) : Line :=
  { line with
    old_line := oldLine
    new_line := newLine
    line_code := lineCodeOf file.file_hash oldLine newLine }

/-- The action `setHighlightedRow`. -/
def setHighlightedRow (st : Store) (lineCode : String) : Store :=
  let fileHash := String.mk ((lineCode.data.splitOn '_').headD [])
  (st.commit (.SET_HIGHLIGHTED_ROW lineCode)).commit (.VIEW_DIFF_FILE fileHash)

/-- The number a text of decimal digits stands for. -/
def decimalValue (cs : List Char) : Nat :=
  cs.foldl (fun acc ch => 10 * acc + (ch.toNat - 48)) 0

/-! ## Selections by default and by note -/

/-- A log without selection by default: every `VIEW_DIFF_FILE` commit in it
is the commit of a `setCurrentDiffFileIdFromNote` dispatched right before
it. -/
inductive NoDefaultView : List Effect → Prop where
  | nil : NoDefaultView []
  | other (e : Effect) (rest : List Effect) :
      viewCommit e = none → NoDefaultView rest → NoDefaultView (e :: rest)
  | fromNote (noteId fileId : String) (rest : List Effect) :
      NoDefaultView rest →
      NoDefaultView (Effect.dispatch (.setCurrentDiffFileIdFromNote noteId)
        :: Effect.commit (.VIEW_DIFF_FILE fileId) :: rest)

/-- A log of a load with an active file: every `VIEW_DIFF_FILE` commit in it
is the commit of the check at the end of the load (line 109), which comes
right after the commit of `SET_RETRIEVING_BATCHES` with `false` (line 101);
none is the commit made on the arrival of a page (line 93), which comes right
after the commit of `SET_BATCH_LOADING`. -/
inductive OnlyFallbackView : List Effect → Prop where
  | nil : OnlyFallbackView []
  | other (e : Effect) (rest : List Effect) :
      viewCommit e = none → OnlyFallbackView rest → OnlyFallbackView (e :: rest)
  | fallback (fileId : String) (rest : List Effect) :
      OnlyFallbackView rest →
      OnlyFallbackView (Effect.commit (.SET_RETRIEVING_BATCHES false)
        :: Effect.commit (.VIEW_DIFF_FILE fileId) :: rest)

/-- The log that `renderFileForDiscussionId` leaves for the discussion on the
collapsed image: the file is rendered and expanded. -/
def imageDiscussionLog : List Effect :=
  [Effect.commit (.RENDER_FILE collapsedImage),
   Effect.commit (.SET_FILE_COLLAPSED "logo.png" false .DIFF_FILE_AUTOMATIC_COLLAPSE),
   Effect.emit "scrollToDiscussion"]

/-- A bare file-hash anchor: the hash of the second file of `pageOfScenario`. -/
def bareAnchor : String := "#abc123"

/-- The log of a load of `pageOfScenario` under the bare anchor: the first
file of the page is selected right after the page is applied. -/
def bareAnchorLog : List Effect :=
  [Effect.commit (.SET_BATCH_LOADING true),
   Effect.commit (.SET_RETRIEVING_BATCHES true),
   Effect.emit "EVT_PERF_MARK_DIFF_FILES_START",
   Effect.axiosGet 1,
   Effect.commit (.SET_DIFF_DATA_BATCH pageOfScenario.diff_files),
   Effect.commit (.SET_BATCH_LOADING false),
   Effect.commit (.VIEW_DIFF_FILE "g01"),
   Effect.commit (.SET_RETRIEVING_BATCHES false),
   Effect.importCodeNavigation,
   Effect.handleLocationHash]

/-! ## Theorems -/

/-! ### toggleFileDiscussions -/

theorem flatMap_toggleOne_closeAll (shouldExpandAll : Bool) (ds : List Discussion) :
    ds.flatMap (toggleOne true shouldExpandAll)
      = ds.map (fun d => Action.collapseDiscussion d.id) := by
  induction ds with
  | nil => rfl
  | cons d ds ih => simp [List.flatMap_cons, toggleOne, ih]

theorem flatMap_toggleOne_expandAll (ds : List Discussion) :
    ds.flatMap (toggleOne false true)
      = ds.map (fun d => Action.expandDiscussion d.id) := by
  induction ds with
  | nil => rfl
  | cons d ds ih => simp [List.flatMap_cons, toggleOne, ih]

theorem flatMap_toggleOne_mixed (ds : List Discussion) :
    ds.flatMap (toggleOne false false)
      = (ds.filter (fun d => !d.expanded)).map (fun d => Action.expandDiscussion d.id) := by
  induction ds with
  | nil => rfl
  | cons d ds ih =>
    cases h : d.expanded <;> simp [List.flatMap_cons, toggleOne, ih, h, List.filter_cons]

/-- C1. `toggleFileDiscussions` on a diff file whose getters report the
expansion state of its discussions: when all discussions are expanded,
`collapseDiscussion` is dispatched for each of them in order and nothing else;
when all are collapsed, `expandDiscussion` is dispatched for each of them and
nothing else; in the mixed case `expandDiscussion` is dispatched for exactly
the discussions whose `expanded` flag is false, and nothing for the others. -/
theorem toggleFileDiscussions_outcome (getters : Getters) (diff : DiffFile)
    (hExpanded : getters.getDiffFileDiscussions diff ≠ [] →
      (getters.diffHasAllExpandedDiscussions diff = true ↔
        ∀ d ∈ getters.getDiffFileDiscussions diff, d.expanded = true))
    (hCollapsed : getters.getDiffFileDiscussions diff ≠ [] →
      (getters.diffHasAllCollapsedDiscussions diff = true ↔
        ∀ d ∈ getters.getDiffFileDiscussions diff, d.expanded = false)) :
    ((∀ d ∈ getters.getDiffFileDiscussions diff, d.expanded = true) →
      toggleFileDiscussions getters diff
        = (getters.getDiffFileDiscussions diff).map
            (fun d => Action.collapseDiscussion d.id)) ∧
    ((∀ d ∈ getters.getDiffFileDiscussions diff, d.expanded = false) →
      toggleFileDiscussions getters diff
        = (getters.getDiffFileDiscussions diff).map
            (fun d => Action.expandDiscussion d.id)) ∧
    (¬ (∀ d ∈ getters.getDiffFileDiscussions diff, d.expanded = true) →
      ¬ (∀ d ∈ getters.getDiffFileDiscussions diff, d.expanded = false) →
      toggleFileDiscussions getters diff
        = ((getters.getDiffFileDiscussions diff).filter (fun d => !d.expanded)).map
            (fun d => Action.expandDiscussion d.id)) := by
  unfold toggleFileDiscussions
  generalize hds : getters.getDiffFileDiscussions diff = ds at hExpanded hCollapsed ⊢
  by_cases hne : ds = []
  · subst hne
    simp
  · have hE := hExpanded hne
    have hC := hCollapsed hne
    refine ⟨fun hall => ?_, fun hall => ?_, fun hnE hnC => ?_⟩
    · rw [hE.mpr hall]
      exact flatMap_toggleOne_closeAll _ ds
    · have hclose : getters.diffHasAllExpandedDiscussions diff = false := by
        cases hb : getters.diffHasAllExpandedDiscussions diff
        · rfl
        · exfalso
          obtain ⟨d, ds1, rfl⟩ := List.exists_cons_of_ne_nil hne
          have h1 := hE.mp hb d (List.mem_cons_self _ _)
          have h2 := hall d (List.mem_cons_self _ _)
          rw [h1] at h2
          exact Bool.noConfusion h2
      rw [hclose, hC.mpr hall]
      exact flatMap_toggleOne_expandAll ds
    · have hclose : getters.diffHasAllExpandedDiscussions diff = false := by
        cases hb : getters.diffHasAllExpandedDiscussions diff
        · rfl
        · exact absurd (hE.mp hb) hnE
      have hexp : getters.diffHasAllCollapsedDiscussions diff = false := by
        cases hb : getters.diffHasAllCollapsedDiscussions diff
        · rfl
        · exact absurd (hC.mp hb) hnC
      rw [hclose, hexp]
      exact flatMap_toggleOne_mixed ds

/-- C1 at a concrete file with one expanded and one collapsed discussion:
only the collapsed one is expanded. -/
theorem toggleFileDiscussions_outcome_witness :
    toggleFileDiscussions (sampleGetters mixedDiscussions) (sampleFile "f1")
      = [Action.expandDiscussion "d2"] :=
  (toggleFileDiscussions_outcome (sampleGetters mixedDiscussions) (sampleFile "f1")
    (fun _ => by decide) (fun _ => by decide)).2.2 (by decide) (by decide)

/-! ### Log extension -/

theorem extends_refl (st : Store) : Extends st st [] :=
  ⟨[], by simp, rfl, rfl⟩

theorem extends_trans {a b c : Store} {xs ys : List Bool}
    (h1 : Extends a b xs) (h2 : Extends b c ys) : Extends a c (xs ++ ys) := by
  obtain ⟨e1, hl1, hf1, hs1⟩ := h1
  obtain ⟨e2, hl2, hf2, hs2⟩ := h2
  refine ⟨e1 ++ e2, ?_, ?_, ?_⟩
  · rw [hl2, hl1, List.append_assoc]
  · rw [List.filterMap_append, hf1, hf2]
  · rw [hs2, hs1, List.foldl_append]

theorem extends_commit (st : Store) (m : Mutation) :
    Extends st (st.commit m) (retrievingCommit (.commit m)).toList := by
  refine ⟨[.commit m], rfl, ?_, rfl⟩
  cases h : retrievingCommit (.commit m) <;> simp [List.filterMap_cons, h]

theorem extends_perform (st : Store) (e : Effect) (he : ∀ m, e ≠ .commit m) :
    Extends st (st.perform e) [] := by
  refine ⟨[e], rfl, ?_, ?_⟩
  · cases e <;> simp [retrievingCommit] at he ⊢
  · cases e <;> simp [applyEffect, Store.perform] at he ⊢

/-! ### The retrieval flag during a batch load -/

theorem setCurrentDiffFileIdFromNote_extends (rootGetters : RootGetters) (st : Store)
    (noteId : String) :
    Extends st (storeOf (setCurrentDiffFileIdFromNote rootGetters st noteId)) [] := by
  unfold setCurrentDiffFileIdFromNote
  split
  · exact extends_refl st
  · split
    · exact extends_refl st
    · split
      · exact extends_refl st
      · dsimp only
        split
        · exact extends_commit st _
        · exact extends_refl st

theorem selectFirstOfPage_extends (id : String) (st : Store) (diff_files : List DiffFile) :
    Extends st (storeOf (selectFirstOfPage id st diff_files)) [] := by
  unfold selectFirstOfPage
  split
  · split
    · exact extends_refl st
    · exact extends_commit st _
  · exact extends_refl st

theorem selectFromNote_extends (id : String) (rootGetters : RootGetters) (st : Store) :
    Extends st (storeOf (selectFromNote id rootGetters st)) [] := by
  unfold selectFromNote
  split
  · have h1 := extends_perform st (.dispatch (.setCurrentDiffFileIdFromNote (noteIdOf id)))
      (by intro m h; cases h)
    exact extends_trans h1 (setCurrentDiffFileIdFromNote_extends _ _ _)
  · exact extends_refl st

theorem finishBatches_extends (id : String) (st : Store) :
    Extends st (storeOf (finishBatches id st)) [false] := by
  have h0 : Extends st (st.commit (.SET_RETRIEVING_BATCHES false)) [false] :=
    extends_commit st _
  unfold finishBatches
  dsimp only
  split
  · split
    · exact h0
    · rename_i file hfile
      simp only [Except.map, storeOf]
      have h1 : Extends st ((st.commit (.SET_RETRIEVING_BATCHES false)).commit
          (.VIEW_DIFF_FILE file.file_hash)) [false] :=
        extends_trans h0 (extends_commit _ _)
      split
      · exact extends_trans h1 (extends_perform _ _ (by intro m h; cases h))
      · exact h1
  · simp only [Except.map, storeOf]
    split
    · exact extends_trans h0 (extends_perform _ _ (by intro m h; cases h))
    · exact h0

theorem getBatchThen_extends (id : String) (rootGetters : RootGetters) (st : Store)
    (r : BatchResponse) :
    match getBatchThen id rootGetters st r with
    | .ok (st1, nextPage) =>
      nextPage = r.pagination.next_page ∧
        Extends st st1 (if truthyPage r.pagination.next_page then [] else [false])
    | .error st1 => Extends st st1 [] ∨ Extends st st1 [false] := by
  have ha : Extends st
      ((st.commit (.SET_DIFF_DATA_BATCH r.diff_files)).commit (.SET_BATCH_LOADING false)) [] :=
    extends_trans (extends_commit st _) (extends_commit _ _)
  have hb := selectFirstOfPage_extends id
    ((st.commit (.SET_DIFF_DATA_BATCH r.diff_files)).commit (.SET_BATCH_LOADING false))
    r.diff_files
  unfold getBatchThen
  dsimp only
  cases h2 : selectFirstOfPage id
    ((st.commit (.SET_DIFF_DATA_BATCH r.diff_files)).commit (.SET_BATCH_LOADING false))
    r.diff_files with
  | error e2 =>
    rw [h2] at hb
    exact Or.inl (extends_trans ha hb)
  | ok st2 =>
    rw [h2] at hb
    dsimp only
    have hab : Extends st st2 [] := extends_trans ha hb
    have hc := selectFromNote_extends id rootGetters st2
    cases h3 : selectFromNote id rootGetters st2 with
    | error e3 =>
      rw [h3] at hc
      exact Or.inl (extends_trans hab hc)
    | ok st3 =>
      rw [h3] at hc
      dsimp only
      have habc : Extends st st3 [] := extends_trans hab hc
      cases hp : truthyPage r.pagination.next_page with
      | true =>
        simp only [Bool.not_true, Bool.false_eq_true, if_false, if_true, true_and]
        exact habc
      | false =>
        have hd := finishBatches_extends id st3
        simp only [Bool.not_false, if_true, Bool.false_eq_true, if_false]
        cases h4 : finishBatches id st3 with
        | error e4 =>
          rw [h4] at hd
          exact Or.inr (extends_trans habc hd)
        | ok st4 =>
          rw [h4] at hd
          exact ⟨rfl, extends_trans habc hd⟩

theorem getBatch_extends (id : String) (rootGetters : RootGetters) :
    ∀ (responses : List (Option BatchResponse)) (page : Nat) (st : Store),
      ((getBatch id rootGetters responses page st).2 = .resolved →
        ∃ k, 1 ≤ k ∧
          Extends st (getBatch id rootGetters responses page st).1 (List.replicate k false)) ∧
      ((getBatch id rootGetters responses page st).2 = .pending →
        Extends st (getBatch id rootGetters responses page st).1 []) := by
  intro responses
  induction responses with
  | nil =>
    intro page st
    refine ⟨fun h => ?_, fun _ => ?_⟩
    · simp [getBatch] at h
    · exact extends_perform st _ (by intro m h; cases h)
  | cons r rest ih =>
    intro page st
    have hreq : Extends st (st.perform (.axiosGet page)) [] :=
      extends_perform st _ (by intro m h; cases h)
    cases r with
    | none =>
      refine ⟨fun _ => ⟨1, le_refl 1, ?_⟩, fun h => ?_⟩
      · exact extends_trans hreq (extends_commit _ (.SET_RETRIEVING_BATCHES false))
      · simp [getBatch] at h
    | some r =>
      have hthen := getBatchThen_extends id rootGetters (st.perform (.axiosGet page)) r
      unfold getBatch
      cases hr : getBatchThen id rootGetters (st.perform (.axiosGet page)) r with
      | error st1 =>
        rw [hr] at hthen
        dsimp only at hthen ⊢
        refine ⟨fun _ => ?_, fun h => by cases h⟩
        have hc : Extends st1 (st1.commit (.SET_RETRIEVING_BATCHES false)) [false] :=
          extends_commit _ _
        rcases hthen with h0 | h1
        · exact ⟨1, le_refl 1, extends_trans hreq (extends_trans h0 hc)⟩
        · exact ⟨2, by decide, extends_trans hreq (extends_trans h1 hc)⟩
      | ok res =>
        obtain ⟨st1, nextPage⟩ := res
        rw [hr] at hthen
        dsimp only at hthen ⊢
        obtain ⟨hnext, hext⟩ := hthen
        rcases nextPage with _ | _ | n
        · rw [← hnext] at hext
          refine ⟨fun _ => ⟨1, le_refl 1, extends_trans hreq hext⟩, fun h => by cases h⟩
        · rw [← hnext] at hext
          refine ⟨fun _ => ⟨1, le_refl 1, extends_trans hreq hext⟩, fun h => by cases h⟩
        · rw [← hnext] at hext
          have hboth := ih (n + 1) st1
          refine ⟨fun h => ?_, fun h => ?_⟩
          · obtain ⟨k, hk, hk2⟩ := hboth.1 h
            exact ⟨k, hk, extends_trans hreq (extends_trans hext hk2)⟩
          · exact extends_trans hreq (extends_trans hext (hboth.2 h))

theorem applyEffect_retrievingBatches (s : State) (e : Effect) :
    (applyEffect s e).retrievingBatches = (retrievingCommit e).getD s.retrievingBatches := by
  cases e with
  | commit m => cases m <;> rfl
  | _ => rfl

theorem stateTrace_eq_cons (s : State) (log : List Effect) :
    ∃ rest, stateTrace s log = s :: rest := by
  cases log with
  | nil => exact ⟨[], rfl⟩
  | cons e es => exact ⟨_, rfl⟩

theorem drops_stateTrace (log : List Effect) :
    ∀ s : State, drops ((stateTrace s log).map (fun x => x.retrievingBatches))
      = drops (s.retrievingBatches :: log.filterMap retrievingCommit) := by
  induction log with
  | nil => intro s; rfl
  | cons e es ih =>
    intro s
    obtain ⟨rest, hrest⟩ := stateTrace_eq_cons (applyEffect s e) es
    have hih := ih (applyEffect s e)
    rw [hrest] at hih
    simp only [stateTrace, hrest, List.map_cons, drops] at hih ⊢
    rw [hih, applyEffect_retrievingBatches]
    cases hc : retrievingCommit e with
    | none => simp [List.filterMap_cons, hc]
    | some b => simp [List.filterMap_cons, hc, drops]

theorem foldl_retrievingBatches (log : List Effect) :
    ∀ s : State, (log.foldl applyEffect s).retrievingBatches
      = ((log.filterMap retrievingCommit).getLast?).getD s.retrievingBatches := by
  induction log with
  | nil => intro s; rfl
  | cons e es ih =>
    intro s
    rw [List.foldl_cons, ih, applyEffect_retrievingBatches]
    cases hc : retrievingCommit e with
    | none => simp [List.filterMap_cons, hc]
    | some b =>
      simp only [List.filterMap_cons, hc, Option.getD_some]
      cases hl : (es.filterMap retrievingCommit) with
      | nil => simp
      | cons x xs =>
        rw [List.getLast?_cons_cons]
        cases hx : (x :: xs).getLast? with
        | none => simp at hx
        | some y => rfl

theorem stateTrace_getLast (log : List Effect) :
    ∀ s : State, (stateTrace s log).getLast? = some (log.foldl applyEffect s) := by
  induction log with
  | nil => intro s; rfl
  | cons e es ih =>
    intro s
    obtain ⟨rest, hrest⟩ := stateTrace_eq_cons (applyEffect s e) es
    have hih := ih (applyEffect s e)
    rw [hrest] at hih
    simp only [stateTrace, hrest, List.foldl_cons, List.getLast?_cons_cons]
    exact hih

theorem drops_true_replicate (b : Bool) (k : Nat) (hk : 1 ≤ k) :
    drops (b :: true :: List.replicate k false) = 1 := by
  obtain ⟨j, rfl⟩ : ∃ j, k = j + 1 := ⟨k - 1, by omega⟩
  have hfalse : ∀ n, drops (false :: List.replicate n false) = 0 := by
    intro n
    induction n with
    | zero => rfl
    | succ n ih => simpa [List.replicate_succ, drops] using ih
  simp [List.replicate_succ, drops, hfalse]

theorem getLast_true_replicate (k : Nat) (hk : 1 ≤ k) :
    (true :: List.replicate k false).getLast? = some false := by
  obtain ⟨j, rfl⟩ : ∃ j, k = j + 1 := ⟨k - 1, by omega⟩
  rw [List.replicate_succ, List.getLast?_cons_cons]
  have h : ∀ n, (false :: List.replicate n false).getLast? = some false := by
    intro n
    induction n with
    | zero => rfl
    | succ n ih => rw [List.replicate_succ, List.getLast?_cons_cons]; exact ih
  exact h j

/-- The log of a load that ended: the two opening commits, the emitted mark,
then effects whose `SET_RETRIEVING_BATCHES` payloads are all `false` and at
least one in number. -/
theorem fetchDiffFilesBatch_log (id : String) (rootGetters : RootGetters)
    (responses : List (Option BatchResponse)) (s : State)
    (hends : (fetchDiffFilesBatch id rootGetters responses ⟨s, []⟩).2 = .resolved) :
    ∃ ext k, 1 ≤ k ∧ ext.filterMap retrievingCommit = List.replicate k false ∧
      (fetchDiffFilesBatch id rootGetters responses ⟨s, []⟩).1.log
        = Effect.commit (.SET_BATCH_LOADING true) :: Effect.commit (.SET_RETRIEVING_BATCHES true)
            :: Effect.emit "EVT_PERF_MARK_DIFF_FILES_START" :: ext ∧
      (fetchDiffFilesBatch id rootGetters responses ⟨s, []⟩).1.state
        = ((fetchDiffFilesBatch id rootGetters responses ⟨s, []⟩).1.log).foldl applyEffect s := by
  unfold fetchDiffFilesBatch at hends ⊢
  dsimp only at hends ⊢
  have hg := getBatch_extends id rootGetters responses 1
    ((((⟨s, []⟩ : Store).commit (.SET_BATCH_LOADING true)).commit
      (.SET_RETRIEVING_BATCHES true)).perform (.emit "EVT_PERF_MARK_DIFF_FILES_START"))
  cases hgb : getBatch id rootGetters responses 1
    ((((⟨s, []⟩ : Store).commit (.SET_BATCH_LOADING true)).commit
      (.SET_RETRIEVING_BATCHES true)).perform (.emit "EVT_PERF_MARK_DIFF_FILES_START")) with
  | mk st3 o =>
    rw [hgb] at hg hends
    cases o with
    | pending => simp at hends
    | resolved =>
      obtain ⟨k, hk, ext, hlog, hfilter, hstate⟩ := hg.1 rfl
      dsimp only at hlog hstate ⊢
      refine ⟨ext ++ [Effect.handleLocationHash], k, hk, ?_, ?_, ?_⟩
      · simp [List.filterMap_append, hfilter, retrievingCommit]
      · simp [Store.perform, hlog, Store.commit]
      · simp [Store.perform, hlog, hstate, Store.commit, List.foldl_append, applyEffect]

/-- C3. Every load of `fetchDiffFilesBatch` that ends, by a page without
`next_page` or by a failure, opens by committing `SET_RETRIEVING_BATCHES`
with `true`, so that the retrieving-batches flag is `true` at the start of the
load; along the states the load goes through the flag goes from `true` to
`false` exactly once; and it is `false` in the state the load ends in, which
is the last of those states. -/
theorem fetchDiffFilesBatch_retrieving_flag (id : String) (rootGetters : RootGetters)
    (responses : List (Option BatchResponse)) (s : State)
    (hends : (fetchDiffFilesBatch id rootGetters responses ⟨s, []⟩).2 = .resolved) :
    ((fetchDiffFilesBatch id rootGetters responses ⟨s, []⟩).1.log).take 2
        = [Effect.commit (.SET_BATCH_LOADING true),
           Effect.commit (.SET_RETRIEVING_BATCHES true)] ∧
    ((stateTrace s (fetchDiffFilesBatch id rootGetters responses ⟨s, []⟩).1.log).map
        (fun x => x.retrievingBatches))[2]? = some true ∧
    drops ((stateTrace s (fetchDiffFilesBatch id rootGetters responses ⟨s, []⟩).1.log).map
        (fun x => x.retrievingBatches)) = 1 ∧
    (stateTrace s (fetchDiffFilesBatch id rootGetters responses ⟨s, []⟩).1.log).getLast?
        = some (fetchDiffFilesBatch id rootGetters responses ⟨s, []⟩).1.state ∧
    (fetchDiffFilesBatch id rootGetters responses ⟨s, []⟩).1.state.retrievingBatches
        = false := by
  obtain ⟨ext, k, hk, hfilter, hlog, hstate⟩ :=
    fetchDiffFilesBatch_log id rootGetters responses s hends
  have hcommits : ((fetchDiffFilesBatch id rootGetters responses ⟨s, []⟩).1.log).filterMap
      retrievingCommit = true :: List.replicate k false := by
    rw [hlog]
    simp [List.filterMap_cons, retrievingCommit, hfilter]
  refine ⟨?_, ?_, ?_, ?_, ?_⟩
  · rw [hlog]; rfl
  · rw [hlog]
    obtain ⟨rest, hrest⟩ := stateTrace_eq_cons
      (applyEffect (applyEffect s (.commit (.SET_BATCH_LOADING true)))
        (.commit (.SET_RETRIEVING_BATCHES true)))
      (Effect.emit "EVT_PERF_MARK_DIFF_FILES_START" :: ext)
    simp only [stateTrace] at hrest ⊢
    simp [applyEffect, applyMutation]
  · rw [drops_stateTrace, hcommits]
    exact drops_true_replicate _ k hk
  · rw [stateTrace_getLast, hstate]
  · rw [hstate, foldl_retrievingBatches, hcommits, getLast_true_replicate k hk]
    rfl

/-- C3 at a concrete load: the second request fails, the load ends, and the
flag went from `true` to `false` once. -/
theorem fetchDiffFilesBatch_retrieving_flag_witness :
    (fetchDiffFilesBatch "" noNotes failingSecondPage ⟨emptyState, []⟩).2 = .resolved ∧
    drops ((stateTrace emptyState
        (fetchDiffFilesBatch "" noNotes failingSecondPage ⟨emptyState, []⟩).1.log).map
        (fun x => x.retrievingBatches)) = 1 ∧
    (fetchDiffFilesBatch "" noNotes failingSecondPage ⟨emptyState, []⟩).1.state.retrievingBatches
        = false :=
  ⟨by decide,
   (fetchDiffFilesBatch_retrieving_flag "" noNotes failingSecondPage emptyState
      (by decide)).2.2.1,
   (fetchDiffFilesBatch_retrieving_flag "" noNotes failingSecondPage emptyState
      (by decide)).2.2.2.2⟩

/-! ### The requests of a batch load -/

/-- C2 at a failing input. The first page names page 2 as the next page but
holds no file, the URL has no anchor and no file is active: reading the first
file of the page throws, the rejection handler clears the retrieval flag, and
the load ends after one request, although the first page without `next_page`
is the second one. -/
theorem fetchDiffFilesBatch_stops_at_empty_page :
    ((fetchDiffFilesBatch "" noNotes emptyFirstPage ⟨emptyState, []⟩).1.log).filterMap
        requestedPage = [1] ∧
    (fetchDiffFilesBatch "" noNotes emptyFirstPage ⟨emptyState, []⟩).2 = .resolved ∧
    (fetchDiffFilesBatch "" noNotes emptyFirstPage ⟨emptyState, []⟩).1.state.diffFiles = [] ∧
    (emptyFirstPage.takeWhile
        (fun r => r.any (fun p => truthyPage p.pagination.next_page))).length + 1 = 2 := by
  decide

theorem requests_commit (st : Store) (m : Mutation) : requests (st.commit m) = requests st := by
  simp [requests, Store.commit, List.filterMap_append, requestedPage]

theorem requests_perform (st : Store) (e : Effect) :
    requests (st.perform e) = requests st ++ (requestedPage e).toList := by
  cases h : requestedPage e <;>
    simp [requests, Store.perform, List.filterMap_append, List.filterMap_cons, h]

theorem requests_setCurrentDiffFileIdFromNote (rootGetters : RootGetters) (st : Store)
    (noteId : String) :
    requests (storeOf (setCurrentDiffFileIdFromNote rootGetters st noteId)) = requests st := by
  unfold setCurrentDiffFileIdFromNote
  split
  · rfl
  · split
    · rfl
    · split
      · rfl
      · dsimp only
        split
        · exact requests_commit st _
        · rfl

theorem requests_selectFirstOfPage (id : String) (st : Store) (diff_files : List DiffFile) :
    requests (storeOf (selectFirstOfPage id st diff_files)) = requests st := by
  unfold selectFirstOfPage
  split
  · split
    · rfl
    · exact requests_commit st _
  · rfl

theorem requests_selectFromNote (id : String) (rootGetters : RootGetters) (st : Store) :
    requests (storeOf (selectFromNote id rootGetters st)) = requests st := by
  unfold selectFromNote
  split
  · rw [requests_setCurrentDiffFileIdFromNote, requests_perform]
    simp [requestedPage]
  · rfl

theorem requests_finishBatches (id : String) (st : Store) :
    requests (storeOf (finishBatches id st)) = requests st := by
  unfold finishBatches
  dsimp only
  split
  · split
    · exact requests_commit st _
    · simp only [Except.map, storeOf]
      split
      · rw [requests_perform, requests_commit, requests_commit]
        simp [requestedPage]
      · rw [requests_commit, requests_commit]
  · simp only [Except.map, storeOf]
    split
    · rw [requests_perform, requests_commit]
      simp [requestedPage]
    · rw [requests_commit]

/-- The `then` callback of a page issues no request, whether it returns or
throws. -/
theorem requests_getBatchThen (id : String) (rootGetters : RootGetters) (st : Store)
    (r : BatchResponse) :
    match getBatchThen id rootGetters st r with
    | .ok (st1, _) => requests st1 = requests st
    | .error st1 => requests st1 = requests st := by
  have ha : requests
      ((st.commit (.SET_DIFF_DATA_BATCH r.diff_files)).commit (.SET_BATCH_LOADING false))
      = requests st := by
    rw [requests_commit, requests_commit]
  have hb := requests_selectFirstOfPage id
    ((st.commit (.SET_DIFF_DATA_BATCH r.diff_files)).commit (.SET_BATCH_LOADING false))
    r.diff_files
  unfold getBatchThen
  dsimp only
  cases h2 : selectFirstOfPage id
    ((st.commit (.SET_DIFF_DATA_BATCH r.diff_files)).commit (.SET_BATCH_LOADING false))
    r.diff_files with
  | error e2 =>
    rw [h2] at hb
    exact hb.trans ha
  | ok st2 =>
    rw [h2] at hb
    dsimp only
    have hab : requests st2 = requests st := hb.trans ha
    have hc := requests_selectFromNote id rootGetters st2
    cases h3 : selectFromNote id rootGetters st2 with
    | error e3 =>
      rw [h3] at hc
      exact hc.trans hab
    | ok st3 =>
      rw [h3] at hc
      dsimp only
      have habc : requests st3 = requests st := hc.trans hab
      cases hp : truthyPage r.pagination.next_page with
      | true =>
        simp only [Bool.not_true, Bool.false_eq_true, if_false]
        exact habc
      | false =>
        have hd := requests_finishBatches id st3
        simp only [Bool.not_false, if_true]
        cases h4 : finishBatches id st3 with
        | error e4 =>
          rw [h4] at hd
          exact hd.trans habc
        | ok st4 =>
          rw [h4] at hd
          exact hd.trans habc

/-- Pages are requested in order, whatever the responses: the first request
is for the page the chain starts at, and every further request is for the
`next_page` of the response before it, the responses being taken one after
the other as long as requests are made. -/
theorem getBatch_requests_in_order (id : String) (rootGetters : RootGetters) :
    ∀ (responses : List (Option BatchResponse)) (page : Nat) (st : Store),
      ∃ n, n ≤ responses.length ∧
        requests (getBatch id rootGetters responses page st).1
          = requests st ++ page :: (responses.take n).filterMap
              (fun r => r.bind (fun p => p.pagination.next_page)) ∧
        ∀ r ∈ responses.take n, ∃ p, r = some p ∧ truthyPage p.pagination.next_page = true := by
  intro responses
  induction responses with
  | nil =>
    intro page st
    refine ⟨0, le_refl _, ?_, by simp⟩
    simp [getBatch, requests_perform, requestedPage]
  | cons r rest ih =>
    intro page st
    cases r with
    | none =>
      refine ⟨0, Nat.zero_le _, ?_, by simp⟩
      simp [getBatch, requests_commit, requests_perform, requestedPage]
    | some r =>
      have hthen := requests_getBatchThen id rootGetters (st.perform (.axiosGet page)) r
      unfold getBatch
      cases hr : getBatchThen id rootGetters (st.perform (.axiosGet page)) r with
      | error st1 =>
        rw [hr] at hthen
        dsimp only at hthen ⊢
        refine ⟨0, Nat.zero_le _, ?_, by simp⟩
        rw [requests_commit, hthen, requests_perform]
        simp [requestedPage]
      | ok res =>
        obtain ⟨st1, nextPage⟩ := res
        rw [hr] at hthen
        dsimp only at hthen ⊢
        have hnext : nextPage = r.pagination.next_page := by
          have := getBatchThen_extends id rootGetters (st.perform (.axiosGet page)) r
          rw [hr] at this
          exact this.1
        rcases hn : nextPage with _ | _ | m
        · refine ⟨0, Nat.zero_le _, ?_, by simp⟩
          rw [hthen, requests_perform]
          simp [requestedPage]
        · refine ⟨0, Nat.zero_le _, ?_, by simp⟩
          rw [hthen, requests_perform]
          simp [requestedPage]
        · obtain ⟨n, hle, hreq, hall⟩ := ih (m + 1) st1
          refine ⟨n + 1, by simp; omega, ?_, ?_⟩
          · dsimp only
            rw [hreq, hthen, requests_perform]
            have hbind : (some r : Option BatchResponse).bind
                (fun p => p.pagination.next_page) = some (m + 1) := by
              simp [← hnext, hn]
            simp [requestedPage, List.take_succ_cons, List.filterMap_cons, hbind]
          · intro x hx
            rw [List.take_succ_cons] at hx
            rcases List.mem_cons.mp hx with h1 | h2
            · refine ⟨r, h1, ?_⟩
              rw [← hnext, hn]; rfl
            · exact hall x h2

/-- The last page returns when the file collection is not empty. -/
theorem finishBatches_returns (id : String) (st : Store) (g : DiffFile) (gs : List DiffFile)
    (hg : st.state.diffFiles = g :: gs) : ∃ st1, finishBatches id st = .ok st1 := by
  have hhead : (st.commit (.SET_RETRIEVING_BATCHES false)).state.diffFiles.head? = some g := by
    show st.state.diffFiles.head? = some g
    rw [hg]; rfl
  unfold finishBatches
  dsimp only
  rw [hhead]
  split
  · exact ⟨_, rfl⟩
  · exact ⟨_, rfl⟩

/-- A page that holds a file, arriving without note link: the callback
returns. -/
theorem getBatchThen_returns (id : String) (rootGetters : RootGetters) (st : Store)
    (r : BatchResponse) (hanchor : isNoteLink id = false) (hfiles : r.diff_files ≠ []) :
    ∃ st1, getBatchThen id rootGetters st r = .ok (st1, r.pagination.next_page) := by
  obtain ⟨file, files, hcons⟩ := List.exists_cons_of_ne_nil hfiles
  obtain ⟨st2, h2, hfiles2⟩ : ∃ st2, selectFirstOfPage id
      ((st.commit (.SET_DIFF_DATA_BATCH r.diff_files)).commit (.SET_BATCH_LOADING false))
      r.diff_files = .ok st2 ∧ st2.state.diffFiles = st.state.diffFiles ++ r.diff_files := by
    unfold selectFirstOfPage
    split
    · rw [hcons]
      exact ⟨_, rfl, rfl⟩
    · exact ⟨_, rfl, rfl⟩
  have h3 : selectFromNote id rootGetters st2 = .ok st2 := by
    simp [selectFromNote, hanchor]
  unfold getBatchThen
  simp only [h2, h3]
  cases hp : truthyPage r.pagination.next_page with
  | true =>
    simp only [Bool.not_true, Bool.false_eq_true, if_false]
    exact ⟨_, rfl⟩
  | false =>
    simp only [Bool.not_false, if_true]
    obtain ⟨g, gs, hg⟩ : ∃ g gs, st2.state.diffFiles = g :: gs := by
      rw [hfiles2, hcons]
      cases st.state.diffFiles with
      | nil => exact ⟨file, files, rfl⟩
      | cons a as => exact ⟨a, as ++ file :: files, rfl⟩
    obtain ⟨st4, h4⟩ := finishBatches_returns id st2 g gs hg
    rw [h4]
    exact ⟨_, rfl⟩

/-- A complete load without note link whose pages all hold a file: the chain
resolves after one request for each page. -/
theorem getBatch_requests_count (id : String) (rootGetters : RootGetters)
    (rest : List (Option BatchResponse)) (hanchor : isNoteLink id = false) :
    ∀ (pages : List BatchResponse) (page : Nat) (st : Store),
      isCompleteLoad pages = true →
      (∀ p ∈ pages, p.diff_files ≠ []) →
      (getBatch id rootGetters (pages.map some ++ rest) page st).2 = .resolved ∧
      (requests (getBatch id rootGetters (pages.map some ++ rest) page st).1).length
        = (requests st).length + pages.length := by
  intro pages
  induction pages with
  | nil => intro page st h; simp [isCompleteLoad] at h
  | cons p ps ih =>
    intro page st hload hall
    obtain ⟨st1, hthen⟩ := getBatchThen_returns id rootGetters (st.perform (.axiosGet page)) p
      hanchor (hall p (List.mem_cons_self _ _))
    have hreq := requests_getBatchThen id rootGetters (st.perform (.axiosGet page)) p
    rw [hthen] at hreq
    dsimp only at hreq
    have hreq1 : (requests st1).length = (requests st).length + 1 := by
      rw [hreq, requests_perform]
      simp [requestedPage]
    simp only [List.map_cons, List.cons_append, getBatch, hthen]
    cases ps with
    | nil =>
      have hlast : truthyPage p.pagination.next_page = false := by
        simpa [isCompleteLoad] using hload
      rcases hn : p.pagination.next_page with _ | _ | n
      · exact ⟨rfl, by simpa using hreq1⟩
      · exact ⟨rfl, by simpa using hreq1⟩
      · rw [hn] at hlast; simp [truthyPage] at hlast
    | cons q qs =>
      have hboth : truthyPage p.pagination.next_page = true ∧
          isCompleteLoad (q :: qs) = true := by
        simpa [isCompleteLoad] using hload
      rcases hn : p.pagination.next_page with _ | _ | n
      · rw [hn] at hboth; simp [truthyPage] at hboth
      · rw [hn] at hboth; simp [truthyPage] at hboth
      · obtain ⟨hres, hlen⟩ := ih (n + 1) st1 hboth.2
          (fun x hx => hall x (List.mem_cons_of_mem _ hx))
        refine ⟨hres, hlen.trans ?_⟩
        rw [hreq1]
        simp only [List.length_cons]
        omega

/-! ### The active file and the file collection after a load without anchor -/

theorem hasFile_append_left (xs ys : List DiffFile) (h : String)
    (hx : hasFile xs h = true) : hasFile (xs ++ ys) h = true := by
  unfold hasFile at hx ⊢
  rw [List.any_append, hx]
  rfl

theorem hasFile_append_right (xs ys : List DiffFile) (h : String)
    (hy : hasFile ys h = true) : hasFile (xs ++ ys) h = true := by
  unfold hasFile at hy ⊢
  rw [List.any_append, hy]
  simp

theorem hasFile_cons_self (file : DiffFile) (files : List DiffFile) :
    hasFile (file :: files) file.file_hash = true := by
  simp [hasFile]

/-- The last page of a load without note link, when a file of the collection
is active: the retrieval flag is cleared and the selection stays. -/
theorem finishBatches_active (id : String) (st : Store)
    (hanchor : isNoteLink id = false)
    (hactive : hasFile st.state.diffFiles st.state.currentDiffFileId = true) :
    ∃ st1, finishBatches id st = .ok st1 ∧ st1.state.diffFiles = st.state.diffFiles ∧
      st1.state.currentDiffFileId = st.state.currentDiffFileId := by
  unfold hasFile at hactive
  unfold finishBatches
  simp only [Store.commit, applyMutation, hactive, hanchor, Bool.not_true, Bool.and_false,
    Bool.false_and, Bool.false_eq_true, if_false, Except.map]
  split
  · exact ⟨_, rfl, rfl, rfl⟩
  · exact ⟨_, rfl, rfl, rfl⟩

/-- One page of a load without note link, when a file of the collection is
active: the page is appended and the selection stays. -/
theorem getBatchThen_active (id : String) (rootGetters : RootGetters) (st : Store)
    (r : BatchResponse) (hanchor : isNoteLink id = false)
    (htruthy : truthy st.state.currentDiffFileId = true)
    (hactive : hasFile st.state.diffFiles st.state.currentDiffFileId = true) :
    ∃ st1, getBatchThen id rootGetters st r = .ok (st1, r.pagination.next_page) ∧
      st1.state.diffFiles = st.state.diffFiles ++ r.diff_files ∧
      st1.state.currentDiffFileId = st.state.currentDiffFileId := by
  have h1 : selectFirstOfPage id
      ((st.commit (.SET_DIFF_DATA_BATCH r.diff_files)).commit (.SET_BATCH_LOADING false))
      r.diff_files
      = .ok ((st.commit (.SET_DIFF_DATA_BATCH r.diff_files)).commit
          (.SET_BATCH_LOADING false)) := by
    simp [selectFirstOfPage, Store.commit, applyMutation, htruthy]
  have h2 : selectFromNote id rootGetters
      ((st.commit (.SET_DIFF_DATA_BATCH r.diff_files)).commit (.SET_BATCH_LOADING false))
      = .ok ((st.commit (.SET_DIFF_DATA_BATCH r.diff_files)).commit
          (.SET_BATCH_LOADING false)) := by
    simp [selectFromNote, hanchor]
  unfold getBatchThen
  simp only [h1, h2]
  cases hp : truthyPage r.pagination.next_page with
  | true =>
    simp only [Bool.not_true, Bool.false_eq_true, if_false]
    exact ⟨_, rfl, rfl, rfl⟩
  | false =>
    obtain ⟨st1, hfin, hfiles, hcur⟩ := finishBatches_active id
      ((st.commit (.SET_DIFF_DATA_BATCH r.diff_files)).commit (.SET_BATCH_LOADING false))
      hanchor (hasFile_append_left _ _ _ hactive)
    simp only [Bool.not_false, if_true, hfin]
    exact ⟨st1, rfl, hfiles, hcur⟩

/-- The pages of a complete load, applied from a state in which a file of the
collection is active: the chain resolves, the pages are appended in order and
the selection stays. -/
theorem getBatch_active (id : String) (rootGetters : RootGetters)
    (rest : List (Option BatchResponse)) (hanchor : isNoteLink id = false) :
    ∀ (pages : List BatchResponse) (page : Nat) (st : Store),
      isCompleteLoad pages = true →
      truthy st.state.currentDiffFileId = true →
      hasFile st.state.diffFiles st.state.currentDiffFileId = true →
      (getBatch id rootGetters (pages.map some ++ rest) page st).2 = .resolved ∧
      (getBatch id rootGetters (pages.map some ++ rest) page st).1.state.diffFiles
        = st.state.diffFiles ++ pages.flatMap (fun p => p.diff_files) ∧
      (getBatch id rootGetters (pages.map some ++ rest) page st).1.state.currentDiffFileId
        = st.state.currentDiffFileId := by
  intro pages
  induction pages with
  | nil => intro page st h; simp [isCompleteLoad] at h
  | cons p ps ih =>
    intro page st hload htruthy hactive
    obtain ⟨st1, hthen, hfiles, hcur⟩ := getBatchThen_active id rootGetters
      (st.perform (.axiosGet page)) p hanchor htruthy hactive
    simp only [List.map_cons, List.cons_append, getBatch, hthen]
    cases ps with
    | nil =>
      have hlast : truthyPage p.pagination.next_page = false := by
        simpa [isCompleteLoad] using hload
      rcases hn : p.pagination.next_page with _ | _ | n
      · simp [hfiles, hcur, Store.perform]
      · simp [hfiles, hcur, Store.perform]
      · rw [hn] at hlast; simp [truthyPage] at hlast
    | cons q qs =>
      have hboth : truthyPage p.pagination.next_page = true ∧
          isCompleteLoad (q :: qs) = true := by
        simpa [isCompleteLoad] using hload
      rcases hn : p.pagination.next_page with _ | _ | n
      · rw [hn] at hboth; simp [truthyPage] at hboth
      · rw [hn] at hboth; simp [truthyPage] at hboth
      · dsimp only
        have hact1 : hasFile st1.state.diffFiles st1.state.currentDiffFileId = true := by
          rw [hfiles, hcur]
          exact hasFile_append_left _ _ _ hactive
        have ht1 : truthy st1.state.currentDiffFileId = true := by
          rw [hcur]; exact htruthy
        obtain ⟨hres, hfs, hc⟩ := ih (n + 1) st1 hboth.2 ht1 hact1
        refine ⟨hres, hfs.trans ?_, hc.trans ?_⟩
        · rw [hfiles]
          simp [Store.perform, List.flatMap_cons]
        · rw [hcur]
          rfl

/-- A page with a first file, arriving without note link while no file is
active: the page is appended and its first file becomes the active one. -/
theorem getBatchThen_first (id : String) (rootGetters : RootGetters) (st : Store)
    (r : BatchResponse) (file : DiffFile) (files : List DiffFile)
    (hanchor : isNoteLink id = false)
    (hnone : truthy st.state.currentDiffFileId = false)
    (hfirst : r.diff_files = file :: files) :
    ∃ st1, getBatchThen id rootGetters st r = .ok (st1, r.pagination.next_page) ∧
      st1.state.diffFiles = st.state.diffFiles ++ r.diff_files ∧
      st1.state.currentDiffFileId = file.file_hash := by
  have h1 : selectFirstOfPage id
      ((st.commit (.SET_DIFF_DATA_BATCH r.diff_files)).commit (.SET_BATCH_LOADING false))
      r.diff_files
      = .ok (((st.commit (.SET_DIFF_DATA_BATCH r.diff_files)).commit
          (.SET_BATCH_LOADING false)).commit (.VIEW_DIFF_FILE file.file_hash)) := by
    simp [selectFirstOfPage, Store.commit, applyMutation, hnone, hanchor, hfirst]
  have h2 : selectFromNote id rootGetters
      (((st.commit (.SET_DIFF_DATA_BATCH r.diff_files)).commit
          (.SET_BATCH_LOADING false)).commit (.VIEW_DIFF_FILE file.file_hash))
      = .ok (((st.commit (.SET_DIFF_DATA_BATCH r.diff_files)).commit
          (.SET_BATCH_LOADING false)).commit (.VIEW_DIFF_FILE file.file_hash)) := by
    simp [selectFromNote, hanchor]
  unfold getBatchThen
  simp only [h1, h2]
  cases hp : truthyPage r.pagination.next_page with
  | true =>
    simp only [Bool.not_true, Bool.false_eq_true, if_false]
    exact ⟨_, rfl, rfl, rfl⟩
  | false =>
    have hact : hasFile
        (((st.commit (.SET_DIFF_DATA_BATCH r.diff_files)).commit
          (.SET_BATCH_LOADING false)).commit (.VIEW_DIFF_FILE file.file_hash)).state.diffFiles
        (((st.commit (.SET_DIFF_DATA_BATCH r.diff_files)).commit
          (.SET_BATCH_LOADING false)).commit
            (.VIEW_DIFF_FILE file.file_hash)).state.currentDiffFileId = true := by
      show hasFile (st.state.diffFiles ++ r.diff_files) file.file_hash = true
      rw [hfirst]
      exact hasFile_append_right _ _ _ (hasFile_cons_self file files)
    obtain ⟨st1, hfin, hfiles, hcur⟩ := finishBatches_active id _ hanchor hact
    simp only [Bool.not_false, if_true, hfin]
    exact ⟨st1, rfl, hfiles, hcur⟩

/-- C4. A complete load of successful pages without note link in the URL,
started with an empty file collection and no active file, whose first page
has a first file (with a non-empty hash): the load ends, the active file is
the first file of the first page, the file collection is the concatenation of
the pages' files in page order, and its length is the sum of the page sizes. -/
theorem fetchDiffFilesBatch_first_file_active (id : String) (rootGetters : RootGetters)
    (s : State) (first : BatchResponse) (more : List BatchResponse)
    (file : DiffFile) (files : List DiffFile)
    (hanchor : isNoteLink id = false)
    (hempty : s.diffFiles = [])
    (hnone : s.currentDiffFileId = "")
    (hfirst : first.diff_files = file :: files)
    (hhash : file.file_hash ≠ "")
    (hload : isCompleteLoad (first :: more) = true) :
    (fetchDiffFilesBatch id rootGetters ((first :: more).map some) ⟨s, []⟩).2 = .resolved ∧
    (fetchDiffFilesBatch id rootGetters ((first :: more).map some) ⟨s, []⟩).1.state.currentDiffFileId
      = file.file_hash ∧
    (fetchDiffFilesBatch id rootGetters ((first :: more).map some) ⟨s, []⟩).1.state.diffFiles
      = (first :: more).flatMap (fun p => p.diff_files) ∧
    ((fetchDiffFilesBatch id rootGetters ((first :: more).map some) ⟨s, []⟩).1.state.diffFiles).length
      = ((first :: more).map (fun p => p.diff_files.length)).sum := by
  have hkey :
      (fetchDiffFilesBatch id rootGetters ((first :: more).map some) ⟨s, []⟩).2 = .resolved ∧
      (fetchDiffFilesBatch id rootGetters ((first :: more).map some)
        ⟨s, []⟩).1.state.currentDiffFileId = file.file_hash ∧
      (fetchDiffFilesBatch id rootGetters ((first :: more).map some) ⟨s, []⟩).1.state.diffFiles
        = (first :: more).flatMap (fun p => p.diff_files) := by
    have htr : truthy file.file_hash = true := by
      simpa [truthy] using hhash
    obtain ⟨st1, hthen, hfiles, hcur⟩ := getBatchThen_first id rootGetters
      (((((⟨s, []⟩ : Store).commit (.SET_BATCH_LOADING true)).commit
        (.SET_RETRIEVING_BATCHES true)).perform
          (.emit "EVT_PERF_MARK_DIFF_FILES_START")).perform (.axiosGet 1))
      first file files hanchor (by simp [Store.perform, Store.commit, applyMutation, hnone, truthy])
      hfirst
    have hfiles1 : st1.state.diffFiles = first.diff_files := by
      rw [hfiles]
      simp [Store.perform, Store.commit, applyMutation, hempty]
    unfold fetchDiffFilesBatch
    simp only [List.map_cons, getBatch, hthen]
    cases more with
    | nil =>
      have hlast : truthyPage first.pagination.next_page = false := by
        simpa [isCompleteLoad] using hload
      rcases hn : first.pagination.next_page with _ | _ | n
      · simp [hfiles1, hcur, Store.perform]
      · simp [hfiles1, hcur, Store.perform]
      · rw [hn] at hlast; simp [truthyPage] at hlast
    | cons q qs =>
      have hboth : truthyPage first.pagination.next_page = true ∧
          isCompleteLoad (q :: qs) = true := by
        simpa [isCompleteLoad] using hload
      rcases hn : first.pagination.next_page with _ | _ | n
      · rw [hn] at hboth; simp [truthyPage] at hboth
      · rw [hn] at hboth; simp [truthyPage] at hboth
      · have hact1 : hasFile st1.state.diffFiles st1.state.currentDiffFileId = true := by
          rw [hfiles1, hcur, hfirst]
          exact hasFile_cons_self file files
        have ht1 : truthy st1.state.currentDiffFileId = true := by
          rw [hcur]; exact htr
        obtain ⟨hres, hfs, hc⟩ := getBatch_active id rootGetters [] hanchor (q :: qs) (n + 1) st1
          hboth.2 ht1 hact1
        rw [List.append_nil] at hres hfs hc
        dsimp only
        cases hg : getBatch id rootGetters (List.map some (q :: qs)) (n + 1) st1 with
        | mk st3 o =>
          rw [hg] at hres hfs hc
          dsimp only at hres hfs hc
          subst hres
          refine ⟨rfl, ?_, ?_⟩
          · show st3.state.currentDiffFileId = file.file_hash
            rw [hc, hcur]
          · show st3.state.diffFiles = _
            rw [hfs, hfiles1]
            simp [List.flatMap_cons]
  refine ⟨hkey.1, hkey.2.1, hkey.2.2, ?_⟩
  rw [hkey.2.2]
  generalize first :: more = pages
  induction pages with
  | nil => rfl
  | cons p ps ih => simp [List.flatMap_cons, ih]

/-- C4 at the scenario of the specification: a page of 20 files followed by
a last page of 5 files, no anchor; the first file of page 1 is active and
25 files are loaded. -/
theorem fetchDiffFilesBatch_first_file_active_witness :
    (fetchDiffFilesBatch "" noNotes ([firstPage, lastPage].map some)
      ⟨emptyState, []⟩).1.state.currentDiffFileId = "f01" ∧
    ((fetchDiffFilesBatch "" noNotes ([firstPage, lastPage].map some)
      ⟨emptyState, []⟩).1.state.diffFiles).length = 25 :=
  ⟨(fetchDiffFilesBatch_first_file_active "" noNotes emptyState firstPage [lastPage]
      (sampleFile "f01") firstPageTail (by decide) rfl rfl rfl (by decide) (by decide)).2.1,
   (fetchDiffFilesBatch_first_file_active "" noNotes emptyState firstPage [lastPage]
      (sampleFile "f01") firstPageTail (by decide) rfl rfl rfl (by decide) (by decide)).2.2.2⟩

/-! ### The active file under a note anchor -/

theorem onlyViews_commit (h : String) (st : Store) (m : Mutation)
    (hst : OnlyViews h st) (hm : ∀ x, m = .VIEW_DIFF_FILE x → x = h) :
    OnlyViews h (st.commit m) := by
  intro x hx
  simp only [Store.commit, List.filterMap_append, List.mem_append] at hx
  rcases hx with hx | hx
  · exact hst x hx
  · cases m <;> simp [List.filterMap_cons, viewCommit] at hx
    exact hm _ (by rw [hx])

theorem onlyViews_perform (h : String) (st : Store) (e : Effect)
    (hst : OnlyViews h st) (he : ∀ m, e ≠ .commit m) :
    OnlyViews h (st.perform e) := by
  intro x hx
  simp only [Store.perform, List.filterMap_append, List.mem_append] at hx
  rcases hx with hx | hx
  · exact hst x hx
  · cases e <;> simp [List.filterMap_cons, viewCommit] at hx he

/-- The note lookup of `setCurrentDiffFileIdFromNote` when the note resolves
to a file hash. -/
theorem setCurrentDiffFileIdFromNote_resolved (rootGetters : RootGetters) (st : Store)
    (noteId : String) (note : Note) (discussion : Discussion) (diff_file : DiffFile)
    (hlookup : rootGetters.notesById noteId = some note)
    (hdisc : rootGetters.getDiscussion note.discussion_id = some discussion)
    (hfile : discussion.diff_file = some diff_file) :
    setCurrentDiffFileIdFromNote rootGetters st noteId
      = .ok (if truthy diff_file.file_hash && hasFile st.state.diffFiles diff_file.file_hash
          then st.commit (.VIEW_DIFF_FILE diff_file.file_hash) else st) := by
  unfold setCurrentDiffFileIdFromNote hasFile
  simp only [hlookup, hdisc, hfile]
  split <;> rfl

/-- One page of a load under a note anchor that resolves to the hash `h`:
the callback returns, the page is appended, only `h` is ever selected, and
`h` is the active file as soon as a file with that hash is loaded. -/
theorem getBatchThen_note (id : String) (rootGetters : RootGetters) (st : Store)
    (r : BatchResponse) (note : Note) (discussion : Discussion) (diff_file : DiffFile)
    (hnote : isNoteLink id = true)
    (hlookup : rootGetters.notesById (noteIdOf id) = some note)
    (hdisc : rootGetters.getDiscussion note.discussion_id = some discussion)
    (hfile : discussion.diff_file = some diff_file)
    (hhash : truthy diff_file.file_hash = true)
    (hviews : OnlyViews diff_file.file_hash st) :
    ∃ st1, getBatchThen id rootGetters st r = .ok (st1, r.pagination.next_page) ∧
      st1.state.diffFiles = st.state.diffFiles ++ r.diff_files ∧
      OnlyViews diff_file.file_hash st1 ∧
      (hasFile st1.state.diffFiles diff_file.file_hash = true →
        st1.state.currentDiffFileId = diff_file.file_hash) := by
  have h1 : selectFirstOfPage id
      ((st.commit (.SET_DIFF_DATA_BATCH r.diff_files)).commit (.SET_BATCH_LOADING false))
      r.diff_files
      = .ok ((st.commit (.SET_DIFF_DATA_BATCH r.diff_files)).commit
          (.SET_BATCH_LOADING false)) := by
    simp [selectFirstOfPage, hnote]
  have hv1 : OnlyViews diff_file.file_hash
      (((st.commit (.SET_DIFF_DATA_BATCH r.diff_files)).commit
        (.SET_BATCH_LOADING false)).perform
          (.dispatch (.setCurrentDiffFileIdFromNote (noteIdOf id)))) :=
    onlyViews_perform _ _ _
      (onlyViews_commit _ _ _ (onlyViews_commit _ _ _ hviews (by intro x hx; cases hx))
        (by intro x hx; cases hx))
      (by intro m hm; cases hm)
  obtain ⟨st3, h3, hfiles3, hv3, hcur3⟩ : ∃ st3,
      selectFromNote id rootGetters
        ((st.commit (.SET_DIFF_DATA_BATCH r.diff_files)).commit (.SET_BATCH_LOADING false))
        = .ok st3 ∧
      st3.state.diffFiles = st.state.diffFiles ++ r.diff_files ∧
      OnlyViews diff_file.file_hash st3 ∧
      (hasFile st3.state.diffFiles diff_file.file_hash = true →
        st3.state.currentDiffFileId = diff_file.file_hash) := by
    unfold selectFromNote
    rw [if_pos hnote, setCurrentDiffFileIdFromNote_resolved rootGetters _ _ note discussion
      diff_file hlookup hdisc hfile]
    refine ⟨_, rfl, ?_⟩
    split
    · refine ⟨rfl, onlyViews_commit _ _ _ hv1 (by intro x hx; cases hx; rfl), fun _ => rfl⟩
    · rename_i hcond
      refine ⟨rfl, hv1, fun hhas => ?_⟩
      exfalso
      apply hcond
      rw [hhash, Bool.true_and]
      exact hhas
  unfold getBatchThen
  simp only [h1, h3]
  cases hp : truthyPage r.pagination.next_page with
  | true =>
    simp only [Bool.not_true, Bool.false_eq_true, if_false]
    exact ⟨st3, rfl, hfiles3, hv3, hcur3⟩
  | false =>
    simp only [Bool.not_false, if_true]
    unfold finishBatches
    simp only [hnote, Bool.not_true, Bool.and_false, Bool.false_eq_true, if_false, Except.map]
    have hv4 : OnlyViews diff_file.file_hash (st3.commit (.SET_RETRIEVING_BATCHES false)) :=
      onlyViews_commit _ _ _ hv3 (by intro x hx; cases hx)
    split
    · exact ⟨_, rfl, hfiles3, onlyViews_perform _ _ _ hv4 (by intro m hm; cases hm), hcur3⟩
    · exact ⟨_, rfl, hfiles3, hv4, hcur3⟩

/-- A load under a note anchor that resolves to the hash `h` keeps three
things, whatever the responses: only `h` is ever selected, `h` is active
whenever a file with that hash is loaded, and loaded files stay loaded. -/
theorem getBatch_note_keeps (id : String) (rootGetters : RootGetters)
    (note : Note) (discussion : Discussion) (diff_file : DiffFile)
    (hnote : isNoteLink id = true)
    (hlookup : rootGetters.notesById (noteIdOf id) = some note)
    (hdisc : rootGetters.getDiscussion note.discussion_id = some discussion)
    (hfile : discussion.diff_file = some diff_file)
    (hhash : truthy diff_file.file_hash = true) :
    ∀ (responses : List (Option BatchResponse)) (page : Nat) (st : Store),
      OnlyViews diff_file.file_hash st →
      (hasFile st.state.diffFiles diff_file.file_hash = true →
        st.state.currentDiffFileId = diff_file.file_hash) →
      OnlyViews diff_file.file_hash (getBatch id rootGetters responses page st).1 ∧
      (hasFile (getBatch id rootGetters responses page st).1.state.diffFiles
          diff_file.file_hash = true →
        (getBatch id rootGetters responses page st).1.state.currentDiffFileId
          = diff_file.file_hash) ∧
      (hasFile st.state.diffFiles diff_file.file_hash = true →
        hasFile (getBatch id rootGetters responses page st).1.state.diffFiles
          diff_file.file_hash = true) := by
  intro responses
  induction responses with
  | nil =>
    intro page st hv hcur
    exact ⟨onlyViews_perform _ _ _ hv (by intro m hm; cases hm), hcur, fun h => h⟩
  | cons r rest ih =>
    intro page st hv hcur
    have hvreq : OnlyViews diff_file.file_hash (st.perform (.axiosGet page)) :=
      onlyViews_perform _ _ _ hv (by intro m hm; cases hm)
    cases r with
    | none =>
      exact ⟨onlyViews_commit _ _ _ hvreq (by intro x hx; cases hx), hcur, fun h => h⟩
    | some r =>
      obtain ⟨st1, hthen, hfiles1, hv1, hcur1⟩ := getBatchThen_note id rootGetters
        (st.perform (.axiosGet page)) r note discussion diff_file hnote hlookup hdisc hfile
        hhash hvreq
      have hmono : hasFile st.state.diffFiles diff_file.file_hash = true →
          hasFile st1.state.diffFiles diff_file.file_hash = true := by
        intro h
        rw [hfiles1]
        exact hasFile_append_left _ _ _ h
      simp only [getBatch, hthen]
      rcases r.pagination.next_page with _ | _ | n
      · exact ⟨hv1, hcur1, hmono⟩
      · exact ⟨hv1, hcur1, hmono⟩
      · obtain ⟨ha, hb, hc⟩ := ih (n + 1) st1 hv1 hcur1
        exact ⟨ha, hb, fun h => hc (hmono h)⟩

/-- A load under a note anchor that gets as far as a page holding a file
with the hash `h` has that file loaded at its end. -/
theorem getBatch_note_reaches (id : String) (rootGetters : RootGetters)
    (note : Note) (discussion : Discussion) (diff_file : DiffFile)
    (p : BatchResponse) (later : List (Option BatchResponse))
    (hnote : isNoteLink id = true)
    (hlookup : rootGetters.notesById (noteIdOf id) = some note)
    (hdisc : rootGetters.getDiscussion note.discussion_id = some discussion)
    (hfile : discussion.diff_file = some diff_file)
    (hhash : truthy diff_file.file_hash = true)
    (hloaded : hasFile p.diff_files diff_file.file_hash = true) :
    ∀ (earlier : List BatchResponse) (page : Nat) (st : Store),
      (∀ q ∈ earlier, truthyPage q.pagination.next_page = true) →
      OnlyViews diff_file.file_hash st →
      OnlyViews diff_file.file_hash
        (getBatch id rootGetters (earlier.map some ++ some p :: later) page st).1 ∧
      (getBatch id rootGetters (earlier.map some ++ some p :: later) page
        st).1.state.currentDiffFileId = diff_file.file_hash := by
  intro earlier
  induction earlier with
  | nil =>
    intro page st _ hv
    have hvreq : OnlyViews diff_file.file_hash (st.perform (.axiosGet page)) :=
      onlyViews_perform _ _ _ hv (by intro m hm; cases hm)
    obtain ⟨st1, hthen, hfiles1, hv1, hcur1⟩ := getBatchThen_note id rootGetters
      (st.perform (.axiosGet page)) p note discussion diff_file hnote hlookup hdisc hfile
      hhash hvreq
    have hhas1 : hasFile st1.state.diffFiles diff_file.file_hash = true := by
      rw [hfiles1]
      exact hasFile_append_right _ _ _ hloaded
    simp only [List.map_nil, List.nil_append, getBatch, hthen]
    rcases p.pagination.next_page with _ | _ | n
    · exact ⟨hv1, hcur1 hhas1⟩
    · exact ⟨hv1, hcur1 hhas1⟩
    · obtain ⟨ha, hb, hc⟩ := getBatch_note_keeps id rootGetters note discussion diff_file
        hnote hlookup hdisc hfile hhash later (n + 1) st1 hv1 hcur1
      exact ⟨ha, hb (hc hhas1)⟩
  | cons q qs ih =>
    intro page st hall hv
    have hvreq : OnlyViews diff_file.file_hash (st.perform (.axiosGet page)) :=
      onlyViews_perform _ _ _ hv (by intro m hm; cases hm)
    obtain ⟨st1, hthen, hfiles1, hv1, hcur1⟩ := getBatchThen_note id rootGetters
      (st.perform (.axiosGet page)) q note discussion diff_file hnote hlookup hdisc hfile
      hhash hvreq
    have hq : truthyPage q.pagination.next_page = true := hall q (List.mem_cons_self _ _)
    simp only [List.map_cons, List.cons_append, getBatch, hthen]
    rcases hn : q.pagination.next_page with _ | _ | n
    · rw [hn] at hq; simp [truthyPage] at hq
    · rw [hn] at hq; simp [truthyPage] at hq
    · exact ih (n + 1) st1 (fun x hx => hall x (List.mem_cons_of_mem _ hx)) hv1

/-- C5. With a note anchor in the URL whose note resolves, through its
discussion's `diff_file`, to the file hash `h`: if the load gets as far as a
page holding a file with hash `h`, whichever page that is, whatever follows
it and whatever was active before, then after `fetchDiffFilesBatch` the active
file is `h`, and no `VIEW_DIFF_FILE` commit of the load selected another file
(neither the first-file default nor the end-of-load fallback). -/
theorem fetchDiffFilesBatch_note_anchor (id : String) (rootGetters : RootGetters)
    (s : State) (note : Note) (discussion : Discussion) (diff_file : DiffFile)
    (earlier : List BatchResponse) (p : BatchResponse) (later : List (Option BatchResponse))
    (hnote : isNoteLink id = true)
    (hlookup : rootGetters.notesById (noteIdOf id) = some note)
    (hdisc : rootGetters.getDiscussion note.discussion_id = some discussion)
    (hfile : discussion.diff_file = some diff_file)
    (hhash : diff_file.file_hash ≠ "")
    (hearlier : ∀ q ∈ earlier, truthyPage q.pagination.next_page = true)
    (hloaded : hasFile p.diff_files diff_file.file_hash = true) :
    (fetchDiffFilesBatch id rootGetters (earlier.map some ++ some p :: later)
      ⟨s, []⟩).1.state.currentDiffFileId = diff_file.file_hash ∧
    ∀ x ∈ ((fetchDiffFilesBatch id rootGetters (earlier.map some ++ some p :: later)
      ⟨s, []⟩).1.log).filterMap viewCommit, x = diff_file.file_hash := by
  have htr : truthy diff_file.file_hash = true := by
    simpa [truthy] using hhash
  have hv0 : OnlyViews diff_file.file_hash
      ((((⟨s, []⟩ : Store).commit (.SET_BATCH_LOADING true)).commit
        (.SET_RETRIEVING_BATCHES true)).perform (.emit "EVT_PERF_MARK_DIFF_FILES_START")) := by
    intro x hx
    simp [Store.perform, Store.commit, viewCommit, List.filterMap_cons] at hx
  obtain ⟨hv, hcur⟩ := getBatch_note_reaches id rootGetters note discussion diff_file p later
    hnote hlookup hdisc hfile htr hloaded earlier 1 _ hearlier hv0
  unfold fetchDiffFilesBatch
  dsimp only
  cases hg : getBatch id rootGetters (earlier.map some ++ some p :: later) 1
    ((((⟨s, []⟩ : Store).commit (.SET_BATCH_LOADING true)).commit
      (.SET_RETRIEVING_BATCHES true)).perform (.emit "EVT_PERF_MARK_DIFF_FILES_START")) with
  | mk st3 o =>
    rw [hg] at hv hcur
    cases o with
    | resolved =>
      exact ⟨hcur, onlyViews_perform _ _ _ hv (by intro m hm; cases hm)⟩
    | pending => exact ⟨hcur, hv⟩

/-- C5 at the scenario of the specification: the anchor `#note_42` resolves
to the file hash `abc123`, the file arrives on the second page while another
file was active, and `abc123` is the active file after the load. -/
theorem fetchDiffFilesBatch_note_anchor_witness :
    (fetchDiffFilesBatch "#note_42" notesOfScenario
      ([firstPage].map some ++ some pageOfScenario :: [])
      ⟨{ emptyState with currentDiffFileId := "f07" }, []⟩).1.state.currentDiffFileId
      = "abc123" :=
  (fetchDiffFilesBatch_note_anchor "#note_42" notesOfScenario
    { emptyState with currentDiffFileId := "f07" }
    { discussion_id := "disc1" }
    { id := "disc1", expanded := true, diff_file := some (sampleFile "abc123") }
    (sampleFile "abc123") [firstPage] pageOfScenario []
    (by decide) (by decide) (by decide) rfl (by decide) (by decide) (by decide)).1

/-! ### changeCurrentCommit -/

theorem replaceScan_skip (pattern replacement : List Char) (hne : pattern ≠ []) :
    ∀ (skip : Nat) (s : List Char),
      replaceScan pattern replacement skip s = replaceScan pattern replacement 0 (s.drop skip) := by
  intro skip
  induction skip with
  | zero => intro s; rfl
  | succ k ih =>
    intro s
    cases s with
    | nil =>
      cases pattern with
      | nil => exact absurd rfl hne
      | cons p ps => simp [replaceScan]
    | cons c cs =>
      simp only [replaceScan, List.drop_succ_cons]
      exact ih cs

theorem not_infix_dropLast (old a : List Char) (hne : old ≠ []) (ha : a = []) :
    ¬ old <:+: (a ++ old.dropLast) := by
  subst ha
  intro h
  have hlen := h.length_le
  have hpos : 0 < old.length := List.length_pos.mpr hne
  simp only [List.nil_append, List.length_dropLast] at hlen
  omega

theorem replacedAll_cons (old new : List Char) (c : Char) (cs t : List Char)
    (hhead : ¬ old <+: c :: cs) (h : ReplacedAll old new cs t) :
    ReplacedAll old new (c :: cs) (c :: t) := by
  cases h with
  | done =>
    refine ReplacedAll.done _ ?_
    intro hin
    rcases List.infix_cons_iff.mp hin with h1 | h2
    · exact hhead h1
    · rename_i hno
      exact hno h2
  | step a rest t1 hfirst hrest =>
    have key : ¬ old <:+: ((c :: a) ++ old.dropLast) := by
      intro hin
      rcases List.infix_cons_iff.mp hin with h1 | h2
      · apply hhead
        have hsub : (c :: (a ++ old.dropLast)) <+: (c :: (a ++ old ++ rest)) := by
          obtain ⟨z, hz⟩ : old.dropLast <+: old := List.dropLast_prefix old
          refine ⟨z ++ rest, ?_⟩
          conv_rhs => rw [← hz]
          simp [List.append_assoc]
        exact h1.trans hsub
      · exact hfirst h2
    exact ReplacedAll.step (c :: a) rest t1 key hrest

/-- The scan replaces every occurrence of a non-empty pattern, in the words
of the specification. -/
theorem replaceScan_replacedAll (old new : List Char) (hne : old ≠ []) :
    ∀ (n : Nat) (s : List Char), s.length ≤ n →
      ReplacedAll old new s (replaceScan old new 0 s) := by
  intro n
  induction n with
  | zero =>
    intro s hs
    have hnil : s = [] := List.length_eq_zero.mp (Nat.le_zero.mp hs)
    subst hnil
    have hempty : old.isEmpty = false := by
      cases old with
      | nil => exact absurd rfl hne
      | cons p ps => rfl
    simp only [replaceScan, hempty, Bool.false_eq_true, if_false]
    refine ReplacedAll.done _ ?_
    intro h
    exact hne (List.infix_nil.mp h)
  | succ n ih =>
    intro s hs
    cases s with
    | nil => exact ih [] (Nat.zero_le n)
    | cons c cs =>
      have hcs : cs.length ≤ n := by simpa using hs
      by_cases hp : old.isPrefixOf (c :: cs) = true
      · obtain ⟨rest, hrest⟩ : old <+: c :: cs := List.isPrefixOf_iff_prefix.mp hp
        cases hold : old with
        | nil => exact absurd hold hne
        | cons p ps =>
          rw [hold] at hrest hp
          have hlen : (p :: ps).length = ps.length + 1 := rfl
          obtain ⟨hpc, hcs2⟩ : p = c ∧ ps ++ rest = cs := by
            simpa using hrest
          have hdrop : cs.drop ps.length = rest := by
            rw [← hcs2]; simp
          have hscan : replaceScan (p :: ps) new 0 (c :: cs)
              = new ++ replaceScan (p :: ps) new 0 rest := by
            simp only [replaceScan, hp, if_true, hlen]
            rw [replaceScan_skip (p :: ps) new (by simp) ps.length cs, hdrop]
          have hrestlen : rest.length ≤ n := by
            have : cs.length = ps.length + rest.length := by rw [← hcs2]; simp
            omega
          have hih := ih rest hrestlen
          rw [hold] at hih
          have hstep := @ReplacedAll.step (p :: ps) new [] rest _
            (not_infix_dropLast (p :: ps) [] (by simp) rfl) hih
          rw [hscan]
          have hsubj : c :: cs = [] ++ (p :: ps) ++ rest := by
            rw [← hcs2, hpc]; simp
          rw [hsubj]
          exact hstep
      · have hscan : replaceScan old new 0 (c :: cs) = c :: replaceScan old new 0 cs := by
          simp only [replaceScan, hp, Bool.false_eq_true, if_false]
        rw [hscan]
        refine replacedAll_cons old new c cs _ ?_ (ih cs hcs)
        intro hpre
        exact hp (List.isPrefixOf_iff_prefix.mpr hpre)

theorem jsReplaceAll_replacedAll (old new subject : String) (hne : old ≠ "") :
    ReplacedAll old.data new.data subject.data (jsReplaceAll old new subject).data := by
  have hdata : old.data ≠ [] := by
    intro h
    apply hne
    cases old with
    | mk data => simp at h; subst h; rfl
  exact replaceScan_replacedAll old.data new.data hdata subject.data.length subject.data
    (le_refl _)

theorem isCommitId_ne_empty (s : String) (h : isCommitId s = true) : s ≠ "" := by
  unfold isCommitId at h
  simp only [Bool.and_eq_true, bne_iff_ne, ne_eq] at h
  exact h.1

/-- C6. `changeCurrentCommit` with a supplied commit id on a state that has
a commit: the action commits `SET_DIFF_FILES` with no file, then
`SET_BASE_CONFIG` with options in which each of `endpoint`, `endpointBatch`
and `endpointMetadata` is the stored endpoint with every occurrence of the
prior commit id replaced by the new one and the other configuration fields are
those of the state, and then dispatches `fetchDiffFilesMeta`, once, and returns
its promise. Commit ids are non-empty texts of hexadecimal digits. -/
theorem changeCurrentCommit_rewrites_endpoints (s : State) (commit : Commit)
    (commitId : String)
    (hid : isCommitId commitId = true)
    (hcommit : s.commit = some commit)
    (hold : isCommitId commit.id = true) :
    ∃ options : State,
      (changeCurrentCommit ⟨s, []⟩ (some commitId)).2 = .ok () ∧
      (changeCurrentCommit ⟨s, []⟩ (some commitId)).1.log
        = [Effect.commit (.SET_DIFF_FILES []), Effect.commit (.SET_BASE_CONFIG options),
           Effect.dispatch .fetchDiffFilesMeta] ∧
      options.endpoint = jsReplaceAll commit.id commitId s.endpoint ∧
      options.endpointBatch = jsReplaceAll commit.id commitId s.endpointBatch ∧
      options.endpointMetadata = jsReplaceAll commit.id commitId s.endpointMetadata ∧
      ReplacedAll commit.id.data commitId.data s.endpoint.data options.endpoint.data ∧
      ReplacedAll commit.id.data commitId.data s.endpointBatch.data options.endpointBatch.data ∧
      ReplacedAll commit.id.data commitId.data s.endpointMetadata.data
        options.endpointMetadata.data ∧
      options.endpointCoverage = s.endpointCoverage ∧
      options.projectPath = s.projectPath ∧
      options.dismissEndpoint = s.dismissEndpoint ∧
      options.showSuggestPopover = s.showSuggestPopover := by
  have hne : commit.id ≠ "" := isCommitId_ne_empty _ hold
  have htr : truthyArg (some commitId) = true := by
    simpa [truthyArg, truthy] using isCommitId_ne_empty _ hid
  refine ⟨{ s with
      diffFiles := []
      endpoint := jsReplaceAll commit.id commitId s.endpoint
      endpointBatch := jsReplaceAll commit.id commitId s.endpointBatch
      endpointMetadata := jsReplaceAll commit.id commitId s.endpointMetadata }, ?_⟩
  refine ⟨?_, ?_, rfl, rfl, rfl, jsReplaceAll_replacedAll _ _ _ hne,
    jsReplaceAll_replacedAll _ _ _ hne, jsReplaceAll_replacedAll _ _ _ hne, rfl, rfl, rfl, rfl⟩
  · simp [changeCurrentCommit, htr, hcommit]
  · simp [changeCurrentCommit, htr, hcommit, Store.commit, Store.perform, applyMutation]

/-- C6 at the scenario of the specification: switching from `deadbeef` to
`feedface` turns the endpoint `.../commit/deadbeef/diff` into
`.../commit/feedface/diff` and dispatches `fetchDiffFilesMeta`. -/
theorem changeCurrentCommit_rewrites_endpoints_witness :
    (∃ options : State,
      (changeCurrentCommit ⟨stateOfScenario, []⟩ (some "feedface")).1.log
        = [Effect.commit (.SET_DIFF_FILES []), Effect.commit (.SET_BASE_CONFIG options),
           Effect.dispatch .fetchDiffFilesMeta] ∧
      options.endpoint = "/group/project/-/commit/feedface/diff") ∧
    (changeCurrentCommit ⟨stateOfScenario, []⟩ (some "feedface")).1.state.endpoint
      = "/group/project/-/commit/feedface/diff" := by
  obtain ⟨options, _, hlog, hendpoint, _⟩ :=
    changeCurrentCommit_rewrites_endpoints stateOfScenario
      { id := "deadbeef", prev_commit_id := none, next_commit_id := some "feedface" }
      "feedface" (by decide) rfl (by decide)
  exact ⟨⟨options, hlog, hendpoint.trans (by decide)⟩, by decide⟩

/-- C7. `changeCurrentCommit` is rejected exactly when `commitId` is missing
(undefined or empty) or the state has no commit; a rejected call leaves the
store as it was, with nothing committed and nothing dispatched; a missing
`commitId` is reported as such, also when the commit is missing too, and a
missing commit is reported when `commitId` is there. -/
theorem changeCurrentCommit_rejected_iff (st : Store) (commitId : Option String) :
    ((changeCurrentCommit st commitId).2 ≠ .ok () ↔
      (truthyArg commitId = false ∨ st.state.commit = none)) ∧
    ((changeCurrentCommit st commitId).2 ≠ .ok () →
      (changeCurrentCommit st commitId).1 = st) ∧
    (truthyArg commitId = false →
      (changeCurrentCommit st commitId).2 = .error .commitIdRequired) ∧
    (truthyArg commitId = true → st.state.commit = none →
      (changeCurrentCommit st commitId).2 = .error .commitRequired) := by
  unfold changeCurrentCommit
  cases hid : truthyArg commitId with
  | false => simp
  | true =>
    cases hc : st.state.commit with
    | none => simp
    | some commit => simp

/-! ### setExpandedDiffLines -/

/-- What the loop of an idle slice does, whatever the readings of the time
remaining: it commits the next `n` lines from the index it starts at, one at a
time and in order, and it never goes more than `MAX_RENDERING_BULK_ROWS`
beyond the index at which the slice began. -/
theorem idleLoop_spec (c : Constants) (filePath : String) (lines : List Line)
    (t : Nat → Nat) (startIndex : Nat) :
    ∀ (fuel k index : Nat) (log : List Effect),
      ∃ n, (idleLoop c filePath lines t startIndex fuel k index log).index = index + n ∧
        (idleLoop c filePath lines t startIndex fuel k index log).log
          = log ++ ((lines.drop index).take n).map
              (fun line => Effect.commit (.ADD_CURRENT_VIEW_DIFF_FILE_LINES filePath line)) ∧
        (n = 0 ∨ index + n ≤ lines.length) ∧
        (startIndex ≤ index → index - startIndex ≤ c.MAX_RENDERING_BULK_ROWS →
          index + n - startIndex ≤ c.MAX_RENDERING_BULK_ROWS) := by
  intro fuel
  induction fuel with
  | zero =>
    intro k index log
    exact ⟨0, rfl, by simp [idleLoop], Or.inl rfl, fun _ h => h⟩
  | succ fuel ih =>
    intro k index log
    unfold idleLoop
    split
    · rename_i hcond
      split
      · rename_i line hline
        obtain ⟨hlt, hget⟩ := List.getElem?_eq_some.mp hline
        obtain ⟨n, hidx, hlog, hle, hbulk⟩ := ih (k + 1) (index + 1)
          (log ++ [Effect.commit (.ADD_CURRENT_VIEW_DIFF_FILE_LINES filePath line)])
        refine ⟨n + 1, ?_, ?_, Or.inr ?_, ?_⟩
        · rw [hidx]; omega
        · rw [hlog, List.drop_eq_getElem_cons hlt, hget]
          simp [List.take_succ_cons]
        · rcases hle with h0 | h1
          · omega
          · omega
        · intro hs hb
          have := hbulk (by omega) (by omega)
          omega
      · obtain ⟨n, hidx, hlog, hle, hbulk⟩ := ih (k + 1) index log
        exact ⟨n, hidx, hlog, hle, hbulk⟩
    · exact ⟨0, rfl, by simp, Or.inl rfl, fun _ h => h⟩

theorem flatMap_appliedLines_add (filePath : String) (ls : List Line) :
    (ls.map (fun line => Effect.commit (.ADD_CURRENT_VIEW_DIFF_FILE_LINES filePath line))).flatMap
      appliedLines = ls := by
  induction ls with
  | nil => rfl
  | cons l ls ih => simp [List.flatMap_cons, appliedLines, ih]

/-- One idle slice applies at most `MAX_RENDERING_BULK_ROWS` lines. -/
theorem idleLoop_bulk (c : Constants) (filePath : String) (lines : List Line)
    (t : Nat → Nat) (fuel index : Nat) :
    (((idleLoop c filePath lines t index fuel 0 index []).log).flatMap appliedLines).length
      ≤ c.MAX_RENDERING_BULK_ROWS := by
  obtain ⟨n, _, hlog, _, hbulk⟩ := idleLoop_spec c filePath lines t index fuel 0 index []
  rw [hlog, List.nil_append, flatMap_appliedLines_add]
  have h1 := hbulk (le_refl _) (by omega)
  have h2 : ((lines.drop index).take n).length ≤ n := by
    rw [List.length_take]; exact Nat.min_le_left _ _
  omega

theorem runIdle_bulk (c : Constants) (filePath : String) (lines : List Line)
    (provider : Nat → Nat → Nat) (loopFuel : Nat) :
    ∀ (slices sliceNo index : Nat),
      ∀ slice ∈ (runIdle c filePath lines provider loopFuel slices sliceNo index).1,
        (slice.flatMap appliedLines).length ≤ c.MAX_RENDERING_BULK_ROWS := by
  intro slices
  induction slices with
  | zero => intro sliceNo index slice h; simp [runIdle] at h
  | succ slices ih =>
    intro sliceNo index slice hmem
    have hb := idleLoop_bulk c filePath lines (provider sliceNo) loopFuel index
    unfold runIdle at hmem
    dsimp only at hmem
    split at hmem
    · rw [List.mem_singleton] at hmem
      rw [hmem]; exact hb
    · split at hmem
      · rcases List.mem_cons.mp hmem with h1 | h2
        · rw [h1]; exact hb
        · exact ih _ _ slice h2
      · rw [List.mem_singleton] at hmem
        rw [hmem, List.flatMap_append]
        simpa [appliedLines] using hb

/-- C8. Bounded work of `setExpandedDiffLines` in one step, for rendering
constants with `START_RENDERING_INDEX ≤ MAX_RENDERING_DIFF_LINES`: the
synchronous step of the action applies at most `MAX_RENDERING_DIFF_LINES`
lines, namely all lines when there are no more than that and otherwise the
first `START_RENDERING_INDEX` lines only; and every idle slice after it
applies at most `MAX_RENDERING_BULK_ROWS` lines, whatever the slices report as
time remaining. -/
theorem setExpandedDiffLines_bounded (c : Constants) (file : DiffFile) (lines : List Line)
    (provider : Nat → Nat → Nat) (fuel : Nat)
    (hstart : c.START_RENDERING_INDEX ≤ c.MAX_RENDERING_DIFF_LINES) :
    (((setExpandedDiffLines c file lines provider fuel).sync).flatMap appliedLines).length
      ≤ c.MAX_RENDERING_DIFF_LINES ∧
    (lines.length ≤ c.MAX_RENDERING_DIFF_LINES →
      ((setExpandedDiffLines c file lines provider fuel).sync).flatMap appliedLines = lines) ∧
    (c.MAX_RENDERING_DIFF_LINES < lines.length →
      ((setExpandedDiffLines c file lines provider fuel).sync).flatMap appliedLines
        = lines.take c.START_RENDERING_INDEX ∧
      (((setExpandedDiffLines c file lines provider fuel).sync).flatMap appliedLines).length
        = c.START_RENDERING_INDEX) ∧
    (∀ slice ∈ (setExpandedDiffLines c file lines provider fuel).slices,
      (slice.flatMap appliedLines).length ≤ c.MAX_RENDERING_BULK_ROWS) := by
  unfold setExpandedDiffLines
  by_cases hbig : lines.length > c.MAX_RENDERING_DIFF_LINES
  · simp only [hbig, if_true]
    refine ⟨?_, fun h => by omega, fun _ => ⟨?_, ?_⟩, ?_⟩
    · simp [List.flatMap_cons, appliedLines, List.length_take]
      omega
    · simp [List.flatMap_cons, appliedLines]
    · simp [List.flatMap_cons, appliedLines, List.length_take]
      omega
    · exact runIdle_bulk c file.file_path lines provider fuel fuel 0 _
  · simp only [hbig, if_false]
    refine ⟨?_, fun _ => ?_, fun h => h.elim, ?_⟩
    · simp [List.flatMap_cons, appliedLines]
      omega
    · simp [List.flatMap_cons, appliedLines]
    · intro slice h; simp at h

/-- C8 at a concrete run: seven lines, a threshold of three, a first slice
of one line and idle slices of at most two lines. -/
theorem setExpandedDiffLines_bounded_witness :
    (((setExpandedDiffLines sampleConstants (sampleFile "f01") sampleLines sampleProvider
        8).sync).flatMap appliedLines).length ≤ 3 ∧
    (∀ slice ∈ (setExpandedDiffLines sampleConstants (sampleFile "f01") sampleLines
        sampleProvider 8).slices, (slice.flatMap appliedLines).length ≤ 2) :=
  ⟨(setExpandedDiffLines_bounded sampleConstants (sampleFile "f01") sampleLines sampleProvider
      8 (by decide)).1,
   (setExpandedDiffLines_bounded sampleConstants (sampleFile "f01") sampleLines sampleProvider
      8 (by decide)).2.2.2⟩

/-- With fuel for the lines that are left, the loop of an idle slice is left
by its own condition. -/
theorem idleLoop_exits (c : Constants) (filePath : String) (lines : List Line)
    (t : Nat → Nat) (startIndex : Nat) :
    ∀ (fuel k index : Nat) (log : List Effect),
      index ≤ lines.length → lines.length - index < fuel →
      (idleLoop c filePath lines t startIndex fuel k index log).exited = true := by
  intro fuel
  induction fuel with
  | zero => intro k index log _ h; omega
  | succ fuel ih =>
    intro k index log hle hfuel
    unfold idleLoop
    split
    · rename_i hcond
      have hlt : index < lines.length := by omega
      split
      · exact ih _ _ _ (by omega) (by omega)
      · rename_i hnone
        rw [List.getElem?_eq_none_iff] at hnone
        omega
    · rfl

/-- A slice that begins with enough time remaining, before the last line and
with a positive bulk size, commits at least one line. -/
theorem idleLoop_progress (c : Constants) (filePath : String) (lines : List Line)
    (t : Nat → Nat) (fuel index : Nat)
    (hbulk : 0 < c.MAX_RENDERING_BULK_ROWS) (htime : c.MIN_RENDERING_MS ≤ t 0)
    (hlt : index < lines.length) (hfuel : 0 < fuel) :
    index < (idleLoop c filePath lines t index fuel 0 index []).index := by
  obtain ⟨f, rfl⟩ : ∃ f, fuel = f + 1 := ⟨fuel - 1, by omega⟩
  unfold idleLoop
  have hcond : c.MIN_RENDERING_MS ≤ t 0 ∧ index ≠ lines.length
      ∧ index - index ≠ c.MAX_RENDERING_BULK_ROWS := ⟨htime, by omega, by omega⟩
  rw [if_pos hcond]
  split
  · rename_i line hline
    obtain ⟨n, hidx, _⟩ := idleLoop_spec c filePath lines t index f 1 (index + 1)
      ([] ++ [Effect.commit (.ADD_CURRENT_VIEW_DIFF_FILE_LINES filePath line)])
    rw [hidx]; omega
  · rename_i hnone
    rw [List.getElem?_eq_none_iff] at hnone
    omega

/-- The idle slices of a run, when every slice begins with enough time
remaining: rendering gets to its end within as many slices as there are lines
left, and the slices commit the lines left, in order and one at a time,
followed by the toggle of the rendering-more flag. -/
theorem runIdle_complete (c : Constants) (filePath : String) (lines : List Line)
    (provider : Nat → Nat → Nat) (loopFuel : Nat)
    (hbulk : 0 < c.MAX_RENDERING_BULK_ROWS)
    (hgrant : ∀ n, c.MIN_RENDERING_MS ≤ provider n 0)
    (hfuel : lines.length < loopFuel) :
    ∀ (slices sliceNo index : Nat),
      index < lines.length → lines.length - index ≤ slices →
      (runIdle c filePath lines provider loopFuel slices sliceNo index).2 = true ∧
      ((runIdle c filePath lines provider loopFuel slices sliceNo index).1).flatten
        = (lines.drop index).map
            (fun line => Effect.commit (.ADD_CURRENT_VIEW_DIFF_FILE_LINES filePath line))
          ++ [Effect.commit (.TOGGLE_DIFF_FILE_RENDERING_MORE filePath)] ∧
      ((runIdle c filePath lines provider loopFuel slices sliceNo index).1).length
        ≤ lines.length - index := by
  intro slices
  induction slices with
  | zero => intro sliceNo index hlt hle; omega
  | succ slices ih =>
    intro sliceNo index hlt hle
    have hexit := idleLoop_exits c filePath lines (provider sliceNo) index loopFuel 0 index []
      (by omega) (by omega)
    have hprog := idleLoop_progress c filePath lines (provider sliceNo) loopFuel index hbulk
      (hgrant sliceNo) hlt (by omega)
    obtain ⟨n, hidx, hlog, hbound, _⟩ :=
      idleLoop_spec c filePath lines (provider sliceNo) index loopFuel 0 index []
    have hn : index + n ≤ lines.length := by
      rcases hbound with h0 | h1
      · omega
      · exact h1
    have hsplit : (lines.drop index).map
          (fun line => Effect.commit (.ADD_CURRENT_VIEW_DIFF_FILE_LINES filePath line))
        = ((lines.drop index).take n).map
            (fun line => Effect.commit (.ADD_CURRENT_VIEW_DIFF_FILE_LINES filePath line))
          ++ (lines.drop (index + n)).map
            (fun line => Effect.commit (.ADD_CURRENT_VIEW_DIFF_FILE_LINES filePath line)) := by
      rw [← List.map_append, ← List.drop_drop, List.take_append_drop]
    unfold runIdle
    simp only [hexit, Bool.not_true, Bool.false_eq_true, if_false]
    split
    · rename_i hne
      obtain ⟨hfin, hflat, hlen⟩ := ih (sliceNo + 1)
        (idleLoop c filePath lines (provider sliceNo) index loopFuel 0 index []).index
        (by omega) (by omega)
      refine ⟨hfin, ?_, ?_⟩
      · rw [List.flatten_cons, hflat, hlog, hidx, List.nil_append, hsplit,
          List.append_assoc]
      · rw [List.length_cons]
        omega
    · rename_i hend
      have hend2 : index + n = lines.length := by
        rw [← hidx]
        exact Decidable.not_not.mp hend
      refine ⟨rfl, ?_, ?_⟩
      · have hall : (lines.drop index).take n = lines.drop index := by
          apply List.take_of_length_le
          rw [List.length_drop]; omega
        simp [hlog, hall]
      · simp only [List.length_singleton]
        omega

/-- C9. Completeness and order of `setExpandedDiffLines`, for rendering
constants with `START_RENDERING_INDEX ≤ MAX_RENDERING_DIFF_LINES` and a
positive `MAX_RENDERING_BULK_ROWS`, when every idle slice granted begins with
at least `MIN_RENDERING_MS` remaining: with fuel for more slices than there
are lines, rendering gets to its end, within no more slices than there are
lines; the lines applied by the synchronous step and then by the slices are
exactly the expanded lines in their order, each once; above the threshold the
log is the first slice, the toggle of the rendering-more flag, one commit for
each further line in order, and the second toggle as the very last entry;
and up to the threshold it is the one commit of all lines. -/
theorem setExpandedDiffLines_complete (c : Constants) (file : DiffFile) (lines : List Line)
    (provider : Nat → Nat → Nat) (fuel : Nat)
    (hstart : c.START_RENDERING_INDEX ≤ c.MAX_RENDERING_DIFF_LINES)
    (hbulk : 0 < c.MAX_RENDERING_BULK_ROWS)
    (hgrant : ∀ n, c.MIN_RENDERING_MS ≤ provider n 0)
    (hfuel : lines.length < fuel) :
    (setExpandedDiffLines c file lines provider fuel).finished = true ∧
    ((setExpandedDiffLines c file lines provider fuel).slices).length ≤ lines.length ∧
    ((setExpandedDiffLines c file lines provider fuel).sync
        ++ ((setExpandedDiffLines c file lines provider fuel).slices).flatten).flatMap
      appliedLines = lines ∧
    (c.MAX_RENDERING_DIFF_LINES < lines.length →
      (setExpandedDiffLines c file lines provider fuel).sync
        ++ ((setExpandedDiffLines c file lines provider fuel).slices).flatten
        = Effect.commit (.SET_CURRENT_VIEW_DIFF_FILE_LINES file.file_path
              (lines.take c.START_RENDERING_INDEX))
          :: Effect.commit (.TOGGLE_DIFF_FILE_RENDERING_MORE file.file_path)
          :: ((lines.drop c.START_RENDERING_INDEX).map
                (fun line =>
                  Effect.commit (.ADD_CURRENT_VIEW_DIFF_FILE_LINES file.file_path line))
              ++ [Effect.commit (.TOGGLE_DIFF_FILE_RENDERING_MORE file.file_path)])) ∧
    (lines.length ≤ c.MAX_RENDERING_DIFF_LINES →
      (setExpandedDiffLines c file lines provider fuel).sync
        ++ ((setExpandedDiffLines c file lines provider fuel).slices).flatten
        = [Effect.commit (.SET_CURRENT_VIEW_DIFF_FILE_LINES file.file_path lines)]) := by
  unfold setExpandedDiffLines
  by_cases hbig : lines.length > c.MAX_RENDERING_DIFF_LINES
  · obtain ⟨hfin, hflat, hlen⟩ := runIdle_complete c file.file_path lines provider fuel hbulk
      hgrant hfuel fuel 0 c.START_RENDERING_INDEX (by omega) (by omega)
    simp only [hbig, if_true]
    refine ⟨hfin, by omega, ?_, fun _ => ?_, fun h => by omega⟩
    · rw [hflat]
      simp only [List.cons_append, List.nil_append, List.flatMap_cons, List.flatMap_append,
        flatMap_appliedLines_add, appliedLines, List.flatMap_nil, List.append_nil]
      exact List.take_append_drop _ _
    · rw [hflat]
      rfl
  · simp only [hbig, if_false]
    refine ⟨trivial, by simp, ?_, fun h => h.elim, fun _ => rfl⟩
    simp [List.flatMap_cons, appliedLines]

/-- C9 at a concrete run: seven lines above a threshold of three are all
rendered, in order, and the run ends. -/
theorem setExpandedDiffLines_complete_witness :
    (setExpandedDiffLines sampleConstants (sampleFile "f01") sampleLines sampleProvider
      8).finished = true ∧
    ((setExpandedDiffLines sampleConstants (sampleFile "f01") sampleLines sampleProvider 8).sync
        ++ ((setExpandedDiffLines sampleConstants (sampleFile "f01") sampleLines sampleProvider
          8).slices).flatten).flatMap appliedLines = sampleLines :=
  ⟨(setExpandedDiffLines_complete sampleConstants (sampleFile "f01") sampleLines sampleProvider
      8 (by decide) (by decide) (fun _ => show 2 ≤ 10 - 0 by decide) (by decide)).1,
   (setExpandedDiffLines_complete sampleConstants (sampleFile "f01") sampleLines sampleProvider
      8 (by decide) (by decide) (fun _ => show 2 ≤ 10 - 0 by decide) (by decide)).2.2.1⟩

/-! ### startRenderDiffsQueue -/

theorem markRendered_append (file : DiffFile) (post : List DiffFile) :
    ∀ pre : List DiffFile, (∀ x ∈ pre, x ≠ file) →
      markRendered file (pre ++ file :: post) = pre ++ rendered file :: post := by
  intro pre
  induction pre with
  | nil => intro _; simp [markRendered, rendered]
  | cons x xs ih =>
    intro h
    have hx : x ≠ file := h x (List.mem_cons_self _ _)
    have hrec := ih (fun y hy => h y (List.mem_cons_of_mem _ hy))
    simp only [List.cons_append, markRendered, hx, if_false]
    exact congrArg (List.cons x) hrec

theorem find?_append_skipped (p : DiffFile → Bool) (pre l : List DiffFile)
    (hpre : ∀ x ∈ pre, p x = false) : (pre ++ l).find? p = l.find? p := by
  induction pre with
  | nil => rfl
  | cons x xs ih =>
    rw [List.cons_append, List.find?_cons, hpre x (List.mem_cons_self _ _)]
    exact ih (fun y hy => hpre y (List.mem_cons_of_mem _ hy))

theorem isNextFile_rendered (isCollapsed : DiffFile → Bool) (textMode : String)
    (file : DiffFile) : isNextFile isCollapsed textMode (rendered file) = false := by
  simp [isNextFile, rendered]

theorem markRendered_absent (file : DiffFile) :
    ∀ l : List DiffFile, (∀ x ∈ l, x ≠ file) → markRendered file l = l := by
  intro l
  induction l with
  | nil => intro _; rfl
  | cons x xs ih =>
    intro h
    have hx : x ≠ file := h x (List.mem_cons_self _ _)
    simp only [markRendered, hx, if_false]
    exact congrArg (List.cons x) (ih (fun y hy => h y (List.mem_cons_of_mem _ hy)))

theorem find?_split (p : DiffFile → Bool) :
    ∀ (l : List DiffFile) (x : DiffFile), l.find? p = some x →
      ∃ skip rest, l = skip ++ x :: rest ∧ (∀ y ∈ skip, p y = false) ∧ p x = true := by
  intro l
  induction l with
  | nil => intro x h; cases h
  | cons y ys ih =>
    intro x h
    rw [List.find?_cons] at h
    cases hp : p y with
    | true =>
      rw [hp] at h
      have hxy : y = x := Option.some.inj h
      subst hxy
      exact ⟨[], ys, rfl, (fun z hz => by cases hz), hp⟩
    | false =>
      rw [hp] at h
      obtain ⟨skip, rest, hl, hskip, hx⟩ := ih x h
      refine ⟨y :: skip, rest, by rw [hl]; rfl, ?_, hx⟩
      intro z hz
      rcases List.mem_cons.mp hz with h1 | h2
      · rw [h1]; exact hp
      · exact hskip z h2

theorem renderedIfNext_skipped (isCollapsed : DiffFile → Bool) (textMode : String)
    (file : DiffFile) :
    isNextFile isCollapsed textMode (renderedIfNext isCollapsed textMode file) = false := by
  unfold renderedIfNext
  split
  · exact isNextFile_rendered _ _ file
  · rename_i h
    simpa using h

theorem map_renderedIfNext_skipped (isCollapsed : DiffFile → Bool) (textMode : String) :
    ∀ l : List DiffFile, (∀ y ∈ l, isNextFile isCollapsed textMode y = false) →
      l.map (renderedIfNext isCollapsed textMode) = l := by
  intro l
  induction l with
  | nil => intro _; rfl
  | cons x xs ih =>
    intro h
    have hx := h x (List.mem_cons_self _ _)
    rw [List.map_cons, ih (fun y hy => h y (List.mem_cons_of_mem _ hy))]
    simp [renderedIfNext, hx]

theorem filter_skipped (p : DiffFile → Bool) (l : List DiffFile)
    (h : ∀ y ∈ l, p y = false) : l.filter p = [] := by
  induction l with
  | nil => rfl
  | cons x xs ih =>
    rw [List.filter_cons, h x (List.mem_cons_self _ _)]
    exact ih (fun y hy => h y (List.mem_cons_of_mem _ hy))

theorem renderCommits_snoc (l : List DiffFile) (file : DiffFile) :
    renderCommits (l ++ [file]) = renderCommits l ++ [Effect.commit (.RENDER_FILE file)] := by
  simp [renderCommits]

theorem flatMap_update_absent (times : DiffFile → Nat) (file : DiffFile) (k : Nat) :
    ∀ base : List DiffFile, file ∉ base →
      base.flatMap (fun x => List.replicate (Function.update times file k x) x)
        = base.flatMap (fun x => List.replicate (times x) x) := by
  intro base
  induction base with
  | nil => intro _; rfl
  | cons y ys ih =>
    intro h
    have hy : y ≠ file := fun e => h (e ▸ List.mem_cons_self _ _)
    have hys : file ∉ ys := fun e => h (List.mem_cons_of_mem _ e)
    rw [List.flatMap_cons, List.flatMap_cons, ih hys, Function.update_noteq hy]

/-- The commits of a walk after one more commit of the file `file`, which is
not among the files before it: the commits before, and then `k` commits of
`file`. -/
theorem flatMap_snoc_update (times : DiffFile → Nat) (file : DiffFile) (k : Nat)
    (base : List DiffFile) (h : file ∉ base) :
    (base ++ [file]).flatMap (fun x => List.replicate (Function.update times file k x) x)
      = base.flatMap (fun x => List.replicate (times x) x) ++ List.replicate k file := by
  rw [List.flatMap_append, flatMap_update_absent times file k base h]
  simp

theorem queueInvariant_checkItem (isCollapsed : DiffFile → Bool) (textMode : String)
    (files : List DiffFile) (log : List Effect) (q : RenderQueue)
    (h : QueueInvariant isCollapsed textMode files log q) :
    QueueInvariant isCollapsed textMode files log (checkItem isCollapsed textMode q) := by
  obtain ⟨seg, todo, times, a, j, g, nxt, hfiles, hstate, htimes, hlog, hframes, ha, hj, hres⟩ := h
  have hfind : q.store.state.diffFiles.find? (isNextFile isCollapsed textMode)
      = todo.find? (isNextFile isCollapsed textMode) := by
    rw [hstate]
    exact find?_append_skipped _ _ _ (fun x hx => by
      obtain ⟨y, _, rfl⟩ := List.mem_map.mp hx
      exact renderedIfNext_skipped isCollapsed textMode y)
  unfold checkItem
  rw [hfind]
  cases hnext : todo.find? (isNextFile isCollapsed textMode) with
  | none =>
    exact ⟨seg, todo, times, a, j, g, nxt, hfiles, hstate, htimes, hlog, hframes, ha, hj,
      fun _ => hnext⟩
  | some nxt1 =>
    dsimp only
    rcases j with _ | j
    · refine ⟨seg, todo, times, a, 1, g, nxt1, hfiles, hstate, htimes, hlog, ?_, ha,
        fun _ => hnext, ?_⟩
      · show q.frames ++ [nxt1] = _
        rw [hframes]
        simp
      · intro hr
        have hnone := hres hr
        rw [hnext] at hnone
        cases hnone
    · have hsame : nxt = nxt1 := by
        have hsome := hj (Nat.succ_pos j)
        rw [hnext] at hsome
        exact (Option.some.inj hsome).symm
      subst hsame
      refine ⟨seg, todo, times, a, j + 2, g, nxt, hfiles, hstate, htimes, hlog, ?_, ha,
        fun _ => hnext, ?_⟩
      · show q.frames ++ [nxt] = _
        rw [hframes, List.append_assoc]
        exact congrArg (fun l => List.replicate a g ++ l) (List.replicate_succ' (j + 1) nxt).symm
      · intro hr
        have hnone := hres hr
        rw [hnext] at hnone
        cases hnone

theorem queueInvariant_frame (isCollapsed : DiffFile → Bool) (textMode : String)
    (files : List DiffFile) (log : List Effect) (q : RenderQueue) (hnodup : files.Nodup)
    (h : QueueInvariant isCollapsed textMode files log q) :
    QueueInvariant isCollapsed textMode files log
      (runTick isCollapsed textMode q .animationFrame) := by
  obtain ⟨seg, todo, times, a, j, g, nxt, hfiles, hstate, htimes, hlog, hframes, ha, hj, hres⟩ := h
  have hnd : (seg ++ todo).Nodup := hfiles ▸ hnodup
  obtain ⟨hndseg, _, hdisj⟩ := List.nodup_append.mp hnd
  have hmapped : ∀ x ∈ seg.map (renderedIfNext isCollapsed textMode),
      isNextFile isCollapsed textMode x = false := by
    intro x hx
    obtain ⟨y, _, rfl⟩ := List.mem_map.mp hx
    exact renderedIfNext_skipped isCollapsed textMode y
  rcases a with _ | a
  · rcases j with _ | j
    · have hempty : q.frames = [] := by rw [hframes]; rfl
      simp only [runTick, hempty]
      exact ⟨seg, todo, times, 0, 0, g, nxt, hfiles, hstate, htimes, hlog, hframes, ha, hj, hres⟩
    · have hfr : q.frames = nxt :: List.replicate j nxt := by
        rw [hframes]; simp [List.replicate_succ]
      have hsome := hj (Nat.succ_pos j)
      obtain ⟨skip, rest, htodo, hskip, hnxt⟩ := find?_split _ todo nxt hsome
      have hmem : nxt ∈ todo := by rw [htodo]; simp
      have habsent : nxt ∉ seg.filter (isNextFile isCollapsed textMode) :=
        fun hin => hdisj (List.mem_filter.mp hin).1 hmem
      have hfilter : (seg ++ skip ++ [nxt]).filter (isNextFile isCollapsed textMode)
          = seg.filter (isNextFile isCollapsed textMode) ++ [nxt] := by
        rw [List.filter_append, List.filter_append, filter_skipped _ skip hskip]
        simp [List.filter_cons, hnxt]
      simp only [runTick, hfr]
      refine ⟨seg ++ skip ++ [nxt], rest, Function.update times nxt 1, j, 0, nxt, nxt,
        ?_, ?_, ?_, ?_, ?_, fun _ => ⟨_, hfilter⟩, ?_, ?_⟩
      · rw [hfiles, htodo]; simp
      · show markRendered nxt q.store.state.diffFiles = _
        have hne : ∀ x ∈ seg.map (renderedIfNext isCollapsed textMode) ++ skip, x ≠ nxt := by
          intro x hx hxn
          have hx2 : isNextFile isCollapsed textMode x = false := by
            rcases List.mem_append.mp hx with h1 | h2
            · exact hmapped x h1
            · exact hskip x h2
          rw [hxn, hnxt] at hx2
          cases hx2
        rw [hstate, htodo, ← List.append_assoc, markRendered_append nxt rest _ hne]
        rw [List.map_append, List.map_append,
          map_renderedIfNext_skipped isCollapsed textMode skip hskip]
        simp [renderedIfNext, hnxt]
      · intro f hf
        rw [hfilter] at hf
        by_cases hfn : f = nxt
        · rw [hfn, Function.update_same]
        · rw [Function.update_noteq hfn]
          rcases List.mem_append.mp hf with h1 | h2
          · exact htimes f h1
          · exact absurd (List.mem_singleton.mp h2) hfn
      · show q.store.log ++ [Effect.commit (.RENDER_FILE nxt)] = _
        rw [hlog, hfilter, flatMap_snoc_update times nxt 1 _ habsent]
        rw [show List.replicate 1 nxt = [nxt] from rfl, renderCommits_snoc, List.append_assoc]
      · simp
      · intro h0; cases h0
      · intro hr
        have hnone := hres hr
        rw [hsome] at hnone
        cases hnone
  · have hfr : q.frames = g :: (List.replicate a g ++ List.replicate j nxt) := by
      rw [hframes]; simp [List.replicate_succ]
    obtain ⟨b, hb⟩ := ha (Nat.succ_pos a)
    have hgmem : g ∈ seg.filter (isNextFile isCollapsed textMode) := by rw [hb]; simp
    have hgseg : g ∈ seg := (List.mem_filter.mp hgmem).1
    have hgnext : isNextFile isCollapsed textMode g = true := (List.mem_filter.mp hgmem).2
    have hgb : g ∉ b := by
      have hndf : (b ++ [g]).Nodup := hb ▸ hndseg.filter _
      intro hin
      exact (List.nodup_append.mp hndf).2.2 hin (List.mem_singleton_self g)
    simp only [runTick, hfr]
    refine ⟨seg, todo, Function.update times g (times g + 1), a, j, g, nxt, hfiles, ?_, ?_, ?_,
      rfl, fun _ => ⟨b, hb⟩, hj, hres⟩
    · show markRendered g q.store.state.diffFiles = _
      rw [hstate]
      apply markRendered_absent
      intro x hx hxg
      rcases List.mem_append.mp hx with h1 | h2
      · have hx2 := hmapped x h1
        rw [hxg, hgnext] at hx2
        cases hx2
      · exact hdisj hgseg (hxg ▸ h2)
    · intro f hf
      by_cases hfg : f = g
      · rw [hfg, Function.update_same]
        exact Nat.succ_pos _
      · rw [Function.update_noteq hfg]
        exact htimes f hf
    · show q.store.log ++ [Effect.commit (.RENDER_FILE g)] = _
      rw [hlog, hb, flatMap_snoc_update times g (times g + 1) b hgb, List.flatMap_append]
      rw [List.replicate_succ']
      simp [renderCommits]

theorem queueInvariant_tick (isCollapsed : DiffFile → Bool) (textMode : String)
    (files : List DiffFile) (log : List Effect) (hnodup : files.Nodup) (q : RenderQueue)
    (t : Tick) (h : QueueInvariant isCollapsed textMode files log q) :
    QueueInvariant isCollapsed textMode files log (runTick isCollapsed textMode q t) := by
  cases t with
  | animationFrame => exact queueInvariant_frame isCollapsed textMode files log q hnodup h
  | idleCallback =>
    cases hidle : q.idle with
    | false =>
      simp only [runTick, hidle, Bool.false_eq_true, if_false]
      exact h
    | true =>
      simp only [runTick, hidle, if_true]
      exact queueInvariant_checkItem isCollapsed textMode files log _ h

theorem queueInvariant_run (isCollapsed : DiffFile → Bool) (textMode : String)
    (files : List DiffFile) (log : List Effect) (hnodup : files.Nodup) :
    ∀ (schedule : List Tick) (q : RenderQueue),
      QueueInvariant isCollapsed textMode files log q →
      QueueInvariant isCollapsed textMode files log
        (schedule.foldl (runTick isCollapsed textMode) q) := by
  intro schedule
  induction schedule with
  | nil => intro q h; exact h
  | cons t ts ih =>
    intro q h
    exact ih _ (queueInvariant_tick isCollapsed textMode files log hnodup q t h)

/-- The invariant holds at every moment of every run of the action on a
collection of distinct files. -/
theorem queueInvariant_start (isCollapsed : DiffFile → Bool) (textMode : String)
    (st : Store) (hnodup : st.state.diffFiles.Nodup) (schedule : List Tick) :
    QueueInvariant isCollapsed textMode st.state.diffFiles st.log
      (startRenderDiffsQueue isCollapsed textMode schedule st) := by
  unfold startRenderDiffsQueue
  apply queueInvariant_run isCollapsed textMode _ _ hnodup
  apply queueInvariant_checkItem
  exact ⟨[], st.state.diffFiles, fun _ => 1, 0, 0, sampleFile "", sampleFile "", rfl, rfl,
    (fun f hf => by cases hf), (by simp [renderCommits]), rfl, (fun h0 => by cases h0),
    (fun h0 => by cases h0), (fun hr => by cases hr)⟩

/-! #### The flags of the queue -/

theorem checkItem_flags (isCollapsed : DiffFile → Bool) (textMode : String) (q : RenderQueue)
    (hidle : q.idle = false) (hres : q.resolved = false) :
    (checkItem isCollapsed textMode q).idle = !(checkItem isCollapsed textMode q).resolved := by
  unfold checkItem
  split
  · simp [hres]
  · simp [hidle]

theorem runTick_flags (isCollapsed : DiffFile → Bool) (textMode : String) (q : RenderQueue)
    (t : Tick) (h : q.idle = !q.resolved) :
    (runTick isCollapsed textMode q t).idle = !(runTick isCollapsed textMode q t).resolved := by
  cases t with
  | animationFrame =>
    cases hfr : q.frames with
    | nil =>
      simp only [runTick, hfr]
      exact h
    | cons file later =>
      simp only [runTick, hfr]
      exact h
  | idleCallback =>
    cases hidle : q.idle with
    | false =>
      simp only [runTick, hidle, Bool.false_eq_true, if_false]
      rw [← h, hidle]
    | true =>
      simp only [runTick, hidle, if_true]
      apply checkItem_flags
      · rfl
      · show q.resolved = false
        rw [hidle] at h
        cases hr : q.resolved with
        | false => rfl
        | true => rw [hr] at h; cases h

theorem run_flags (isCollapsed : DiffFile → Bool) (textMode : String) :
    ∀ (schedule : List Tick) (q : RenderQueue), q.idle = !q.resolved →
      (schedule.foldl (runTick isCollapsed textMode) q).idle
        = !(schedule.foldl (runTick isCollapsed textMode) q).resolved := by
  intro schedule
  induction schedule with
  | nil => intro q h; exact h
  | cons t ts ih =>
    intro q h
    exact ih _ (runTick_flags isCollapsed textMode q t h)

/-- At every moment of a run, the call of `checkItem` waits for an idle
period exactly as long as the promise is not resolved. -/
theorem startRenderDiffsQueue_flags (isCollapsed : DiffFile → Bool) (textMode : String)
    (schedule : List Tick) (st : Store) :
    (startRenderDiffsQueue isCollapsed textMode schedule st).idle
      = !(startRenderDiffsQueue isCollapsed textMode schedule st).resolved := by
  unfold startRenderDiffsQueue
  apply run_flags
  apply checkItem_flags
  · rfl
  · rfl

/-- Once no file to render remains in the state, the idle callback that
runs next resolves the promise (if it is not resolved already). -/
theorem startRenderDiffsQueue_resolves (isCollapsed : DiffFile → Bool) (textMode : String)
    (schedule : List Tick) (st : Store)
    (hnone : ∀ f ∈ (startRenderDiffsQueue isCollapsed textMode schedule st).store.state.diffFiles,
      isNextFile isCollapsed textMode f = false) :
    (startRenderDiffsQueue isCollapsed textMode (schedule ++ [Tick.idleCallback]) st).resolved
      = true := by
  have hflags := startRenderDiffsQueue_flags isCollapsed textMode schedule st
  have hrun : startRenderDiffsQueue isCollapsed textMode (schedule ++ [Tick.idleCallback]) st
      = runTick isCollapsed textMode (startRenderDiffsQueue isCollapsed textMode schedule st)
          .idleCallback := by
    simp [startRenderDiffsQueue, List.foldl_append]
  rw [hrun]
  generalize startRenderDiffsQueue isCollapsed textMode schedule st = q at hflags hnone
  cases hidle : q.idle with
  | false =>
    simp only [runTick, hidle, Bool.false_eq_true, if_false]
    rw [hidle] at hflags
    cases hr : q.resolved with
    | true => rfl
    | false => rw [hr] at hflags; cases hflags
  | true =>
    have hfind : q.store.state.diffFiles.find? (isNextFile isCollapsed textMode) = none := by
      rw [List.find?_eq_none]
      intro x hx
      rw [hnone x hx]
      simp
    simp only [runTick, hidle, if_true, checkItem, hfind]

/-! #### Every animation frame before its idle callback -/

theorem frameThenIdle_settled (isCollapsed : DiffFile → Bool) (textMode : String) :
    ∀ (rounds : Nat) (q : RenderQueue), q.frames = [] → q.idle = false →
      (frameThenIdle rounds).foldl (runTick isCollapsed textMode) q = q := by
  intro rounds
  induction rounds with
  | zero => intro q _ _; rfl
  | succ k ih =>
    intro q hfr hidle
    simp only [frameThenIdle, List.foldl_cons, runTick, hfr, hidle, Bool.false_eq_true, if_false]
    exact ih q hfr hidle

/-- The queue on a file collection whose first part holds no file to render,
when every animation frame runs before the idle callback requested with it:
with a round for every file to render, it resolves after committing
`RENDER_FILE` for the files of the rest that are to be rendered, in order and
once each, and it leaves exactly those files marked. -/
theorem checkItem_rounds (isCollapsed : DiffFile → Bool) (textMode : String) :
    ∀ (rest pre : List DiffFile) (rounds : Nat) (q : RenderQueue),
      (∀ x ∈ pre, isNextFile isCollapsed textMode x = false) →
      q.store.state.diffFiles = pre ++ rest →
      q.frames = [] →
      (rest.filter (isNextFile isCollapsed textMode)).length ≤ rounds →
      ((frameThenIdle rounds).foldl (runTick isCollapsed textMode)
        (checkItem isCollapsed textMode { q with idle := false })).resolved = true ∧
      ((frameThenIdle rounds).foldl (runTick isCollapsed textMode)
        (checkItem isCollapsed textMode { q with idle := false })).store.log
        = q.store.log ++ renderCommits (rest.filter (isNextFile isCollapsed textMode)) ∧
      ((frameThenIdle rounds).foldl (runTick isCollapsed textMode)
        (checkItem isCollapsed textMode { q with idle := false })).store.state.diffFiles
        = pre ++ rest.map (renderedIfNext isCollapsed textMode) := by
  intro rest
  induction rest with
  | nil =>
    intro pre rounds q hpre hfiles hfr _
    have hnone : q.store.state.diffFiles.find? (isNextFile isCollapsed textMode) = none := by
      rw [hfiles, find?_append_skipped _ _ _ hpre]; rfl
    have hc : checkItem isCollapsed textMode { q with idle := false }
        = { store := q.store, frames := q.frames, idle := false, resolved := true } := by
      simp only [checkItem, hnone]
    rw [hc, frameThenIdle_settled isCollapsed textMode rounds
      { store := q.store, frames := q.frames, idle := false, resolved := true } hfr rfl]
    exact ⟨rfl, by simp [renderCommits], by simpa using hfiles⟩
  | cons f fs ih =>
    intro pre rounds q hpre hfiles hfr hrounds
    cases hp : isNextFile isCollapsed textMode f with
    | false =>
      have hpre2 : ∀ x ∈ pre ++ [f], isNextFile isCollapsed textMode x = false := by
        intro x hx
        rcases List.mem_append.mp hx with h1 | h2
        · exact hpre x h1
        · rw [List.mem_singleton] at h2; rw [h2]; exact hp
      obtain ⟨h1, h2, h3⟩ := ih (pre ++ [f]) rounds q hpre2 (by simpa using hfiles) hfr
        (by rw [List.filter_cons, hp] at hrounds; exact hrounds)
      refine ⟨h1, ?_, ?_⟩
      · rw [h2, List.filter_cons, hp]; rfl
      · rw [h3, List.map_cons]
        simp [renderedIfNext, hp]
    | true =>
      obtain ⟨k, rfl⟩ : ∃ k, rounds = k + 1 :=
        ⟨rounds - 1, by rw [List.filter_cons, hp] at hrounds; simp at hrounds; omega⟩
      have hfind : q.store.state.diffFiles.find? (isNextFile isCollapsed textMode) = some f := by
        rw [hfiles, find?_append_skipped _ _ _ hpre, List.find?_cons, hp]
      have hne : ∀ x ∈ pre, x ≠ f := by
        intro x hx hxf
        have := hpre x hx
        rw [hxf, hp] at this
        exact Bool.noConfusion this
      have hpre2 : ∀ x ∈ pre ++ [rendered f], isNextFile isCollapsed textMode x = false := by
        intro x hx
        rcases List.mem_append.mp hx with h1 | h2
        · exact hpre x h1
        · rw [List.mem_singleton] at h2; rw [h2]; exact isNextFile_rendered _ _ f
      have hfiles2 : (q.store.commit (.RENDER_FILE f)).state.diffFiles
          = (pre ++ [rendered f]) ++ fs := by
        show markRendered f q.store.state.diffFiles = _
        rw [hfiles, markRendered_append f fs pre hne]
        simp
      have hc : checkItem isCollapsed textMode { q with idle := false }
          = { store := q.store, frames := [f], idle := true, resolved := q.resolved } := by
        simp only [checkItem, hfind, hfr, List.nil_append]
      have hstep : (frameThenIdle (k + 1)).foldl (runTick isCollapsed textMode)
            (checkItem isCollapsed textMode { q with idle := false })
          = (frameThenIdle k).foldl (runTick isCollapsed textMode)
              (checkItem isCollapsed textMode
                { ({ store := q.store.commit (.RENDER_FILE f), frames := [], idle := true,
                     resolved := q.resolved } : RenderQueue) with idle := false }) := by
        rw [hc]
        rfl
      obtain ⟨h1, h2, h3⟩ := ih (pre ++ [rendered f]) k
        { store := q.store.commit (.RENDER_FILE f), frames := [], idle := true,
          resolved := q.resolved } hpre2 hfiles2 rfl
        (by rw [List.filter_cons, hp] at hrounds; simp at hrounds; omega)
      rw [hstep]
      refine ⟨h1, ?_, ?_⟩
      · rw [h2, List.filter_cons, hp]
        simp [Store.commit, renderCommits]
      · rw [h3, List.map_cons]
        simp [renderedIfNext, hp]

/-! #### No idle callback while a commit waits -/

theorem orderlyInvariant_checkItem (isCollapsed : DiffFile → Bool) (textMode : String)
    (files : List DiffFile) (log : List Effect) (q : RenderQueue)
    (h : OrderlyInvariant isCollapsed textMode files log q) (hfr : q.frames = []) :
    OrderlyInvariant isCollapsed textMode files log (checkItem isCollapsed textMode q) := by
  obtain ⟨seg, todo, hfiles, hstate, hlog, _, hres⟩ := h
  have hfind : q.store.state.diffFiles.find? (isNextFile isCollapsed textMode)
      = todo.find? (isNextFile isCollapsed textMode) := by
    rw [hstate]
    exact find?_append_skipped _ _ _ (fun x hx => by
      obtain ⟨y, _, rfl⟩ := List.mem_map.mp hx
      exact renderedIfNext_skipped isCollapsed textMode y)
  unfold checkItem
  rw [hfind]
  cases hnext : todo.find? (isNextFile isCollapsed textMode) with
  | none => exact ⟨seg, todo, hfiles, hstate, hlog, Or.inl hfr, fun _ => hnext⟩
  | some nxt =>
    dsimp only
    refine ⟨seg, todo, hfiles, hstate, hlog, Or.inr ⟨nxt, ?_, hnext⟩, ?_⟩
    · show q.frames ++ [nxt] = [nxt]
      rw [hfr]; rfl
    · intro hr
      have hnone := hres hr
      rw [hnext] at hnone
      cases hnone

theorem orderlyInvariant_frame (isCollapsed : DiffFile → Bool) (textMode : String)
    (files : List DiffFile) (log : List Effect) (q : RenderQueue)
    (h : OrderlyInvariant isCollapsed textMode files log q) :
    OrderlyInvariant isCollapsed textMode files log
      (runTick isCollapsed textMode q .animationFrame) := by
  obtain ⟨seg, todo, hfiles, hstate, hlog, hframes, hres⟩ := h
  rcases hframes with hempty | ⟨nxt, hfr, hsome⟩
  · simp only [runTick, hempty]
    exact ⟨seg, todo, hfiles, hstate, hlog, Or.inl hempty, hres⟩
  · obtain ⟨skip, rest, htodo, hskip, hnxt⟩ := find?_split _ todo nxt hsome
    have hfilter : (seg ++ skip ++ [nxt]).filter (isNextFile isCollapsed textMode)
        = seg.filter (isNextFile isCollapsed textMode) ++ [nxt] := by
      rw [List.filter_append, List.filter_append, filter_skipped _ skip hskip]
      simp [List.filter_cons, hnxt]
    simp only [runTick, hfr]
    refine ⟨seg ++ skip ++ [nxt], rest, ?_, ?_, ?_, Or.inl rfl, ?_⟩
    · rw [hfiles, htodo]; simp
    · show markRendered nxt q.store.state.diffFiles = _
      have hne : ∀ x ∈ seg.map (renderedIfNext isCollapsed textMode) ++ skip, x ≠ nxt := by
        intro x hx hxn
        have hx2 : isNextFile isCollapsed textMode x = false := by
          rcases List.mem_append.mp hx with h1 | h2
          · obtain ⟨y, _, rfl⟩ := List.mem_map.mp h1
            exact renderedIfNext_skipped isCollapsed textMode y
          · exact hskip x h2
        rw [hxn, hnxt] at hx2
        cases hx2
      rw [hstate, htodo, ← List.append_assoc, markRendered_append nxt rest _ hne]
      rw [List.map_append, List.map_append,
        map_renderedIfNext_skipped isCollapsed textMode skip hskip]
      simp [renderedIfNext, hnxt]
    · show q.store.log ++ [Effect.commit (.RENDER_FILE nxt)] = _
      rw [hlog, hfilter, renderCommits_snoc, List.append_assoc]
    · intro hr
      have hnone := hres hr
      rw [hsome] at hnone
      cases hnone

theorem orderlyInvariant_run (isCollapsed : DiffFile → Bool) (textMode : String)
    (files : List DiffFile) (log : List Effect) :
    ∀ (schedule : List Tick) (q : RenderQueue),
      OrderlyInvariant isCollapsed textMode files log q →
      framesFirst isCollapsed textMode q schedule = true →
      OrderlyInvariant isCollapsed textMode files log
        (schedule.foldl (runTick isCollapsed textMode) q) := by
  intro schedule
  induction schedule with
  | nil => intro q h _; exact h
  | cons t ts ih =>
    intro q h hfirst
    cases t with
    | animationFrame =>
      exact ih _ (orderlyInvariant_frame isCollapsed textMode files log q h) hfirst
    | idleCallback =>
      simp only [framesFirst, Bool.and_eq_true, List.isEmpty_iff] at hfirst
      obtain ⟨hfr, hrest⟩ := hfirst
      refine ih _ ?_ hrest
      cases hidle : q.idle with
      | false =>
        simp only [runTick, hidle, Bool.false_eq_true, if_false]
        exact h
      | true =>
        simp only [runTick, hidle, if_true]
        exact orderlyInvariant_checkItem isCollapsed textMode files log _ h hfr

/-- A run in which every animation frame runs before the idle callback
requested with it commits each file to render of the part walked so far
exactly once, in order; when the promise is resolved this part holds all the
files to render. -/
theorem startRenderDiffsQueue_once (isCollapsed : DiffFile → Bool) (textMode : String)
    (st : Store) (schedule : List Tick)
    (hfirst : framesFirst isCollapsed textMode
      (startRenderDiffsQueue isCollapsed textMode [] st) schedule = true) :
    ∃ seg todo : List DiffFile,
      st.state.diffFiles = seg ++ todo ∧
      (startRenderDiffsQueue isCollapsed textMode schedule st).store.log
        = st.log ++ renderCommits (seg.filter (isNextFile isCollapsed textMode)) ∧
      ((startRenderDiffsQueue isCollapsed textMode schedule st).resolved = true →
        seg.filter (isNextFile isCollapsed textMode)
          = st.state.diffFiles.filter (isNextFile isCollapsed textMode)) := by
  have hstart : OrderlyInvariant isCollapsed textMode st.state.diffFiles st.log
      (startRenderDiffsQueue isCollapsed textMode [] st) := by
    apply orderlyInvariant_checkItem
    · exact ⟨[], st.state.diffFiles, rfl, rfl, (by simp [renderCommits]), Or.inl rfl,
        (fun hr => by cases hr)⟩
    · rfl
  obtain ⟨seg, todo, hfiles, _, hlog, _, hres⟩ :=
    orderlyInvariant_run isCollapsed textMode _ _ schedule _ hstart hfirst
  refine ⟨seg, todo, hfiles, hlog, fun hr => ?_⟩
  have htodo : ∀ y ∈ todo, isNextFile isCollapsed textMode y = false := by
    intro y hy
    have hnone := List.find?_eq_none.mp (hres hr) y hy
    simpa using hnone
  rw [hfiles, List.filter_append, filter_skipped _ todo htodo, List.append_nil]

/-- C10, amended. `startRenderDiffsQueue` on a collection of distinct files,
for every order in which the browser runs the animation-frame callbacks and
the idle callbacks. At every moment the collection is walked up to some point:
the files to render before it are rendered, the other files are as they were,
and the `RENDER_FILE` commits made so far are those of the files to render
before that point, in the order of the collection, each file one or more times
in a row. When the promise is resolved, every file to render is marked, no
file to render remains, and the commits are those of all the files to render,
in order, each at least once. Once no file to render remains, the next idle
callback resolves the promise. When every animation frame runs before the idle
callback requested with it, each file to render is committed exactly once; in
the order animation frame, idle callback, animation frame, idle callback, and
so on, the promise is resolved after a round for every file to render. The
files skipped are exactly the files already rendered, the files without
viewer, and the collapsed files whose viewer is the text one. -/
theorem startRenderDiffsQueue_marks_in_order (isCollapsed : DiffFile → Bool)
    (textMode : String) (st : Store) (hnodup : st.state.diffFiles.Nodup) :
    (∀ schedule : List Tick, ∃ (seg todo : List DiffFile) (times : DiffFile → Nat),
      st.state.diffFiles = seg ++ todo ∧
      (startRenderDiffsQueue isCollapsed textMode schedule st).store.state.diffFiles
        = seg.map (renderedIfNext isCollapsed textMode) ++ todo ∧
      (∀ f ∈ seg.filter (isNextFile isCollapsed textMode), 1 ≤ times f) ∧
      (startRenderDiffsQueue isCollapsed textMode schedule st).store.log
        = st.log ++ renderCommits ((seg.filter (isNextFile isCollapsed textMode)).flatMap
            (fun f => List.replicate (times f) f))) ∧
    (∀ schedule : List Tick,
      (startRenderDiffsQueue isCollapsed textMode schedule st).resolved = true →
      ∃ times : DiffFile → Nat,
        (∀ f ∈ st.state.diffFiles.filter (isNextFile isCollapsed textMode), 1 ≤ times f) ∧
        (startRenderDiffsQueue isCollapsed textMode schedule st).store.log
          = st.log ++ renderCommits
              ((st.state.diffFiles.filter (isNextFile isCollapsed textMode)).flatMap
                (fun f => List.replicate (times f) f)) ∧
        (startRenderDiffsQueue isCollapsed textMode schedule st).store.state.diffFiles
          = st.state.diffFiles.map (renderedIfNext isCollapsed textMode) ∧
        (∀ f ∈ (startRenderDiffsQueue isCollapsed textMode schedule st).store.state.diffFiles,
          isNextFile isCollapsed textMode f = false)) ∧
    (∀ schedule : List Tick,
      (∀ f ∈ (startRenderDiffsQueue isCollapsed textMode schedule st).store.state.diffFiles,
        isNextFile isCollapsed textMode f = false) →
      (startRenderDiffsQueue isCollapsed textMode (schedule ++ [Tick.idleCallback])
        st).resolved = true) ∧
    (∀ schedule : List Tick,
      framesFirst isCollapsed textMode (startRenderDiffsQueue isCollapsed textMode [] st)
        schedule = true →
      ∃ seg todo : List DiffFile,
        st.state.diffFiles = seg ++ todo ∧
        (startRenderDiffsQueue isCollapsed textMode schedule st).store.log
          = st.log ++ renderCommits (seg.filter (isNextFile isCollapsed textMode)) ∧
        ((startRenderDiffsQueue isCollapsed textMode schedule st).resolved = true →
          seg.filter (isNextFile isCollapsed textMode)
            = st.state.diffFiles.filter (isNextFile isCollapsed textMode))) ∧
    (∀ rounds : Nat,
      (st.state.diffFiles.filter (isNextFile isCollapsed textMode)).length ≤ rounds →
      (startRenderDiffsQueue isCollapsed textMode (frameThenIdle rounds) st).resolved = true ∧
      (startRenderDiffsQueue isCollapsed textMode (frameThenIdle rounds) st).store.log
        = st.log ++ renderCommits
            (st.state.diffFiles.filter (isNextFile isCollapsed textMode)) ∧
      (startRenderDiffsQueue isCollapsed textMode (frameThenIdle rounds)
        st).store.state.diffFiles
        = st.state.diffFiles.map (renderedIfNext isCollapsed textMode)) ∧
    (∀ file : DiffFile, isNextFile isCollapsed textMode file = false ↔
      (file.renderIt = true ∨ file.viewer = none ∨
        (isCollapsed file = true ∧ ∃ viewer, file.viewer = some viewer ∧
          viewer.name = textMode))) := by
  refine ⟨?_, ?_, ?_, startRenderDiffsQueue_once isCollapsed textMode st, ?_, ?_⟩
  · intro schedule
    obtain ⟨seg, todo, times, _, _, _, _, hfiles, hstate, htimes, hlog, _⟩ :=
      queueInvariant_start isCollapsed textMode st hnodup schedule
    exact ⟨seg, todo, times, hfiles, hstate, htimes, hlog⟩
  · intro schedule hresolved
    obtain ⟨seg, todo, times, _, _, _, _, hfiles, hstate, htimes, hlog, _, _, _, hres⟩ :=
      queueInvariant_start isCollapsed textMode st hnodup schedule
    have htodo : ∀ y ∈ todo, isNextFile isCollapsed textMode y = false := by
      intro y hy
      have hnone := List.find?_eq_none.mp (hres hresolved) y hy
      simpa using hnone
    have hfilter : st.state.diffFiles.filter (isNextFile isCollapsed textMode)
        = seg.filter (isNextFile isCollapsed textMode) := by
      rw [hfiles, List.filter_append, filter_skipped _ todo htodo, List.append_nil]
    have hmap : (startRenderDiffsQueue isCollapsed textMode schedule st).store.state.diffFiles
        = st.state.diffFiles.map (renderedIfNext isCollapsed textMode) := by
      rw [hstate, hfiles, List.map_append,
        map_renderedIfNext_skipped isCollapsed textMode todo htodo]
    refine ⟨times, by rw [hfilter]; exact htimes, by rw [hfilter]; exact hlog, hmap, ?_⟩
    intro f hf
    rw [hmap] at hf
    obtain ⟨y, _, rfl⟩ := List.mem_map.mp hf
    exact renderedIfNext_skipped isCollapsed textMode y
  · intro schedule hnone
    exact startRenderDiffsQueue_resolves isCollapsed textMode schedule st hnone
  · intro rounds hrounds
    have h := checkItem_rounds isCollapsed textMode st.state.diffFiles [] rounds
      { store := st, frames := [], idle := false, resolved := false }
      (by intro x hx; cases hx) rfl rfl hrounds
    unfold startRenderDiffsQueue
    exact ⟨h.1, h.2.1, by simpa using h.2.2⟩
  · intro file
    unfold isNextFile
    cases hr : file.renderIt <;> cases hv : file.viewer <;> simp

/-- C10 as stated fails on both counts. A collapsed file with an image viewer
is not skipped but marked with `RENDER_FILE`, and a collapsed file with the
text viewer is skipped, its `renderIt` still false when the queue resolves.
And when the first idle callback runs before the animation frame requested
with it, the one file of a collection is found twice and `RENDER_FILE` is
committed twice for it. -/
theorem startRenderDiffsQueue_marks_collapsed_image :
    (startRenderDiffsQueue isCollapsed textViewerName (frameThenIdle 1)
      collapsedFilesStore).resolved = true ∧
    (startRenderDiffsQueue isCollapsed textViewerName (frameThenIdle 1)
      collapsedFilesStore).store.log = [Effect.commit (.RENDER_FILE collapsedImage)] ∧
    (startRenderDiffsQueue isCollapsed textViewerName (frameThenIdle 1)
      collapsedFilesStore).store.state.diffFiles = [rendered collapsedImage, collapsedText] ∧
    isCollapsed collapsedImage = true ∧ isCollapsed collapsedText = true ∧
    (startRenderDiffsQueue isCollapsed textViewerName idleFirst oneFileStore).resolved = true ∧
    (startRenderDiffsQueue isCollapsed textViewerName idleFirst oneFileStore).store.log
      = [Effect.commit (.RENDER_FILE expandedText),
         Effect.commit (.RENDER_FILE expandedText)] := by
  decide

/-- C10, amended, at a concrete collection of five distinct files, every
animation frame running before its idle callback: the collapsed image and
the expanded text file are marked, in this order and once each. -/
theorem startRenderDiffsQueue_marks_in_order_witness :
    fiveFilesStore.state.diffFiles.Nodup ∧
    (startRenderDiffsQueue isCollapsed textViewerName (frameThenIdle 2)
      fiveFilesStore).resolved = true ∧
    (startRenderDiffsQueue isCollapsed textViewerName (frameThenIdle 2)
      fiveFilesStore).store.log
      = [Effect.commit (.RENDER_FILE collapsedImage),
         Effect.commit (.RENDER_FILE expandedText)] :=
  ⟨by decide,
   ((startRenderDiffsQueue_marks_in_order isCollapsed textViewerName fiveFilesStore
      (by decide)).2.2.2.2.1 2 (by decide)).1,
   ((startRenderDiffsQueue_marks_in_order isCollapsed textViewerName fiveFilesStore
      (by decide)).2.2.2.2.1 2 (by decide)).2.1.trans (by decide)⟩

/-! ### Anchors and the selection by default -/

theorem noDefaultView_append {l1 l2 : List Effect} (h1 : NoDefaultView l1)
    (h2 : NoDefaultView l2) : NoDefaultView (l1 ++ l2) := by
  induction h1 with
  | nil => exact h2
  | other e rest he _ ih => exact NoDefaultView.other e _ he ih
  | fromNote noteId fileId rest _ ih => exact NoDefaultView.fromNote noteId fileId _ ih

theorem noDefaultView_commit (st : Store) (m : Mutation) (hst : NoDefaultView st.log)
    (hm : viewCommit (.commit m) = none) : NoDefaultView (st.commit m).log :=
  noDefaultView_append hst (NoDefaultView.other _ _ hm NoDefaultView.nil)

theorem noDefaultView_perform (st : Store) (e : Effect) (hst : NoDefaultView st.log)
    (he : viewCommit e = none) : NoDefaultView (st.perform e).log :=
  noDefaultView_append hst (NoDefaultView.other _ _ he NoDefaultView.nil)

/-- What `setCurrentDiffFileIdFromNote` leaves behind: the store as it was, or
the store after one `VIEW_DIFF_FILE` commit. -/
theorem setCurrentDiffFileIdFromNote_store (rootGetters : RootGetters) (st : Store)
    (noteId : String) :
    storeOf (setCurrentDiffFileIdFromNote rootGetters st noteId) = st ∨
    ∃ fileId, storeOf (setCurrentDiffFileIdFromNote rootGetters st noteId)
      = st.commit (.VIEW_DIFF_FILE fileId) := by
  unfold setCurrentDiffFileIdFromNote
  split
  · exact Or.inl rfl
  · split
    · exact Or.inl rfl
    · split
      · exact Or.inl rfl
      · dsimp only
        split
        · exact Or.inr ⟨_, rfl⟩
        · exact Or.inl rfl

theorem noDefaultView_selectFromNote (id : String) (rootGetters : RootGetters) (st : Store)
    (hst : NoDefaultView st.log) :
    NoDefaultView (storeOf (selectFromNote id rootGetters st)).log := by
  unfold selectFromNote
  split
  · rcases setCurrentDiffFileIdFromNote_store rootGetters
      (st.perform (.dispatch (.setCurrentDiffFileIdFromNote (noteIdOf id)))) (noteIdOf id)
      with h | ⟨fileId, h⟩
    · rw [h]
      exact noDefaultView_perform st _ hst rfl
    · rw [h]
      have hlog : ((st.perform (.dispatch (.setCurrentDiffFileIdFromNote (noteIdOf id)))).commit
          (.VIEW_DIFF_FILE fileId)).log
          = st.log ++ [Effect.dispatch (.setCurrentDiffFileIdFromNote (noteIdOf id)),
              Effect.commit (.VIEW_DIFF_FILE fileId)] := by
        simp [Store.perform, Store.commit]
      rw [hlog]
      exact noDefaultView_append hst (NoDefaultView.fromNote _ _ _ NoDefaultView.nil)
  · exact hst

/-- With a note link the step of the selection by default does nothing. -/
theorem selectFirstOfPage_note (id : String) (hnote : isNoteLink id = true) (st : Store)
    (diff_files : List DiffFile) : selectFirstOfPage id st diff_files = .ok st := by
  simp [selectFirstOfPage, hnote]

theorem noDefaultView_finishBatches (id : String) (hnote : isNoteLink id = true) (st : Store)
    (hst : NoDefaultView st.log) : NoDefaultView (storeOf (finishBatches id st)).log := by
  have h1 : NoDefaultView (st.commit (.SET_RETRIEVING_BATCHES false)).log :=
    noDefaultView_commit st _ hst rfl
  unfold finishBatches
  simp only [hnote, Bool.not_true, Bool.and_false, Bool.false_eq_true, if_false, Except.map,
    storeOf]
  split
  · exact noDefaultView_perform _ _ h1 rfl
  · exact h1

theorem noDefaultView_getBatchThen (id : String) (hnote : isNoteLink id = true)
    (rootGetters : RootGetters) (st : Store) (r : BatchResponse)
    (hst : NoDefaultView st.log) :
    match getBatchThen id rootGetters st r with
    | .ok (st1, _) => NoDefaultView st1.log
    | .error st1 => NoDefaultView st1.log := by
  have ha : NoDefaultView
      ((st.commit (.SET_DIFF_DATA_BATCH r.diff_files)).commit (.SET_BATCH_LOADING false)).log :=
    noDefaultView_commit _ _ (noDefaultView_commit st _ hst rfl) rfl
  have hc := noDefaultView_selectFromNote id rootGetters _ ha
  unfold getBatchThen
  simp only [selectFirstOfPage_note id hnote]
  cases h3 : selectFromNote id rootGetters
    ((st.commit (.SET_DIFF_DATA_BATCH r.diff_files)).commit (.SET_BATCH_LOADING false)) with
  | error e3 =>
    rw [h3] at hc
    exact hc
  | ok st3 =>
    rw [h3] at hc
    dsimp only
    cases hp : truthyPage r.pagination.next_page with
    | true =>
      simp only [Bool.not_true, Bool.false_eq_true, if_false]
      exact hc
    | false =>
      have hd := noDefaultView_finishBatches id hnote st3 hc
      simp only [Bool.not_false, if_true]
      cases h4 : finishBatches id st3 with
      | error e4 =>
        rw [h4] at hd
        exact hd
      | ok st4 =>
        rw [h4] at hd
        exact hd

theorem noDefaultView_getBatch (id : String) (hnote : isNoteLink id = true)
    (rootGetters : RootGetters) :
    ∀ (responses : List (Option BatchResponse)) (page : Nat) (st : Store),
      NoDefaultView st.log →
      NoDefaultView (getBatch id rootGetters responses page st).1.log := by
  intro responses
  induction responses with
  | nil =>
    intro page st hst
    exact noDefaultView_perform st _ hst rfl
  | cons r rest ih =>
    intro page st hst
    have hreq : NoDefaultView (st.perform (.axiosGet page)).log :=
      noDefaultView_perform st _ hst rfl
    cases r with
    | none => exact noDefaultView_commit _ _ hreq rfl
    | some r =>
      have hthen := noDefaultView_getBatchThen id hnote rootGetters _ r hreq
      unfold getBatch
      cases hr : getBatchThen id rootGetters (st.perform (.axiosGet page)) r with
      | error st1 =>
        rw [hr] at hthen
        exact noDefaultView_commit _ _ hthen rfl
      | ok res =>
        obtain ⟨st1, nextPage⟩ := res
        rw [hr] at hthen
        dsimp only at hthen ⊢
        rcases nextPage with _ | _ | n
        · exact hthen
        · exact hthen
        · exact ih (n + 1) st1 hthen

theorem noDefaultView_fetchDiffFilesBatch (id : String) (rootGetters : RootGetters)
    (responses : List (Option BatchResponse)) (s : State) (hnote : isNoteLink id = true) :
    NoDefaultView (fetchDiffFilesBatch id rootGetters responses ⟨s, []⟩).1.log := by
  have h0 : NoDefaultView
      ((((⟨s, []⟩ : Store).commit (.SET_BATCH_LOADING true)).commit
        (.SET_RETRIEVING_BATCHES true)).perform
          (.emit "EVT_PERF_MARK_DIFF_FILES_START")).log :=
    noDefaultView_perform _ _
      (noDefaultView_commit _ _ (noDefaultView_commit _ _ NoDefaultView.nil rfl) rfl) rfl
  have hg := noDefaultView_getBatch id hnote rootGetters responses 1 _ h0
  unfold fetchDiffFilesBatch
  dsimp only
  cases hgb : getBatch id rootGetters responses 1
    ((((⟨s, []⟩ : Store).commit (.SET_BATCH_LOADING true)).commit
      (.SET_RETRIEVING_BATCHES true)).perform (.emit "EVT_PERF_MARK_DIFF_FILES_START")) with
  | mk st3 o =>
    rw [hgb] at hg
    cases o with
    | resolved => exact noDefaultView_perform st3 _ hg rfl
    | pending => exact hg

/-! #### Loads without a note link -/

theorem isNoteLink_empty : isNoteLink "" = false := by decide

theorem selectFirstOfPage_anchor (id : String) (hanchor : isNoteLink id = false) (st : Store)
    (diff_files : List DiffFile) :
    selectFirstOfPage id st diff_files = selectFirstOfPage "" st diff_files := by
  simp only [selectFirstOfPage, hanchor, isNoteLink_empty]

theorem selectFromNote_anchor (id : String) (hanchor : isNoteLink id = false)
    (rootGetters : RootGetters) (st : Store) :
    selectFromNote id rootGetters st = selectFromNote "" rootGetters st := by
  simp [selectFromNote, hanchor, isNoteLink_empty]

theorem finishBatches_anchor (id : String) (hanchor : isNoteLink id = false) (st : Store) :
    finishBatches id st = finishBatches "" st := by
  simp only [finishBatches, hanchor, isNoteLink_empty]

theorem getBatchThen_anchor (id : String) (hanchor : isNoteLink id = false)
    (rootGetters : RootGetters) (st : Store) (r : BatchResponse) :
    getBatchThen id rootGetters st r = getBatchThen "" rootGetters st r := by
  simp only [getBatchThen, selectFirstOfPage_anchor id hanchor, selectFromNote_anchor id hanchor,
    finishBatches_anchor id hanchor]

/-- A location hash that is no note link plays no part in `getBatch`: the
run is the run without location hash. -/
theorem getBatch_anchor (id : String) (hanchor : isNoteLink id = false)
    (rootGetters : RootGetters) :
    ∀ (responses : List (Option BatchResponse)) (page : Nat) (st : Store),
      getBatch id rootGetters responses page st = getBatch "" rootGetters responses page st := by
  intro responses
  induction responses with
  | nil => intro page st; rfl
  | cons r rest ih =>
    intro page st
    cases r with
    | none => rfl
    | some r =>
      simp only [getBatch, getBatchThen_anchor id hanchor]
      cases getBatchThen "" rootGetters (st.perform (.axiosGet page)) r with
      | error st1 => rfl
      | ok res =>
        obtain ⟨st1, nextPage⟩ := res
        dsimp only
        rcases nextPage with _ | _ | n
        · rfl
        · rfl
        · exact ih (n + 1) st1

theorem fetchDiffFilesBatch_anchor (id : String) (hanchor : isNoteLink id = false)
    (rootGetters : RootGetters) (responses : List (Option BatchResponse)) (st : Store) :
    fetchDiffFilesBatch id rootGetters responses st
      = fetchDiffFilesBatch "" rootGetters responses st := by
  simp only [fetchDiffFilesBatch, getBatch_anchor id hanchor]

/-- The log of `getBatch` begins with the log it started from. -/
theorem getBatch_log (id : String) (rootGetters : RootGetters)
    (responses : List (Option BatchResponse)) (page : Nat) (st : Store) :
    ∃ later, (getBatch id rootGetters responses page st).1.log = st.log ++ later := by
  have h := getBatch_extends id rootGetters responses page st
  cases ho : (getBatch id rootGetters responses page st).2 with
  | resolved =>
    obtain ⟨_, _, ext, hlog, _⟩ := h.1 ho
    exact ⟨ext, hlog⟩
  | pending =>
    obtain ⟨ext, hlog, _⟩ := h.2 ho
    exact ⟨ext, hlog⟩

/-- A page with a first file, arriving without note link while no file is
active: the callback returns, and what it logs begins with the two commits
that apply the page and the commit that makes the first file of the page the
active one. -/
theorem getBatchThen_selects_first (id : String) (rootGetters : RootGetters) (st : Store)
    (r : BatchResponse) (file : DiffFile) (files : List DiffFile)
    (hanchor : isNoteLink id = false)
    (hnone : truthy st.state.currentDiffFileId = false)
    (hfirst : r.diff_files = file :: files) :
    ∃ st1 later, getBatchThen id rootGetters st r = .ok (st1, r.pagination.next_page) ∧
      st1.log = st.log ++ [Effect.commit (.SET_DIFF_DATA_BATCH r.diff_files),
        Effect.commit (.SET_BATCH_LOADING false),
        Effect.commit (.VIEW_DIFF_FILE file.file_hash)] ++ later := by
  have h1 : selectFirstOfPage id
      ((st.commit (.SET_DIFF_DATA_BATCH r.diff_files)).commit (.SET_BATCH_LOADING false))
      r.diff_files
      = .ok (((st.commit (.SET_DIFF_DATA_BATCH r.diff_files)).commit
          (.SET_BATCH_LOADING false)).commit (.VIEW_DIFF_FILE file.file_hash)) := by
    simp [selectFirstOfPage, Store.commit, applyMutation, hnone, hanchor, hfirst]
  have h2 : selectFromNote id rootGetters
      (((st.commit (.SET_DIFF_DATA_BATCH r.diff_files)).commit
          (.SET_BATCH_LOADING false)).commit (.VIEW_DIFF_FILE file.file_hash))
      = .ok (((st.commit (.SET_DIFF_DATA_BATCH r.diff_files)).commit
          (.SET_BATCH_LOADING false)).commit (.VIEW_DIFF_FILE file.file_hash)) := by
    simp [selectFromNote, hanchor]
  have hlog : (((st.commit (.SET_DIFF_DATA_BATCH r.diff_files)).commit
          (.SET_BATCH_LOADING false)).commit (.VIEW_DIFF_FILE file.file_hash)).log
      = st.log ++ [Effect.commit (.SET_DIFF_DATA_BATCH r.diff_files),
        Effect.commit (.SET_BATCH_LOADING false),
        Effect.commit (.VIEW_DIFF_FILE file.file_hash)] := by
    simp [Store.commit]
  unfold getBatchThen
  simp only [h1, h2]
  cases hp : truthyPage r.pagination.next_page with
  | true =>
    simp only [Bool.not_true, Bool.false_eq_true, if_false]
    exact ⟨_, [], rfl, by rw [hlog, List.append_nil]⟩
  | false =>
    have hact : hasFile
        (((st.commit (.SET_DIFF_DATA_BATCH r.diff_files)).commit
          (.SET_BATCH_LOADING false)).commit (.VIEW_DIFF_FILE file.file_hash)).state.diffFiles
        (((st.commit (.SET_DIFF_DATA_BATCH r.diff_files)).commit
          (.SET_BATCH_LOADING false)).commit
            (.VIEW_DIFF_FILE file.file_hash)).state.currentDiffFileId = true := by
      show hasFile (st.state.diffFiles ++ r.diff_files) file.file_hash = true
      rw [hfirst]
      exact hasFile_append_right _ _ _ (hasFile_cons_self file files)
    obtain ⟨st1, hfin, _, _⟩ := finishBatches_active id _ hanchor hact
    obtain ⟨ext, hext, _, _⟩ := finishBatches_extends id
      (((st.commit (.SET_DIFF_DATA_BATCH r.diff_files)).commit
          (.SET_BATCH_LOADING false)).commit (.VIEW_DIFF_FILE file.file_hash))
    rw [hfin] at hext
    simp only [Bool.not_false, if_true, hfin]
    refine ⟨st1, ext, rfl, ?_⟩
    rw [← hlog]
    exact hext

/-- A load without note link, started with no active file, whose first page
has a first file: the log of the load begins with the opening of the load, the
first request, the two commits that apply the page, and the commit that makes
the first file of the page the active one. -/
theorem fetchDiffFilesBatch_selects_first (id : String) (rootGetters : RootGetters)
    (s : State) (r : BatchResponse) (rest : List (Option BatchResponse))
    (file : DiffFile) (files : List DiffFile)
    (hanchor : isNoteLink id = false)
    (hnone : truthy s.currentDiffFileId = false)
    (hfirst : r.diff_files = file :: files) :
    ∃ later, (fetchDiffFilesBatch id rootGetters (some r :: rest) ⟨s, []⟩).1.log
      = [Effect.commit (.SET_BATCH_LOADING true),
         Effect.commit (.SET_RETRIEVING_BATCHES true),
         Effect.emit "EVT_PERF_MARK_DIFF_FILES_START",
         Effect.axiosGet 1,
         Effect.commit (.SET_DIFF_DATA_BATCH r.diff_files),
         Effect.commit (.SET_BATCH_LOADING false),
         Effect.commit (.VIEW_DIFF_FILE file.file_hash)] ++ later := by
  obtain ⟨st1, later, hthen, hlog⟩ := getBatchThen_selects_first id rootGetters
    (((((⟨s, []⟩ : Store).commit (.SET_BATCH_LOADING true)).commit
      (.SET_RETRIEVING_BATCHES true)).perform
        (.emit "EVT_PERF_MARK_DIFF_FILES_START")).perform (.axiosGet 1))
    r file files hanchor hnone hfirst
  have hlog1 : st1.log = [Effect.commit (.SET_BATCH_LOADING true),
         Effect.commit (.SET_RETRIEVING_BATCHES true),
         Effect.emit "EVT_PERF_MARK_DIFF_FILES_START",
         Effect.axiosGet 1,
         Effect.commit (.SET_DIFF_DATA_BATCH r.diff_files),
         Effect.commit (.SET_BATCH_LOADING false),
         Effect.commit (.VIEW_DIFF_FILE file.file_hash)] ++ later := by
    rw [hlog]
    simp [Store.commit, Store.perform]
  have hrun : ∃ more, (getBatch id rootGetters (some r :: rest) 1
      ((((⟨s, []⟩ : Store).commit (.SET_BATCH_LOADING true)).commit
        (.SET_RETRIEVING_BATCHES true)).perform
          (.emit "EVT_PERF_MARK_DIFF_FILES_START"))).1.log = st1.log ++ more := by
    simp only [getBatch, hthen]
    rcases r.pagination.next_page with _ | _ | n
    · exact ⟨[], by simp⟩
    · exact ⟨[], by simp⟩
    · exact getBatch_log id rootGetters rest (n + 1) st1
  obtain ⟨more, hmore⟩ := hrun
  unfold fetchDiffFilesBatch
  dsimp only
  cases hgb : getBatch id rootGetters (some r :: rest) 1
    ((((⟨s, []⟩ : Store).commit (.SET_BATCH_LOADING true)).commit
      (.SET_RETRIEVING_BATCHES true)).perform (.emit "EVT_PERF_MARK_DIFF_FILES_START")) with
  | mk st3 o =>
    rw [hgb] at hmore
    dsimp only at hmore
    cases o with
    | resolved =>
      refine ⟨later ++ more ++ [Effect.handleLocationHash], ?_⟩
      show (st3.perform .handleLocationHash).log = _
      simp only [Store.perform, hmore, hlog1, List.append_assoc]
    | pending =>
      refine ⟨later ++ more, ?_⟩
      show st3.log = _
      simp only [hmore, hlog1, List.append_assoc]

/-! #### Loads with an active file -/

theorem onlyFallbackView_append {l1 l2 : List Effect} (h1 : OnlyFallbackView l1)
    (h2 : OnlyFallbackView l2) : OnlyFallbackView (l1 ++ l2) := by
  induction h1 with
  | nil => exact h2
  | other e rest he _ ih => exact OnlyFallbackView.other e _ he ih
  | fallback fileId rest _ ih => exact OnlyFallbackView.fallback fileId _ ih

theorem onlyFallbackView_commit (st : Store) (m : Mutation) (hst : OnlyFallbackView st.log)
    (hm : viewCommit (.commit m) = none) : OnlyFallbackView (st.commit m).log :=
  onlyFallbackView_append hst (OnlyFallbackView.other _ _ hm OnlyFallbackView.nil)

theorem onlyFallbackView_perform (st : Store) (e : Effect) (hst : OnlyFallbackView st.log)
    (he : viewCommit e = none) : OnlyFallbackView (st.perform e).log :=
  onlyFallbackView_append hst (OnlyFallbackView.other _ _ he OnlyFallbackView.nil)

theorem onlyFallbackView_finishBatches (id : String) (st : Store)
    (hst : OnlyFallbackView st.log) :
    OnlyFallbackView (storeOf (finishBatches id st)).log := by
  have h0 : OnlyFallbackView (st.commit (.SET_RETRIEVING_BATCHES false)).log :=
    onlyFallbackView_commit st _ hst rfl
  unfold finishBatches
  dsimp only
  split
  · split
    · exact h0
    · rename_i file hfile
      simp only [Except.map, storeOf]
      have h1 : OnlyFallbackView ((st.commit (.SET_RETRIEVING_BATCHES false)).commit
          (.VIEW_DIFF_FILE file.file_hash)).log := by
        have hlog : ((st.commit (.SET_RETRIEVING_BATCHES false)).commit
            (.VIEW_DIFF_FILE file.file_hash)).log
            = st.log ++ [Effect.commit (.SET_RETRIEVING_BATCHES false),
                Effect.commit (.VIEW_DIFF_FILE file.file_hash)] := by
          simp [Store.commit]
        rw [hlog]
        exact onlyFallbackView_append hst (OnlyFallbackView.fallback _ _ OnlyFallbackView.nil)
      split
      · exact onlyFallbackView_perform _ _ h1 rfl
      · exact h1
  · simp only [Except.map, storeOf]
    split
    · exact onlyFallbackView_perform _ _ h0 rfl
    · exact h0

/-- One page of a load without note link while a file is active: the commit
of line 93 is left out; only the check at the end of the load may commit
`VIEW_DIFF_FILE`, and a file is still active when a further page is asked
for. -/
theorem onlyFallbackView_getBatchThen (id : String) (hanchor : isNoteLink id = false)
    (rootGetters : RootGetters) (st : Store) (r : BatchResponse)
    (hcur : truthy st.state.currentDiffFileId = true)
    (hst : OnlyFallbackView st.log) :
    match getBatchThen id rootGetters st r with
    | .ok (st1, nextPage) => OnlyFallbackView st1.log ∧
        (truthyPage nextPage = true → truthy st1.state.currentDiffFileId = true)
    | .error st1 => OnlyFallbackView st1.log := by
  have ha : OnlyFallbackView
      ((st.commit (.SET_DIFF_DATA_BATCH r.diff_files)).commit (.SET_BATCH_LOADING false)).log :=
    onlyFallbackView_commit _ _ (onlyFallbackView_commit st _ hst rfl) rfl
  have hcur1 : truthy ((st.commit (.SET_DIFF_DATA_BATCH r.diff_files)).commit
      (.SET_BATCH_LOADING false)).state.currentDiffFileId = true := hcur
  have h1 : selectFirstOfPage id
      ((st.commit (.SET_DIFF_DATA_BATCH r.diff_files)).commit (.SET_BATCH_LOADING false))
      r.diff_files
      = .ok ((st.commit (.SET_DIFF_DATA_BATCH r.diff_files)).commit
          (.SET_BATCH_LOADING false)) := by
    simp [selectFirstOfPage, hcur1]
  have h2 : selectFromNote id rootGetters
      ((st.commit (.SET_DIFF_DATA_BATCH r.diff_files)).commit (.SET_BATCH_LOADING false))
      = .ok ((st.commit (.SET_DIFF_DATA_BATCH r.diff_files)).commit
          (.SET_BATCH_LOADING false)) := by
    simp [selectFromNote, hanchor]
  unfold getBatchThen
  simp only [h1, h2]
  cases hp : truthyPage r.pagination.next_page with
  | true =>
    simp only [Bool.not_true, Bool.false_eq_true, if_false]
    exact ⟨ha, fun _ => hcur1⟩
  | false =>
    have hd := onlyFallbackView_finishBatches id _ ha
    simp only [Bool.not_false, if_true]
    cases h4 : finishBatches id
      ((st.commit (.SET_DIFF_DATA_BATCH r.diff_files)).commit (.SET_BATCH_LOADING false)) with
    | error e4 =>
      rw [h4] at hd
      exact hd
    | ok st4 =>
      rw [h4] at hd
      dsimp only
      refine ⟨hd, fun h => ?_⟩
      rw [hp] at h
      cases h

theorem onlyFallbackView_getBatch (id : String) (hanchor : isNoteLink id = false)
    (rootGetters : RootGetters) :
    ∀ (responses : List (Option BatchResponse)) (page : Nat) (st : Store),
      truthy st.state.currentDiffFileId = true →
      OnlyFallbackView st.log →
      OnlyFallbackView (getBatch id rootGetters responses page st).1.log := by
  intro responses
  induction responses with
  | nil =>
    intro page st _ hst
    exact onlyFallbackView_perform st _ hst rfl
  | cons r rest ih =>
    intro page st hcur hst
    have hreq : OnlyFallbackView (st.perform (.axiosGet page)).log :=
      onlyFallbackView_perform st _ hst rfl
    cases r with
    | none => exact onlyFallbackView_commit _ _ hreq rfl
    | some r =>
      have hthen := onlyFallbackView_getBatchThen id hanchor rootGetters _ r
        (show truthy (st.perform (.axiosGet page)).state.currentDiffFileId = true from hcur) hreq
      unfold getBatch
      cases hr : getBatchThen id rootGetters (st.perform (.axiosGet page)) r with
      | error st1 =>
        rw [hr] at hthen
        exact onlyFallbackView_commit _ _ hthen rfl
      | ok res =>
        obtain ⟨st1, nextPage⟩ := res
        rw [hr] at hthen
        dsimp only at hthen ⊢
        rcases nextPage with _ | _ | n
        · exact hthen.1
        · exact hthen.1
        · exact ih (n + 1) st1 (hthen.2 rfl) hthen.1

theorem onlyFallbackView_fetchDiffFilesBatch (id : String) (rootGetters : RootGetters)
    (responses : List (Option BatchResponse)) (s : State) (hanchor : isNoteLink id = false)
    (hcur : truthy s.currentDiffFileId = true) :
    OnlyFallbackView (fetchDiffFilesBatch id rootGetters responses ⟨s, []⟩).1.log := by
  have h0 : OnlyFallbackView
      ((((⟨s, []⟩ : Store).commit (.SET_BATCH_LOADING true)).commit
        (.SET_RETRIEVING_BATCHES true)).perform
          (.emit "EVT_PERF_MARK_DIFF_FILES_START")).log :=
    onlyFallbackView_perform _ _
      (onlyFallbackView_commit _ _
        (onlyFallbackView_commit _ _ OnlyFallbackView.nil rfl) rfl) rfl
  have hg := onlyFallbackView_getBatch id hanchor rootGetters responses 1 _
    (show truthy ((((⟨s, []⟩ : Store).commit (.SET_BATCH_LOADING true)).commit
        (.SET_RETRIEVING_BATCHES true)).perform
          (.emit "EVT_PERF_MARK_DIFF_FILES_START")).state.currentDiffFileId = true from hcur) h0
  unfold fetchDiffFilesBatch
  dsimp only
  cases hgb : getBatch id rootGetters responses 1
    ((((⟨s, []⟩ : Store).commit (.SET_BATCH_LOADING true)).commit
      (.SET_RETRIEVING_BATCHES true)).perform (.emit "EVT_PERF_MARK_DIFF_FILES_START")) with
  | mk st3 o =>
    rw [hgb] at hg
    cases o with
    | resolved => exact onlyFallbackView_perform st3 _ hg rfl
    | pending => exact hg

/-- C11, amended. With a note link in the URL (a location hash that begins
with `#note`), `fetchDiffFilesBatch` never makes the first file of a page the
active file by default: in the log of the whole load, whatever the responses,
every `VIEW_DIFF_FILE` commit is the commit of a `setCurrentDiffFileIdFromNote`
dispatched right before it. Any other location hash, a bare file-hash anchor
included, plays no part: the load is the load without location hash. In
such a load, started with no active file, the first file of the first page is
committed as the active file on the arrival of the page, right after the two
commits that apply the page; started with an active file, the load commits
`VIEW_DIFF_FILE` on no page arrival, only (if at all) in the check at the end
of the load, right after `SET_RETRIEVING_BATCHES` is committed with `false`. -/
theorem fetchDiffFilesBatch_default_selection (id : String) (rootGetters : RootGetters)
    (responses : List (Option BatchResponse)) (s : State) :
    (isNoteLink id = true →
      NoDefaultView (fetchDiffFilesBatch id rootGetters responses ⟨s, []⟩).1.log) ∧
    (isNoteLink id = false →
      fetchDiffFilesBatch id rootGetters responses ⟨s, []⟩
        = fetchDiffFilesBatch "" rootGetters responses ⟨s, []⟩) ∧
    (isNoteLink id = false → truthy s.currentDiffFileId = false →
      ∀ (r : BatchResponse) (rest : List (Option BatchResponse)) (file : DiffFile)
        (files : List DiffFile),
        responses = some r :: rest → r.diff_files = file :: files →
        ∃ later, (fetchDiffFilesBatch id rootGetters responses ⟨s, []⟩).1.log
          = [Effect.commit (.SET_BATCH_LOADING true),
             Effect.commit (.SET_RETRIEVING_BATCHES true),
             Effect.emit "EVT_PERF_MARK_DIFF_FILES_START",
             Effect.axiosGet 1,
             Effect.commit (.SET_DIFF_DATA_BATCH r.diff_files),
             Effect.commit (.SET_BATCH_LOADING false),
             Effect.commit (.VIEW_DIFF_FILE file.file_hash)] ++ later) ∧
    (isNoteLink id = false → truthy s.currentDiffFileId = true →
      OnlyFallbackView (fetchDiffFilesBatch id rootGetters responses ⟨s, []⟩).1.log) := by
  refine ⟨noDefaultView_fetchDiffFilesBatch id rootGetters responses s,
    fun hanchor => fetchDiffFilesBatch_anchor id hanchor rootGetters responses _, ?_,
    onlyFallbackView_fetchDiffFilesBatch id rootGetters responses s⟩
  intro hanchor hnone r rest file files hresponses hfirst
  rw [hresponses]
  exact fetchDiffFilesBatch_selects_first id rootGetters s r rest file files hanchor hnone hfirst

theorem noDefaultView_tail (e : Effect) (rest : List Effect)
    (h : NoDefaultView (e :: rest))
    (he : ∀ noteId, e ≠ .dispatch (.setCurrentDiffFileIdFromNote noteId)) :
    viewCommit e = none ∧ NoDefaultView rest := by
  cases h with
  | other _ _ hview hrest => exact ⟨hview, hrest⟩
  | fromNote noteId fileId rest1 _ => exact absurd rfl (he noteId)

/-- C11 as stated fails for a bare file-hash anchor: under the anchor
`#abc123`, which is no note link, the load of a page whose second file has the
hash `abc123` commits `VIEW_DIFF_FILE` with the hash of the first file of the
page on page arrival, with no note action dispatched before it, and that file,
not `abc123`, is the active file afterwards. -/
theorem fetchDiffFilesBatch_bare_anchor_selects_first :
    isNoteLink bareAnchor = false ∧
    (pageOfScenario.diff_files.head?).map (fun f => f.file_hash) = some "g01" ∧
    (fetchDiffFilesBatch bareAnchor noNotes [some pageOfScenario] ⟨emptyState, []⟩).1.log
      = bareAnchorLog ∧
    (fetchDiffFilesBatch bareAnchor noNotes [some pageOfScenario]
      ⟨emptyState, []⟩).1.state.currentDiffFileId = "g01" ∧
    ¬ NoDefaultView (fetchDiffFilesBatch bareAnchor noNotes [some pageOfScenario]
      ⟨emptyState, []⟩).1.log := by
  refine ⟨by decide, by decide, by decide, by decide, ?_⟩
  have hlog : (fetchDiffFilesBatch bareAnchor noNotes [some pageOfScenario]
      ⟨emptyState, []⟩).1.log = bareAnchorLog := by decide
  rw [hlog]
  intro h
  unfold bareAnchorLog at h
  have h1 := (noDefaultView_tail _ _ h (by intro n hn; cases hn)).2
  have h2 := (noDefaultView_tail _ _ h1 (by intro n hn; cases hn)).2
  have h3 := (noDefaultView_tail _ _ h2 (by intro n hn; cases hn)).2
  have h4 := (noDefaultView_tail _ _ h3 (by intro n hn; cases hn)).2
  have h5 := (noDefaultView_tail _ _ h4 (by intro n hn; cases hn)).2
  have h6 := (noDefaultView_tail _ _ h5 (by intro n hn; cases hn)).2
  have h7 := (noDefaultView_tail _ _ h6 (by intro n hn; cases hn)).1
  cases h7

/-- C11, amended, at two scenarios: under the note anchor `#note_42` no file
is selected by default during the load, and under the bare anchor `#abc123` the
load is the load without location hash. -/
theorem fetchDiffFilesBatch_default_selection_witness :
    NoDefaultView (fetchDiffFilesBatch "#note_42" notesOfScenario
      [some firstPage, some pageOfScenario] ⟨emptyState, []⟩).1.log ∧
    fetchDiffFilesBatch bareAnchor noNotes [some pageOfScenario] ⟨emptyState, []⟩
      = fetchDiffFilesBatch "" noNotes [some pageOfScenario] ⟨emptyState, []⟩ :=
  ⟨(fetchDiffFilesBatch_default_selection "#note_42" notesOfScenario
      [some firstPage, some pageOfScenario] emptyState).1 (by decide),
   (fetchDiffFilesBatch_default_selection bareAnchor noNotes
      [some pageOfScenario] emptyState).2.1 (by decide)⟩

/-! ### A failed page -/

theorem files_setCurrentDiffFileIdFromNote (rootGetters : RootGetters) (st : Store)
    (noteId : String) :
    (storeOf (setCurrentDiffFileIdFromNote rootGetters st noteId)).state.diffFiles
      = st.state.diffFiles := by
  rcases setCurrentDiffFileIdFromNote_store rootGetters st noteId with h | ⟨fileId, h⟩
  · rw [h]
  · rw [h]; rfl

theorem files_selectFirstOfPage (id : String) (st : Store) (diff_files : List DiffFile) :
    (storeOf (selectFirstOfPage id st diff_files)).state.diffFiles = st.state.diffFiles := by
  unfold selectFirstOfPage
  split
  · split
    · rfl
    · rfl
  · rfl

theorem files_selectFromNote (id : String) (rootGetters : RootGetters) (st : Store) :
    (storeOf (selectFromNote id rootGetters st)).state.diffFiles = st.state.diffFiles := by
  unfold selectFromNote
  split
  · rw [files_setCurrentDiffFileIdFromNote]
    rfl
  · rfl

theorem files_finishBatches (id : String) (st : Store) :
    (storeOf (finishBatches id st)).state.diffFiles = st.state.diffFiles := by
  unfold finishBatches
  dsimp only
  split
  · split
    · rfl
    · simp only [Except.map, storeOf]
      split <;> rfl
  · simp only [Except.map, storeOf]
    split <;> rfl

/-- A page whose callback returns has been appended to the file collection. -/
theorem files_getBatchThen (id : String) (rootGetters : RootGetters) (st st1 : Store)
    (r : BatchResponse) (nextPage : Option Nat)
    (h : getBatchThen id rootGetters st r = .ok (st1, nextPage)) :
    st1.state.diffFiles = st.state.diffFiles ++ r.diff_files := by
  have hb := files_selectFirstOfPage id
    ((st.commit (.SET_DIFF_DATA_BATCH r.diff_files)).commit (.SET_BATCH_LOADING false))
    r.diff_files
  unfold getBatchThen at h
  dsimp only at h
  cases h2 : selectFirstOfPage id
    ((st.commit (.SET_DIFF_DATA_BATCH r.diff_files)).commit (.SET_BATCH_LOADING false))
    r.diff_files with
  | error e2 => rw [h2] at h; cases h
  | ok st2 =>
    rw [h2] at h hb
    dsimp only at h
    have hc := files_selectFromNote id rootGetters st2
    cases h3 : selectFromNote id rootGetters st2 with
    | error e3 => rw [h3] at h; cases h
    | ok st3 =>
      rw [h3] at h hc
      dsimp only at h
      have h23 : st3.state.diffFiles = st.state.diffFiles ++ r.diff_files :=
        hc.trans hb
      cases hp : truthyPage r.pagination.next_page with
      | true =>
        simp only [hp, Bool.not_true, Bool.false_eq_true, if_false] at h
        cases h
        exact h23
      | false =>
        simp only [hp, Bool.not_false, if_true] at h
        have hd := files_finishBatches id st3
        cases h4 : finishBatches id st3 with
        | error e4 => rw [h4] at h; cases h
        | ok st4 =>
          rw [h4] at h hd
          cases h
          exact hd.trans h23

/-- A load whose script has a failed request behind some pages: the chain
resolves, no request follows the failed one, and when the failed request is
made the pages before it have been requested in order and appended to the file
collection. -/
theorem getBatch_failure (id : String) (rootGetters : RootGetters)
    (later : List (Option BatchResponse)) :
    ∀ (pages : List BatchResponse) (page : Nat) (st : Store),
      (getBatch id rootGetters (pages.map some ++ none :: later) page st).2 = .resolved ∧
      (requests (getBatch id rootGetters (pages.map some ++ none :: later) page st).1).length
        ≤ (requests st).length + pages.length + 1 ∧
      ((requests (getBatch id rootGetters (pages.map some ++ none :: later) page st).1).length
          = (requests st).length + pages.length + 1 →
        requests (getBatch id rootGetters (pages.map some ++ none :: later) page st).1
          = requests st ++ page :: pages.filterMap (fun p => p.pagination.next_page) ∧
        (getBatch id rootGetters (pages.map some ++ none :: later) page st).1.state.diffFiles
          = st.state.diffFiles ++ pages.flatMap (fun p => p.diff_files)) := by
  intro pages
  induction pages with
  | nil =>
    intro page st
    have hreq : requests ((st.perform (.axiosGet page)).commit (.SET_RETRIEVING_BATCHES false))
        = requests st ++ [page] := by
      rw [requests_commit, requests_perform]; rfl
    simp only [List.map_nil, List.nil_append, getBatch, hreq]
    exact ⟨trivial, by simp, fun _ => ⟨rfl, by simp [Store.commit, Store.perform, applyMutation]⟩⟩
  | cons p ps ih =>
    intro page st
    have hthen := requests_getBatchThen id rootGetters (st.perform (.axiosGet page)) p
    have hperf : requests (st.perform (.axiosGet page)) = requests st ++ [page] := by
      rw [requests_perform]; rfl
    simp only [List.map_cons, List.cons_append, getBatch]
    cases hr : getBatchThen id rootGetters (st.perform (.axiosGet page)) p with
    | error st1 =>
      rw [hr] at hthen
      dsimp only at hthen ⊢
      have hlen : (requests (st1.commit (.SET_RETRIEVING_BATCHES false))).length
          = (requests st).length + 1 := by
        rw [requests_commit, hthen, hperf]; simp
      refine ⟨rfl, by rw [hlen]; simp only [List.length_cons]; omega, fun h => ?_⟩
      rw [hlen] at h
      simp only [List.length_cons] at h
      omega
    | ok res =>
      obtain ⟨st1, nextPage⟩ := res
      rw [hr] at hthen
      dsimp only at hthen ⊢
      have hnext : nextPage = p.pagination.next_page := by
        have := getBatchThen_extends id rootGetters (st.perform (.axiosGet page)) p
        rw [hr] at this
        exact this.1
      have hfiles := files_getBatchThen id rootGetters _ st1 p nextPage hr
      have hlen1 : (requests st1).length = (requests st).length + 1 := by
        rw [hthen, hperf]; simp
      rcases hn : nextPage with _ | _ | n
      · refine ⟨rfl, by rw [hlen1]; simp only [List.length_cons]; omega, fun h => ?_⟩
        rw [hlen1] at h
        simp only [List.length_cons] at h
        omega
      · refine ⟨rfl, by rw [hlen1]; simp only [List.length_cons]; omega, fun h => ?_⟩
        rw [hlen1] at h
        simp only [List.length_cons] at h
        omega
      · obtain ⟨hres, hle, himp⟩ := ih (n + 1) st1
        dsimp only
        rw [show (List.map some ps).append (none :: later)
          = List.map some ps ++ none :: later from rfl]
        refine ⟨hres, by rw [hlen1] at hle; simp only [List.length_cons]; omega, fun h => ?_⟩
        obtain ⟨hreqs, hfs⟩ := himp (by rw [hlen1]; simp only [List.length_cons] at h; omega)
        refine ⟨?_, ?_⟩
        · rw [hreqs, hthen, hperf, List.filterMap_cons, ← hnext, hn]
          simp
        · rw [hfs, hfiles]
          simp [Store.perform, List.flatMap_cons]

theorem setCurrentDiffFileIdFromNote_returns (rootGetters : RootGetters) (st : Store)
    (noteId : String)
    (hdisc : ∀ note, rootGetters.notesById noteId = some note →
      rootGetters.getDiscussion note.discussion_id ≠ none) :
    ∃ st1, setCurrentDiffFileIdFromNote rootGetters st noteId = .ok st1 := by
  unfold setCurrentDiffFileIdFromNote
  split
  · exact ⟨_, rfl⟩
  · rename_i note hn
    split
    · rename_i hd
      exact absurd hd (hdisc note hn)
    · split
      · exact ⟨_, rfl⟩
      · dsimp only
        split
        · exact ⟨_, rfl⟩
        · exact ⟨_, rfl⟩

/-- With a note link whose note, if there is one, has its discussion, the
callback of a page returns. -/
theorem getBatchThen_returns_note (id : String) (rootGetters : RootGetters) (st : Store)
    (r : BatchResponse) (hnote : isNoteLink id = true)
    (hdisc : ∀ note, rootGetters.notesById (noteIdOf id) = some note →
      rootGetters.getDiscussion note.discussion_id ≠ none) :
    ∃ st1, getBatchThen id rootGetters st r = .ok (st1, r.pagination.next_page) := by
  obtain ⟨st3, h3⟩ : ∃ st3, selectFromNote id rootGetters
      ((st.commit (.SET_DIFF_DATA_BATCH r.diff_files)).commit (.SET_BATCH_LOADING false))
      = .ok st3 := by
    unfold selectFromNote
    rw [if_pos hnote]
    exact setCurrentDiffFileIdFromNote_returns rootGetters _ _ hdisc
  have h4 : ∃ st4, finishBatches id st3 = .ok st4 := by
    unfold finishBatches
    simp only [hnote, Bool.not_true, Bool.and_false, Bool.false_eq_true, if_false, Except.map]
    exact ⟨_, rfl⟩
  unfold getBatchThen
  simp only [selectFirstOfPage_note id hnote, h3]
  cases hp : truthyPage r.pagination.next_page with
  | true =>
    simp only [Bool.not_true, Bool.false_eq_true, if_false]
    exact ⟨_, rfl⟩
  | false =>
    obtain ⟨st4, h4⟩ := h4
    simp only [Bool.not_false, if_true, h4]
    exact ⟨_, rfl⟩

/-- When the callbacks of the pages before a failed request return and each
of these pages names a next page, the failed request is made: there is one
request for each page and one for the failed page. -/
theorem getBatch_reaches_failure (id : String) (rootGetters : RootGetters)
    (later : List (Option BatchResponse)) :
    ∀ (pages : List BatchResponse) (page : Nat) (st : Store),
      (∀ p ∈ pages, truthyPage p.pagination.next_page = true ∧
        ∀ st0, ∃ st1, getBatchThen id rootGetters st0 p = .ok (st1, p.pagination.next_page)) →
      (requests (getBatch id rootGetters (pages.map some ++ none :: later) page st).1).length
        = (requests st).length + pages.length + 1 := by
  intro pages
  induction pages with
  | nil =>
    intro page st _
    simp [getBatch, requests_commit, requests_perform, requestedPage]
  | cons p ps ih =>
    intro page st hall
    obtain ⟨htruthy, hret⟩ := hall p (List.mem_cons_self _ _)
    obtain ⟨st1, hthen⟩ := hret (st.perform (.axiosGet page))
    have hreq := requests_getBatchThen id rootGetters (st.perform (.axiosGet page)) p
    rw [hthen] at hreq
    dsimp only at hreq
    have hlen1 : (requests st1).length = (requests st).length + 1 := by
      rw [hreq, requests_perform]; simp [requestedPage]
    simp only [List.map_cons, List.cons_append, getBatch, hthen]
    rcases hn : p.pagination.next_page with _ | _ | n
    · rw [hn] at htruthy; simp [truthyPage] at htruthy
    · rw [hn] at htruthy; simp [truthyPage] at htruthy
    · dsimp only
      have := ih (n + 1) st1 (fun x hx => hall x (List.mem_cons_of_mem _ hx))
      refine this.trans ?_
      rw [hlen1]
      simp only [List.length_cons]
      omega

/-- C12. A load in which the request for page `N` fails, `N - 1` pages being
served before it: the promise of the action resolves and the retrieval flag
is cleared; never more than `N` requests are made (no retry, no later page);
when the request for page `N` is made, the requests are those of pages `1` to
`N` in order and the file collection is the one before the load followed by
the files of pages `1` to `N - 1` in page order; and the request for page `N`
is made when every page before it names a next page and either there is no
note link and each of these pages holds a file, or there is a note link and
the note, if there is one, has its discussion. -/
theorem fetchDiffFilesBatch_failed_page (id : String) (rootGetters : RootGetters) (s : State)
    (pages : List BatchResponse) (later : List (Option BatchResponse)) :
    (fetchDiffFilesBatch id rootGetters (pages.map some ++ none :: later) ⟨s, []⟩).2
      = .resolved ∧
    (fetchDiffFilesBatch id rootGetters (pages.map some ++ none :: later)
      ⟨s, []⟩).1.state.retrievingBatches = false ∧
    (requests (fetchDiffFilesBatch id rootGetters (pages.map some ++ none :: later)
      ⟨s, []⟩).1).length ≤ pages.length + 1 ∧
    ((requests (fetchDiffFilesBatch id rootGetters (pages.map some ++ none :: later)
        ⟨s, []⟩).1).length = pages.length + 1 →
      requests (fetchDiffFilesBatch id rootGetters (pages.map some ++ none :: later) ⟨s, []⟩).1
        = 1 :: pages.filterMap (fun p => p.pagination.next_page) ∧
      (fetchDiffFilesBatch id rootGetters (pages.map some ++ none :: later)
        ⟨s, []⟩).1.state.diffFiles
        = s.diffFiles ++ pages.flatMap (fun p => p.diff_files)) ∧
    (isNoteLink id = false →
      (∀ p ∈ pages, truthyPage p.pagination.next_page = true ∧ p.diff_files ≠ []) →
      (requests (fetchDiffFilesBatch id rootGetters (pages.map some ++ none :: later)
        ⟨s, []⟩).1).length = pages.length + 1) ∧
    (isNoteLink id = true →
      (∀ note, rootGetters.notesById (noteIdOf id) = some note →
        rootGetters.getDiscussion note.discussion_id ≠ none) →
      (∀ p ∈ pages, truthyPage p.pagination.next_page = true) →
      (requests (fetchDiffFilesBatch id rootGetters (pages.map some ++ none :: later)
        ⟨s, []⟩).1).length = pages.length + 1) := by
  have hreq0 : requests ((((⟨s, []⟩ : Store).commit (.SET_BATCH_LOADING true)).commit
      (.SET_RETRIEVING_BATCHES true)).perform (.emit "EVT_PERF_MARK_DIFF_FILES_START")) = [] := by
    simp [requests, Store.commit, Store.perform, requestedPage]
  obtain ⟨hres, hle, himp⟩ := getBatch_failure id rootGetters later pages 1
    ((((⟨s, []⟩ : Store).commit (.SET_BATCH_LOADING true)).commit
      (.SET_RETRIEVING_BATCHES true)).perform (.emit "EVT_PERF_MARK_DIFF_FILES_START"))
  have hreach := getBatch_reaches_failure id rootGetters later pages 1
    ((((⟨s, []⟩ : Store).commit (.SET_BATCH_LOADING true)).commit
      (.SET_RETRIEVING_BATCHES true)).perform (.emit "EVT_PERF_MARK_DIFF_FILES_START"))
  have hends : (fetchDiffFilesBatch id rootGetters (pages.map some ++ none :: later)
      ⟨s, []⟩).2 = .resolved := by
    unfold fetchDiffFilesBatch
    dsimp only
    cases hg : getBatch id rootGetters (pages.map some ++ none :: later) 1
      ((((⟨s, []⟩ : Store).commit (.SET_BATCH_LOADING true)).commit
        (.SET_RETRIEVING_BATCHES true)).perform (.emit "EVT_PERF_MARK_DIFF_FILES_START")) with
    | mk st3 o =>
      rw [hg] at hres
      dsimp only at hres
      subst hres
      rfl
  have hflag : (fetchDiffFilesBatch id rootGetters (pages.map some ++ none :: later)
      ⟨s, []⟩).1.state.retrievingBatches = false := by
    obtain ⟨ext, k, hk, hfilter, hlog, hstate⟩ :=
      fetchDiffFilesBatch_log id rootGetters _ s hends
    rw [hstate, foldl_retrievingBatches, hlog]
    simp only [List.filterMap_cons, retrievingCommit, hfilter]
    rw [getLast_true_replicate k hk]
    rfl
  have hsame : requests (fetchDiffFilesBatch id rootGetters (pages.map some ++ none :: later)
        ⟨s, []⟩).1
      = requests (getBatch id rootGetters (pages.map some ++ none :: later) 1
          ((((⟨s, []⟩ : Store).commit (.SET_BATCH_LOADING true)).commit
            (.SET_RETRIEVING_BATCHES true)).perform
              (.emit "EVT_PERF_MARK_DIFF_FILES_START"))).1 ∧
      (fetchDiffFilesBatch id rootGetters (pages.map some ++ none :: later)
        ⟨s, []⟩).1.state.diffFiles
      = (getBatch id rootGetters (pages.map some ++ none :: later) 1
          ((((⟨s, []⟩ : Store).commit (.SET_BATCH_LOADING true)).commit
            (.SET_RETRIEVING_BATCHES true)).perform
              (.emit "EVT_PERF_MARK_DIFF_FILES_START"))).1.state.diffFiles := by
    unfold fetchDiffFilesBatch
    dsimp only
    cases hg : getBatch id rootGetters (pages.map some ++ none :: later) 1
      ((((⟨s, []⟩ : Store).commit (.SET_BATCH_LOADING true)).commit
        (.SET_RETRIEVING_BATCHES true)).perform (.emit "EVT_PERF_MARK_DIFF_FILES_START")) with
    | mk st3 o =>
      cases o with
      | resolved =>
        dsimp only
        rw [requests_perform]
        exact ⟨by simp [requestedPage], rfl⟩
      | pending => exact ⟨rfl, rfl⟩
  rw [hreq0] at hle himp hreach
  simp only [List.length_nil, Nat.zero_add, List.nil_append] at hle himp hreach
  refine ⟨hends, hflag, ?_, ?_, ?_, ?_⟩
  · rw [hsame.1]; exact hle
  · intro h
    rw [hsame.1] at h
    obtain ⟨h1, h2⟩ := himp h
    rw [hsame.1, hsame.2]
    exact ⟨h1, h2⟩
  · intro hanchor hall
    rw [hsame.1]
    exact hreach fun p hp =>
      ⟨(hall p hp).1, fun st0 => getBatchThen_returns id rootGetters st0 p hanchor (hall p hp).2⟩
  · intro hnote hdisc hall
    rw [hsame.1]
    exact hreach fun p hp =>
      ⟨hall p hp, fun st0 => getBatchThen_returns_note id rootGetters st0 p hnote hdisc⟩

/-- C12 at a concrete load: page 1 holds one file and names page 2, the
request for page 2 fails; two requests are made, the file of page 1 stays
loaded, the flag is cleared and the promise resolves. -/
theorem fetchDiffFilesBatch_failed_page_witness :
    (fetchDiffFilesBatch "" noNotes failingSecondPage ⟨emptyState, []⟩).2 = .resolved ∧
    requests (fetchDiffFilesBatch "" noNotes failingSecondPage ⟨emptyState, []⟩).1 = [1, 2] ∧
    (fetchDiffFilesBatch "" noNotes failingSecondPage ⟨emptyState, []⟩).1.state.diffFiles
      = [sampleFile "a1"] :=
  ⟨(fetchDiffFilesBatch_failed_page "" noNotes emptyState
      [{ pagination := { next_page := some 2 }, diff_files := [sampleFile "a1"] }] []).1,
   ((fetchDiffFilesBatch_failed_page "" noNotes emptyState
      [{ pagination := { next_page := some 2 }, diff_files := [sampleFile "a1"] }] []).2.2.2.1
      (by decide)).1,
   ((fetchDiffFilesBatch_failed_page "" noNotes emptyState
      [{ pagination := { next_page := some 2 }, diff_files := [sampleFile "a1"] }] []).2.2.2.1
      (by decide)).2⟩

/-! ### moveToNeighboringCommit -/

/-- C13. `moveToNeighboringCommit` in every state and for every direction:
with no load in flight and a commit whose neighbour in the direction asked
for exists, it dispatches `changeCurrentCommit` once, with `next_commit_id`
for `next` and with `prev_commit_id` for `previous`; it dispatches nothing
while a load is in flight, without commit, without neighbour in the direction
asked for, and for any other direction. -/
theorem moveToNeighboringCommit_dispatches (state : State) (direction : String) :
    (∀ (c : Commit) (id : String), state.isLoading = false → state.commit = some c →
      id ≠ "" →
      (direction = "next" → c.next_commit_id = some id →
        moveToNeighboringCommit state direction = [Action.changeCurrentCommit id]) ∧
      (direction = "previous" → c.prev_commit_id = some id →
        moveToNeighboringCommit state direction = [Action.changeCurrentCommit id])) ∧
    (state.isLoading = true → moveToNeighboringCommit state direction = []) ∧
    (state.commit = none → moveToNeighboringCommit state direction = []) ∧
    (direction = "next" →
      (∀ c, state.commit = some c → truthyArg c.next_commit_id = false) →
      moveToNeighboringCommit state direction = []) ∧
    (direction = "previous" →
      (∀ c, state.commit = some c → truthyArg c.prev_commit_id = false) →
      moveToNeighboringCommit state direction = []) ∧
    (direction ≠ "next" → direction ≠ "previous" →
      moveToNeighboringCommit state direction = []) := by
  refine ⟨?_, ?_, ?_, ?_, ?_, ?_⟩
  · intro c id hload hc hid
    have htr : truthy id = true := by simpa [truthy] using hid
    refine ⟨fun hd hn => ?_, fun hd hp => ?_⟩
    · simp [moveToNeighboringCommit, hload, hc, hd, hn, truthyArg, htr]
    · subst hd
      simp [moveToNeighboringCommit, hload, hc, hp, truthyArg, htr]
  · intro hload
    simp [moveToNeighboringCommit, hload]
  · intro hc
    simp [moveToNeighboringCommit, hc, truthyArg]
  · intro hd hnone
    subst hd
    cases hc : state.commit with
    | none => simp [moveToNeighboringCommit, hc, truthyArg]
    | some c => simp [moveToNeighboringCommit, hc, hnone c hc]
  · intro hd hnone
    subst hd
    cases hc : state.commit with
    | none => simp [moveToNeighboringCommit, hc, truthyArg]
    | some c => simp [moveToNeighboringCommit, hc, hnone c hc]
  · intro h1 h2
    simp [moveToNeighboringCommit, h1, h2]

/-! ### renderFileForDiscussionId -/

theorem staysRendered_refl (l : List DiffFile) : List.Forall₂ StaysRendered l l := by
  induction l with
  | nil => exact List.Forall₂.nil
  | cons f fs ih => exact List.Forall₂.cons ⟨rfl, fun h => h⟩ ih

theorem staysRendered_trans {a b c : List DiffFile}
    (h1 : List.Forall₂ StaysRendered a b) (h2 : List.Forall₂ StaysRendered b c) :
    List.Forall₂ StaysRendered a c := by
  induction h1 generalizing c with
  | nil => cases h2; exact List.Forall₂.nil
  | cons hab _ ih =>
    cases h2 with
    | cons hbc hrest =>
      exact List.Forall₂.cons ⟨hab.1.trans hbc.1, fun h => hbc.2 (hab.2 h)⟩ (ih hrest)

theorem markRendered_stays (file : DiffFile) (l : List DiffFile) :
    List.Forall₂ StaysRendered l (markRendered file l) := by
  induction l with
  | nil => exact List.Forall₂.nil
  | cons f fs ih =>
    unfold markRendered
    split
    · exact List.Forall₂.cons ⟨rfl, fun _ => rfl⟩ (staysRendered_refl fs)
    · exact List.Forall₂.cons ⟨rfl, fun h => h⟩ ih

theorem setFileCollapsed_stays (filePath : String) (collapsed : Bool)
    (trigger : CollapseTrigger) (l : List DiffFile) :
    List.Forall₂ StaysRendered l (setFileCollapsed filePath collapsed trigger l) := by
  induction l with
  | nil => exact List.Forall₂.nil
  | cons f fs ih =>
    unfold setFileCollapsed
    split
    · exact List.Forall₂.cons ⟨rfl, fun h => h⟩ (staysRendered_refl fs)
    · exact List.Forall₂.cons ⟨rfl, fun h => h⟩ ih

theorem markRendered_mem (file : DiffFile) (l : List DiffFile) (hmem : file ∈ l) :
    rendered file ∈ markRendered file l := by
  induction l with
  | nil => cases hmem
  | cons f fs ih =>
    unfold markRendered
    by_cases hf : f = file
    · rw [if_pos hf, hf]
      exact List.mem_cons_self _ _
    · rw [if_neg hf]
      rcases List.mem_cons.mp hmem with h1 | h2
      · exact absurd h1.symm hf
      · exact List.mem_cons_of_mem _ (ih h2)

theorem staysRendered_mem {l l1 : List DiffFile} (h : List.Forall₂ StaysRendered l l1)
    (f : DiffFile) (hf : f ∈ l) (hr : f.renderIt = true) :
    ∃ g ∈ l1, g.file_hash = f.file_hash ∧ g.renderIt = true := by
  induction h with
  | nil => cases hf
  | cons hab _ ih =>
    rcases List.mem_cons.mp hf with h1 | h2
    · subst h1
      exact ⟨_, List.mem_cons_self _ _, hab.1.symm, hab.2 hr⟩
    · obtain ⟨g, hg, hh⟩ := ih h2
      exact ⟨g, List.mem_cons_of_mem _ hg, hh⟩

/-- The `RENDER_FILE` step of `renderFileForDiscussionId` on a loaded file:
it commits `RENDER_FILE` exactly when the file is not rendered yet, and leaves
the file rendered and every rendered file rendered. -/
theorem renderStep_spec (st : Store) (file : DiffFile) (hmem : file ∈ st.state.diffFiles) :
    (if !file.renderIt then st.commit (.RENDER_FILE file) else st).log
      = st.log ++ renderCommit file ∧
    List.Forall₂ StaysRendered st.state.diffFiles
      (if !file.renderIt then st.commit (.RENDER_FILE file) else st).state.diffFiles ∧
    ∃ g ∈ (if !file.renderIt then st.commit (.RENDER_FILE file) else st).state.diffFiles,
      g.file_hash = file.file_hash ∧ g.renderIt = true := by
  cases hr : file.renderIt with
  | true =>
    simp only [Bool.not_true, Bool.false_eq_true, if_false, renderCommit, hr, if_true,
      List.append_nil, true_and]
    exact ⟨staysRendered_refl _, file, hmem, rfl, hr⟩
  | false =>
    simp only [Bool.not_false, if_true, renderCommit, hr, Bool.false_eq_true, if_false]
    refine ⟨rfl, markRendered_stays file _, rendered file, markRendered_mem file _ hmem,
      rfl, rfl⟩

/-- The branches of `renderFileForDiscussionId` for a discussion id that
resolves to a discussion whose `diff_file` is a loaded file with a viewer: the action
returns after committing `RENDER_FILE` for the file exactly when its `renderIt`
was false, followed by the effects of one branch: for an automatically
collapsed file the event `loadCollapsedDiff/<file_hash>` and a scroll, with no
collapse mutation; for a manually collapsed file `SET_FILE_COLLAPSED` with
`collapsed = false` for the path of the file; for an expanded file no collapse
mutation. Afterwards the file is rendered and every file that was rendered
still is. If the discussion is unknown, has no `diff_file`, or its file is not
loaded, the store is left as it was: nothing is committed or emitted. (For a
loaded file without viewer the action throws right after the `RENDER_FILE`
step.) -/
theorem renderFileForDiscussionId_branches (discussions : List Discussion) (st : Store)
    (discussionId : String) :
    (∀ (discussion : Discussion) (diff_file file : DiffFile) (viewer : Viewer),
      discussions.find? (fun d => d.id == discussionId) = some discussion →
      discussion.diff_file = some diff_file →
      st.state.diffFiles.find? (fun f => f.file_hash == diff_file.file_hash) = some file →
      file.viewer = some viewer →
      ∃ st1, renderFileForDiscussionId discussions st discussionId = .ok st1 ∧
        st1.log = st.log ++ renderCommit file ++ collapseBranch file viewer ∧
        (file.renderIt = false → renderCommit file = [Effect.commit (.RENDER_FILE file)]) ∧
        (file.renderIt = true → renderCommit file = []) ∧
        (viewer.automaticallyCollapsed = true →
          collapseBranch file viewer
            = [Effect.emit ("loadCollapsedDiff/" ++ file.file_hash),
               Effect.scrollToElement file.file_hash]) ∧
        (viewer.automaticallyCollapsed = false → viewer.manuallyCollapsed = true →
          collapseBranch file viewer
            = [Effect.commit (.SET_FILE_COLLAPSED file.file_path false
                 .DIFF_FILE_AUTOMATIC_COLLAPSE),
               Effect.emit "scrollToDiscussion"]) ∧
        (viewer.automaticallyCollapsed = false → viewer.manuallyCollapsed = false →
          collapseBranch file viewer = [Effect.emit "scrollToDiscussion"]) ∧
        List.Forall₂ StaysRendered st.state.diffFiles st1.state.diffFiles ∧
        ∃ g ∈ st1.state.diffFiles, g.file_hash = file.file_hash ∧ g.renderIt = true) ∧
    (discussions.find? (fun d => d.id == discussionId) = none →
      renderFileForDiscussionId discussions st discussionId = .ok st) ∧
    (∀ discussion : Discussion,
      discussions.find? (fun d => d.id == discussionId) = some discussion →
      discussion.diff_file = none →
      renderFileForDiscussionId discussions st discussionId = .ok st) ∧
    (∀ (discussion : Discussion) (diff_file : DiffFile),
      discussions.find? (fun d => d.id == discussionId) = some discussion →
      discussion.diff_file = some diff_file →
      st.state.diffFiles.find? (fun f => f.file_hash == diff_file.file_hash) = none →
      renderFileForDiscussionId discussions st discussionId = .ok st) ∧
    (∀ (discussion : Discussion) (diff_file file : DiffFile),
      discussions.find? (fun d => d.id == discussionId) = some discussion →
      discussion.diff_file = some diff_file →
      st.state.diffFiles.find? (fun f => f.file_hash == diff_file.file_hash) = some file →
      file.viewer = none →
      ∃ st1, renderFileForDiscussionId discussions st discussionId = .error st1 ∧
        st1.log = st.log ++ renderCommit file) := by
  refine ⟨?_, ?_, ?_, ?_, ?_⟩
  · intro discussion diff_file file viewer hd hdf hfile hviewer
    have hmem : file ∈ st.state.diffFiles := List.mem_of_find?_eq_some hfile
    obtain ⟨hlog, hstays, g, hg, hgh, hgr⟩ := renderStep_spec st file hmem
    unfold renderFileForDiscussionId
    simp only [hd, hdf, hfile, hviewer]
    generalize (if !file.renderIt then st.commit (.RENDER_FILE file) else st) = st1
      at hlog hstays hg
    have hrender1 : file.renderIt = false →
        renderCommit file = [Effect.commit (.RENDER_FILE file)] := by
      intro h; simp [renderCommit, h]
    have hrender2 : file.renderIt = true → renderCommit file = [] := by
      intro h; simp [renderCommit, h]
    cases ha : viewer.automaticallyCollapsed with
    | true =>
      refine ⟨(st1.perform (.emit ("loadCollapsedDiff/" ++ file.file_hash))).perform
        (.scrollToElement file.file_hash), by simp, ?_, hrender1, hrender2, ?_, ?_, ?_,
        hstays, g, hg, hgh, hgr⟩
      · simp [Store.perform, hlog, collapseBranch, ha]
      · intro _; simp [collapseBranch, ha]
      · intro h; cases h
      · intro h; cases h
    | false =>
      cases hm : viewer.manuallyCollapsed with
      | true =>
        refine ⟨(st1.commit (.SET_FILE_COLLAPSED file.file_path false
          .DIFF_FILE_AUTOMATIC_COLLAPSE)).perform (.emit "scrollToDiscussion"), by simp, ?_,
          hrender1, hrender2, ?_, ?_, ?_, ?_, ?_⟩
        · simp [Store.perform, Store.commit, hlog, collapseBranch, ha, hm]
        · intro h; cases h
        · intro _ _; simp [collapseBranch, ha, hm]
        · intro _ h; cases h
        · exact staysRendered_trans hstays (setFileCollapsed_stays _ _ _ _)
        · obtain ⟨g2, hg2, hh2, hr2⟩ := staysRendered_mem
            (setFileCollapsed_stays file.file_path false .DIFF_FILE_AUTOMATIC_COLLAPSE
              st1.state.diffFiles) g hg hgr
          exact ⟨g2, hg2, hh2.trans hgh, hr2⟩
      | false =>
        refine ⟨st1.perform (.emit "scrollToDiscussion"), by simp, ?_, hrender1, hrender2,
          ?_, ?_, ?_, hstays, g, hg, hgh, hgr⟩
        · simp [Store.perform, hlog, collapseBranch, ha, hm]
        · intro h; cases h
        · intro _ h; cases h
        · intro _ _; simp [collapseBranch, ha, hm]
  · intro hd
    simp [renderFileForDiscussionId, hd]
  · intro discussion hd hdf
    simp [renderFileForDiscussionId, hd, hdf]
  · intro discussion diff_file hd hdf hfile
    simp [renderFileForDiscussionId, hd, hdf, hfile]
  · intro discussion diff_file file hd hdf hfile hviewer
    have hmem : file ∈ st.state.diffFiles := List.mem_of_find?_eq_some hfile
    obtain ⟨hlog, _⟩ := renderStep_spec st file hmem
    unfold renderFileForDiscussionId
    simp only [hd, hdf, hfile, hviewer]
    exact ⟨_, rfl, hlog⟩

/-- The branches at a concrete store: a discussion on a manually collapsed
image that is not rendered yet; the file is rendered and then expanded. -/
theorem renderFileForDiscussionId_branches_witness :
    ∃ st1, renderFileForDiscussionId [imageDiscussion] fiveFilesStore "disc7" = .ok st1 ∧
      st1.log = imageDiscussionLog := by
  obtain ⟨st1, hres, hlog, _⟩ :=
    (renderFileForDiscussionId_branches [imageDiscussion] fiveFilesStore "disc7").1
      imageDiscussion collapsedImage collapsedImage
      { name := "image", automaticallyCollapsed := false, manuallyCollapsed := true }
      (by decide) rfl (by decide) rfl
  exact ⟨st1, hres, hlog.trans (by decide)⟩

/-- C14 fails for a loaded file without viewer. The discussion `disc9` is on
the file `x1` of the store, which is loaded, not rendered yet, not collapsed,
and has no viewer. `renderFileForDiscussionId` commits `RENDER_FILE` for it
and then throws on reading `file.viewer.automaticallyCollapsed`: none of the
three branches is taken and `scrollToDiscussion` is not emitted, where the same
file with an expanded viewer takes the third branch and emits it. -/
theorem renderFileForDiscussionId_throws_without_viewer :
    [viewerlessDiscussion].find? (fun d => d.id == "disc9") = some viewerlessDiscussion ∧
    viewerlessDiscussion.diff_file = some (sampleFile "x1") ∧
    fiveFilesStore.state.diffFiles.find? (fun f => f.file_hash == "x1")
      = some (sampleFile "x1") ∧
    (sampleFile "x1").viewer = none ∧
    (sampleFile "x1").renderIt = false ∧
    isCollapsed (sampleFile "x1") = false ∧
    renderFileForDiscussionId [viewerlessDiscussion] fiveFilesStore "disc9"
      = .error viewerlessThrown ∧
    renderFileForDiscussionId
      [{ id := "disc9", expanded := true, diff_file := some expandedText }]
      fiveFilesStore "disc9"
      = .ok ((fiveFilesStore.commit (.RENDER_FILE expandedText)).perform
          (.emit "scrollToDiscussion")) :=
  ⟨by decide, by decide, by decide, by decide, by decide, by decide, by rfl, by rfl⟩

/-! ### Line codes -/

theorem digitChar_value (d : Nat) (hd : d < 10) : (Nat.digitChar d).toNat - 48 = d := by
  interval_cases d <;> rfl

theorem digitChar_ne_underscore (d : Nat) (hd : d < 10) : Nat.digitChar d ≠ '_' := by
  interval_cases d <;> decide

theorem toDigitsCore_value :
    ∀ (fuel n : Nat) (ds : List Char), n < fuel →
      (Nat.toDigitsCore 10 fuel n ds).foldl (fun acc ch => 10 * acc + (ch.toNat - 48)) 0
        = ds.foldl (fun acc ch => 10 * acc + (ch.toNat - 48)) n := by
  intro fuel
  induction fuel with
  | zero => intro n ds h; omega
  | succ fuel ih =>
    intro n ds hn
    unfold Nat.toDigitsCore
    dsimp only
    split
    · rename_i hzero
      rw [List.foldl_cons, digitChar_value _ (Nat.mod_lt _ (by decide))]
      have : n % 10 = n := by omega
      rw [this, Nat.mul_zero, Nat.zero_add]
    · rename_i hpos
      rw [ih (n / 10) _ (by omega), List.foldl_cons,
        digitChar_value _ (Nat.mod_lt _ (by decide))]
      have : 10 * (n / 10) + n % 10 = n := Nat.div_add_mod n 10
      rw [this]

theorem decimalValue_toDigits (n : Nat) : decimalValue (Nat.toDigits 10 n) = n := by
  unfold decimalValue Nat.toDigits
  rw [toDigitsCore_value (n + 1) n [] (Nat.lt_succ_self n)]
  rfl

theorem toDigits_injective (a b : Nat) (h : Nat.toDigits 10 a = Nat.toDigits 10 b) : a = b := by
  have := congrArg decimalValue h
  rwa [decimalValue_toDigits, decimalValue_toDigits] at this

theorem toDigitsCore_no_underscore :
    ∀ (fuel n : Nat) (ds : List Char), (∀ ch ∈ ds, ch ≠ '_') →
      ∀ ch ∈ Nat.toDigitsCore 10 fuel n ds, ch ≠ '_' := by
  intro fuel
  induction fuel with
  | zero => intro n ds h; exact h
  | succ fuel ih =>
    intro n ds h
    have hcons : ∀ ch ∈ Nat.digitChar (n % 10) :: ds, ch ≠ '_' := by
      intro ch hch
      rcases List.mem_cons.mp hch with h1 | h2
      · rw [h1]; exact digitChar_ne_underscore _ (Nat.mod_lt _ (by decide))
      · exact h ch h2
    unfold Nat.toDigitsCore
    dsimp only
    split
    · exact hcons
    · exact ih _ _ hcons

theorem toDigits_no_underscore (n : Nat) : ∀ ch ∈ Nat.toDigits 10 n, ch ≠ '_' :=
  toDigitsCore_no_underscore (n + 1) n [] (by intro ch h; cases h)

theorem lineCodeOf_data (file_hash : String) (oldLine newLine : Nat) :
    (lineCodeOf file_hash oldLine newLine).data
      = file_hash.data ++ '_' :: (Nat.toDigits 10 oldLine ++ '_' :: Nat.toDigits 10 newLine) := by
  unfold lineCodeOf
  simp only [String.data_append, List.append_assoc]
  rfl

theorem splitOn_first (xs rest : List Char) (hxs : ∀ ch ∈ xs, ch ≠ '_') :
    (xs ++ '_' :: rest).splitOn '_' = xs :: rest.splitOn '_' := by
  unfold List.splitOn
  exact List.splitOnP_first (fun x => x == '_') xs (fun x hx => by simpa using hxs x hx) '_'
    (by simp) rest

theorem append_underscore_cancel (xs ys rest1 rest2 : List Char)
    (hxs : ∀ ch ∈ xs, ch ≠ '_') (hys : ∀ ch ∈ ys, ch ≠ '_')
    (h : xs ++ '_' :: rest1 = ys ++ '_' :: rest2) : xs = ys ∧ rest1 = rest2 := by
  have hsplit := congrArg (fun l => List.splitOn '_' l) h
  simp only [splitOn_first xs rest1 hxs, splitOn_first ys rest2 hys] at hsplit
  have hxy : xs = ys := (List.cons.inj hsplit).1
  subst hxy
  have := List.append_cancel_left h
  exact ⟨rfl, (List.cons.inj this).2⟩

/-- C15. The line code that `setExpandedDiffLines` gives to an inserted line
of a file whose hash has no underscore is mapped back to the file by
`setHighlightedRow`: the action commits `SET_HIGHLIGHTED_ROW` with the line
code and then `VIEW_DIFF_FILE` with the hash of the file, which is the active
file afterwards. And for one file, lines with equal line codes have equal old
and new line numbers: distinct pairs of numbers get distinct line codes. -/
theorem setHighlightedRow_lineCode_roundtrip (st : Store) (file : DiffFile) (line : Line)
    (oldLine newLine : Nat)
    (hhash : ∀ ch ∈ file.file_hash.data, ch ≠ '_') :
    (mapLine file line oldLine newLine).line_code
      = file.file_hash ++ "_" ++ toString oldLine ++ "_" ++ toString newLine ∧
    (setHighlightedRow st (mapLine file line oldLine newLine).line_code).log
      = st.log ++
        [Effect.commit (.SET_HIGHLIGHTED_ROW (mapLine file line oldLine newLine).line_code),
         Effect.commit (.VIEW_DIFF_FILE file.file_hash)] ∧
    (setHighlightedRow st (mapLine file line oldLine newLine).line_code).state.currentDiffFileId
      = file.file_hash ∧
    (∀ (line2 : Line) (oldLine2 newLine2 : Nat),
      (mapLine file line oldLine newLine).line_code
        = (mapLine file line2 oldLine2 newLine2).line_code →
      oldLine = oldLine2 ∧ newLine = newLine2) := by
  have hsplit : String.mk (((lineCodeOf file.file_hash oldLine newLine).data.splitOn '_').headD [])
      = file.file_hash := by
    rw [lineCodeOf_data, splitOn_first _ _ hhash]
    rfl
  refine ⟨rfl, ?_, ?_, ?_⟩
  · simp only [setHighlightedRow, mapLine, hsplit, Store.commit, List.append_assoc]
    rfl
  · simp only [setHighlightedRow, mapLine, hsplit, Store.commit, applyMutation]
  · intro line2 oldLine2 newLine2 heq
    have hdata := congrArg String.data heq
    simp only [mapLine, lineCodeOf_data] at hdata
    have h1 := List.append_cancel_left hdata
    have h2 := (List.cons.inj h1).2
    obtain ⟨ho, hn⟩ := append_underscore_cancel _ _ _ _ (toDigits_no_underscore oldLine)
      (toDigits_no_underscore oldLine2) h2
    exact ⟨toDigits_injective _ _ ho, toDigits_injective _ _ hn⟩

/-- C15 at a concrete line: line 10/12 of the file `abc123` gets the line
code `abc123_10_12`, and highlighting that row selects the file `abc123`. -/
theorem setHighlightedRow_lineCode_roundtrip_witness :
    (mapLine (sampleFile "abc123") { old_line := 0, new_line := 0, line_code := "" }
      10 12).line_code = "abc123_10_12" ∧
    (setHighlightedRow ⟨emptyState, []⟩
      (mapLine (sampleFile "abc123") { old_line := 0, new_line := 0, line_code := "" }
        10 12).line_code).state.currentDiffFileId = "abc123" :=
  ⟨by decide,
   (setHighlightedRow_lineCode_roundtrip ⟨emptyState, []⟩ (sampleFile "abc123")
      { old_line := 0, new_line := 0, line_code := "" } 10 12 (by decide)).2.2.1⟩

end Diffs
